import Mathlib

/-!
Verification development for the sendmailzw mail platform backend.

The Python sources under src/api are shallowly embedded: pure computations
become Lean functions, database and Redis effects become explicit state
passing over small association-list stores, and machine integers become
Int or Nat.  Ambient inputs of the source (wall-clock time, random key
bytes, environment configuration) become explicit parameters.  Each
component lives in its own namespace:

 - SendRate   : shared/send.py check_send_limit (rate limiter)
 - Drain      : campaigns.py check_camps (queue drainer)
 - ListWriter : campaigns.py write_campaign_lists / campaign_start splits
 - Events     : events.py write_list (delivery event ingestion)
 - Adapters   : shared/send.py fatal-error handling of provider adapters
 - Crypto     : shared/send.py encrypt / unencrypt tracking-id codec
-/

namespace Adapters

/-- Campaign store: campaign id mapped to the pair
(finished_at timestamp, error string) once an error patch is applied.
A campaign id absent from the list has no error recorded. -/
abbrev CampStore := List (String × (String × String))

/-- db.campaigns.patch with a finished_at + error payload
(upsert keyed on the campaign id). -/
def patchCampError (camps : CampStore) (campid : String) (now errMsg : String) :
    CampStore :=
  match camps with
  | [] => [(campid, (now, errMsg))]
  | kv :: rest =>
      if kv.1 = campid then (campid, (now, errMsg)) :: rest
      else kv :: patchCampError rest campid now errMsg

/-- Lookup of a campaign error record. -/
def campLookup (camps : CampStore) (campid : String) : Option (String × String) :=
  (camps.find? (fun kv => kv.1 = campid)).map (fun kv => kv.2)

/-- shared/send.py lines 2489-2501: the `except Exception` handler of
do_sparkpost_send.  If write_err is set the campaign record is patched with
finished_at plus the error string; the exception is re-raised exactly when
campid is the test sentinel or raise_err is set.  Returns the campaign
store after the handler and whether the exception propagates. -/
def sparkpostFatalHandler (camps : CampStore) (write_err : Bool) (campid : String)
    (raise_err : Bool) (now errMsg : String) : CampStore × Bool :=
  let camps := if write_err then patchCampError camps campid now errMsg else camps
  (camps, campid = "test" || raise_err)

/-- shared/send.py lines 1975-1986: the `except Exception` handler of
do_smtprelay_send, identical in structure to the sparkpost one. -/
def smtprelayFatalHandler (camps : CampStore) (write_err : Bool) (campid : String)
    (raise_err : Bool) (now errMsg : String) : CampStore × Bool :=
  let camps := if write_err then patchCampError camps campid now errMsg else camps
  (camps, campid = "test" || raise_err)

theorem campLookup_patch_self (camps : CampStore) (campid now errMsg : String) :
    campLookup (patchCampError camps campid now errMsg) campid = some (now, errMsg) := by
  induction camps with
  | nil => simp [patchCampError, campLookup]
  | cons kv rest ih =>
      by_cases h : kv.1 = campid
      · simp [patchCampError, campLookup, h]
      · simp only [patchCampError, campLookup, if_neg h]
        simp only [campLookup] at ih
        simpa [List.find?, h] using ih

end Adapters

/-- C9: a fatal (non-recipient-specific) error during a production campaign
send (write_err is passed as True by send_queued_camp, raise_err defaults
to False, and the campaign id is a real id, not the "test" sentinel) is
written onto the campaign record as finished_at plus the error string and
is not re-raised; the same error during a user-initiated test send
(campid = "test", write_err left at its False default) is re-raised
synchronously and no campaign record is written.  This holds for both the
sparkpost and the smtprelay adapter handlers. -/
theorem c9_fatal_error_handling (camps : Adapters.CampStore) (campid now errMsg : String)
    (hprod : campid ≠ "test") :
    ((Adapters.sparkpostFatalHandler camps true campid false now errMsg).2 = false ∧
      Adapters.campLookup (Adapters.sparkpostFatalHandler camps true campid false now errMsg).1
        campid = some (now, errMsg)) ∧
    ((Adapters.smtprelayFatalHandler camps true campid false now errMsg).2 = false ∧
      Adapters.campLookup (Adapters.smtprelayFatalHandler camps true campid false now errMsg).1
        campid = some (now, errMsg)) ∧
    ((Adapters.sparkpostFatalHandler camps false "test" false now errMsg).2 = true ∧
      (Adapters.sparkpostFatalHandler camps false "test" false now errMsg).1 = camps) ∧
    ((Adapters.smtprelayFatalHandler camps false "test" false now errMsg).2 = true ∧
      (Adapters.smtprelayFatalHandler camps false "test" false now errMsg).1 = camps) := by
  refine ⟨⟨?_, ?_⟩, ⟨?_, ?_⟩, ⟨?_, ?_⟩, ⟨?_, ?_⟩⟩ <;>
    simp [Adapters.sparkpostFatalHandler, Adapters.smtprelayFatalHandler, hprod,
      Adapters.campLookup_patch_self]

/-- Witness for C9 at a concrete production campaign id and error. -/
theorem c9_fatal_error_handling_witness :
    (Adapters.sparkpostFatalHandler [] true "camp42" false "2024-01-01T00:00:00Z" "boom").2
      = false ∧
    Adapters.campLookup
      (Adapters.sparkpostFatalHandler [] true "camp42" false "2024-01-01T00:00:00Z" "boom").1
      "camp42" = some ("2024-01-01T00:00:00Z", "boom") :=
  ⟨(c9_fatal_error_handling [] "camp42" "2024-01-01T00:00:00Z" "boom" (by decide)).1.1,
   (c9_fatal_error_handling [] "camp42" "2024-01-01T00:00:00Z" "boom" (by decide)).1.2⟩

namespace SendRate

/-- A configured limit field as stored on the company record: absent/null,
a string (legacy empty value), or an integer. -/
inductive LimitSetting
  | noneVal
  | strVal (s : String)
  | intVal (n : Int)
deriving Repr, DecidableEq

/-- shared/utils.py lines 191-194: a string-valued limit is treated as
unset, an integer passes through, None stays None. -/
def fix_empty_limit : LimitSetting → Option Int
  | .noneVal => none
  | .strVal _ => none
  | .intVal n => some n

/-- The company fields read by check_send_limit
(shared/send.py lines 169-178).  trialend is the parsed trial end instant
(UTC), already converted from its ISO string form. -/
structure Company where
  id : String
  minlimit : LimitSetting
  hourlimit : LimitSetting
  daylimit : LimitSetting
  monthlimit : LimitSetting
  persendlimit : LimitSetting
  paused : Bool
  banned : Bool
  paid : Bool
  inreview : Bool
  trialend : Option Int
deriving Repr, DecidableEq

/-- Scan a glob bracket-expression body for its closing bracket, returning
the body characters and the remainder of the pattern. -/
def findCloseAux : List Char → Option (List Char × List Char)
  | [] => none
  | c :: rest =>
      if c = ']' then some ([], rest)
      else (findCloseAux rest).map (fun p => (c :: p.1, p.2))

theorem findCloseAux_length :
    ∀ (l b r : List Char), findCloseAux l = some (b, r) → r.length < l.length := by
  intro l
  induction l with
  | nil => intro b r h; simp [findCloseAux] at h
  | cons c rest ih =>
      intro b r h
      simp only [findCloseAux] at h
      split at h
      · cases h; simp
      · simp only [Option.map_eq_some'] at h
        obtain ⟨p, hp, he⟩ := h
        cases he
        have := ih p.1 p.2 (by rw [hp])
        simp only [List.length_cons]
        omega

/-- Body of a glob bracket expression: a closing bracket placed first is
literal, otherwise scan for the closing bracket. -/
def parseClassBody : List Char → Option (List Char × List Char)
  | [] => none
  | c :: rest =>
      if c = ']' then (findCloseAux rest).map (fun p => (']' :: p.1, p.2))
      else findCloseAux (c :: rest)

theorem parseClassBody_length (l : List Char) (b r : List Char)
    (h : parseClassBody l = some (b, r)) : r.length < l.length := by
  cases l with
  | nil => simp [parseClassBody] at h
  | cons c rest =>
      simp only [parseClassBody] at h
      split at h
      · simp only [Option.map_eq_some'] at h
        obtain ⟨p, hp, he⟩ := h
        cases he
        have := findCloseAux_length rest p.1 p.2 (by rw [hp])
        simp only [List.length_cons]; omega
      · have := findCloseAux_length (c :: rest) b r h
        exact this

/-- Parse a glob bracket expression: input is the pattern after the opening
bracket; result is (negated, body, rest after the closing bracket).  A
leading exclamation mark negates; with no closing bracket present the
expression is not a class (fnmatch then treats the opening bracket as a
literal character). -/
def parseClass : List Char → Option (Bool × List Char × List Char)
  | [] => none
  | c :: rest =>
      if c = '!' then (parseClassBody rest).map (fun p => (true, p.1, p.2))
      else (parseClassBody (c :: rest)).map (fun p => (false, p.1, p.2))

theorem parseClass_length (l : List Char) (n : Bool) (b r : List Char)
    (h : parseClass l = some (n, b, r)) : r.length < l.length := by
  cases l with
  | nil => simp [parseClass] at h
  | cons c rest =>
      simp only [parseClass] at h
      split at h <;>
      · simp only [Option.map_eq_some'] at h
        obtain ⟨p, hp, he⟩ := h
        cases he
        first
        | exact Nat.lt_trans (parseClassBody_length rest p.1 p.2 (by rw [hp]))
            (Nat.lt_succ_self _)
        | exact parseClassBody_length (c :: rest) p.1 p.2 (by rw [hp])

/-- Membership of a character in a bracket-expression body, with ranges. -/
def matchClassItems : List Char → Char → Bool
  | [], _ => false
  | a :: '-' :: b :: rest, c => (a ≤ c && c ≤ b) || matchClassItems rest c
  | a :: rest, c => a = c || matchClassItems rest c

/-- fnmatch.fnmatch as used for domain-throttle and policy domain patterns:
a full match of the glob pattern (with star, question mark and bracket
classes) against the string.  On posix no case normalization applies. -/
def globMatch (p s : List Char) : Bool :=
  match p, s with
  | [], s => s.isEmpty
  | '*' :: ps, s =>
      globMatch ps s ||
        (match s with
         | [] => false
         | _ :: ss => globMatch ('*' :: ps) ss)
  | '?' :: ps, s =>
      (match s with
       | [] => false
       | _ :: ss => globMatch ps ss)
  | '[' :: ps, s =>
      (match h : parseClass ps with
       | some q =>
           (match s with
            | [] => false
            | c :: ss =>
                (if q.1 then !(matchClassItems q.2.1 c) else matchClassItems q.2.1 c) &&
                  globMatch q.2.2 ss)
       | none =>
           (match s with
            | [] => false
            | c :: ss => (c = '[') && globMatch ps ss))
  | a :: ps, s =>
      (match s with
       | [] => false
       | c :: ss => (c = a) && globMatch ps ss)
termination_by p.length + s.length
decreasing_by
  all_goals simp only [List.length_cons]
  · omega
  · omega
  · omega
  · have := parseClass_length ps q.1 q.2.1 q.2.2 (by rw [h])
    omega
  · omega
  · omega

/-- fnmatch on strings. -/
def fnmatch (s pat : String) : Bool := globMatch pat.data s.data

/-- One active domain throttle as prepared by load_domain_throttles
(shared/send.py lines 149-159): its route, the whitespace-split lowercased
domain patterns, and its three limit fields. -/
structure DomainThrottle where
  route : String
  domainsparsed : List String
  minlimit : LimitSetting
  hourlimit : LimitSetting
  daylimit : LimitSetting
deriving Repr, DecidableEq

/-- The accumulator update of the throttle-resolution loop
(shared/send.py lines 214-240): assign when the accumulator is still None,
otherwise keep the smaller of the two when the new value is set. -/
def updMin (cur v : Option Int) : Option Int :=
  match cur with
  | none => v
  | some c =>
      match v with
      | some n => if n < c then some n else some c
      | none => some c

/-- Accumulators of the domain-throttle resolution: glob-matched and
exact-matched limits for the three windows. -/
structure DomAcc where
  dmin : Option Int
  dhour : Option Int
  dday : Option Int
  dminE : Option Int
  dhourE : Option Int
  ddayE : Option Int
deriving Repr, DecidableEq

/-- One iteration of the throttle loop (shared/send.py lines 198-240):
throttles of another route are skipped; an exact domain hit feeds the
exact accumulators, a glob hit feeds the glob accumulators. -/
def throttleStep (route domain : String) (acc : DomAcc) (dt : DomainThrottle) : DomAcc :=
  if dt.route ≠ route then acc
  else
    let exact := dt.domainsparsed.any (fun dp => dp = domain)
    let m := dt.domainsparsed.any (fun dp => fnmatch domain dp)
    let dtmin := fix_empty_limit dt.minlimit
    let dthour := fix_empty_limit dt.hourlimit
    let dtday := fix_empty_limit dt.daylimit
    let acc :=
      if exact then
        { acc with
          dminE := updMin acc.dminE dtmin
          dhourE := updMin acc.dhourE dthour
          ddayE := updMin acc.ddayE dtday }
      else acc
    if m then
      { acc with
        dmin := updMin acc.dmin dtmin
        dhour := updMin acc.dhour dthour
        dday := updMin acc.dday dtday }
    else acc

/-- The resolved effective domain limits (shared/send.py lines 189-247):
after folding over the throttles, an exact-match value overrides the
glob-match value per field. -/
def resolveDomainLimits (route domain : String) (dts : List DomainThrottle) :
    Option Int × Option Int × Option Int :=
  let acc := dts.foldl (throttleStep route domain) ⟨none, none, none, none, none, none⟩
  ((acc.dminE).elim acc.dmin some,
   (acc.dhourE).elim acc.dhour some,
   (acc.ddayE).elim acc.dday some)

/-- A Redis value: counters are integers, the limit-hit marker is a
timestamp string. -/
inductive StoreVal
  | intV (n : Int)
  | strV (s : String)
deriving Repr, DecidableEq

/-- The counter store, keyed by the Redis key strings the source builds. -/
abbrev Store := List (String × StoreVal)

def storeGet (st : Store) (k : String) : Option StoreVal :=
  (st.find? (fun kv => kv.1 = k)).map (fun kv => kv.2)

def storeSet (st : Store) (k : String) (v : StoreVal) : Store :=
  match st with
  | [] => [(k, v)]
  | kv :: rest => if kv.1 = k then (k, v) :: rest else kv :: storeSet rest k v

/-- `int(pipe.get(key) or 0)`: an absent key counts as 0.  Counter keys are
only ever written integer values by the program (a non-numeric string would
raise in the source; that path is unreachable and modeled as 0). -/
def readInt (st : Store) (k : String) : Int :=
  match storeGet st k with
  | some (.intV n) => n
  | some (.strV _) => 0
  | none => 0

/-- An effect on the counter store, for stating that a call performs no
counter access at all. -/
inductive StoreOp
  | readOp (k : String)
  | writeOp (k : String) (v : StoreVal)
deriving Repr, DecidableEq

/-- The wall-clock fields used to build counter keys: the adjusted local
time of the company (shared/send.py lines 182-185; the before-7am shift to
the previous day happens before any key is built and is part of producing
this ambient value). -/
structure LocalTime where
  minute : Nat
  hour : Nat
  day : Nat
  month : Nat
deriving Repr, DecidableEq

def minKey (cid : String) (lt : LocalTime) : String :=
  "sendratemin-" ++ (cid ++ (":" ++ toString lt.minute))

def hourKey (cid : String) (lt : LocalTime) : String :=
  "sendratehour-" ++ (cid ++ (":" ++ toString lt.hour))

def dayKey (cid : String) (lt : LocalTime) : String :=
  "sendrateday-" ++ (cid ++ (":" ++ toString lt.day))

def monthKey (cid : String) (lt : LocalTime) : String :=
  "sendratemonth-" ++ (cid ++ (":" ++ toString lt.month))

def domainMinKey (cid route domain : String) (lt : LocalTime) : String :=
  "sendratemin-" ++ (cid ++ ("-" ++ route ++ "-" ++ domain ++ ":" ++ toString lt.minute))

def domainHourKey (cid route domain : String) (lt : LocalTime) : String :=
  "sendratehour-" ++ (cid ++ ("-" ++ route ++ "-" ++ domain ++ ":" ++ toString lt.hour))

def domainDayKey (cid route domain : String) (lt : LocalTime) : String :=
  "sendrateday-" ++ (cid ++ ("-" ++ route ++ "-" ++ domain ++ ":" ++ toString lt.day))

def limitHitKey (cid : String) (lt : LocalTime) : String :=
  "limithit-" ++ (cid ++ (":" ++ toString lt.day))

def creditsKey (cid : String) : String := "credits-" ++ cid

def creditsExpireKey (cid : String) : String := "credits_expire-" ++ cid

/-- A window check `limit is not None and cnt >= limit`. -/
def atLimit (lim : Option Int) (cnt : Int) : Bool :=
  match lim with
  | some l => decide (l ≤ cnt)
  | none => false

/-- A domain window check
`limit is not None and cnt is not None and cnt >= limit`. -/
def atLimitD (lim : Option Int) (cnt : Option Int) : Bool :=
  match lim, cnt with
  | some l, some c => decide (l ≤ c)
  | _, _ => false

/-- `limit is not None and limit <= 0`. -/
def limAtMost0 (lim : Option Int) : Bool :=
  match lim with
  | some l => decide (l ≤ 0)
  | none => false

/-- Result of one check_send_limit call: the authorized count, the counter
store afterwards, and the log of counter reads and writes performed. -/
structure SendLimitResult where
  result : Int
  store : Store
  ops : List StoreOp
deriving Repr, DecidableEq

/-- The counter values read inside the watch block
(shared/send.py lines 305-333) together with the read log. -/
structure Counts where
  mincnt : Int
  hourcnt : Int
  daycnt : Int
  monthcnt : Int
  dmincnt : Option Int
  dhourcnt : Option Int
  ddaycnt : Option Int
  creditcnt : Int
  creditexpirecnt : Int
  readops : List StoreOp
deriving Repr, DecidableEq

/-- shared/send.py lines 305-333: the reads.  A domain counter is read only
when the corresponding resolved domain limit is set; the credit pools are
read only for paid companies. -/
def readCounts (company : Company) (route domain : String)
    (dml dhl ddl : Option Int) (lt : LocalTime) (st : Store) : Counts :=
  let cid := company.id
  { mincnt := readInt st (minKey cid lt)
    hourcnt := readInt st (hourKey cid lt)
    daycnt := readInt st (dayKey cid lt)
    monthcnt := readInt st (monthKey cid lt)
    dmincnt := dml.map (fun _ => readInt st (domainMinKey cid route domain lt))
    dhourcnt := dhl.map (fun _ => readInt st (domainHourKey cid route domain lt))
    ddaycnt := ddl.map (fun _ => readInt st (domainDayKey cid route domain lt))
    creditcnt := if company.paid then readInt st (creditsKey cid) else 0
    creditexpirecnt := if company.paid then readInt st (creditsExpireKey cid) else 0
    readops :=
      [StoreOp.readOp (minKey cid lt), .readOp (hourKey cid lt),
       .readOp (dayKey cid lt), .readOp (monthKey cid lt)] ++
      (match dml with
       | some _ => [StoreOp.readOp (domainMinKey cid route domain lt)]
       | none => []) ++
      (match dhl with
       | some _ => [StoreOp.readOp (domainHourKey cid route domain lt)]
       | none => []) ++
      (match ddl with
       | some _ => [StoreOp.readOp (domainDayKey cid route domain lt)]
       | none => []) ++
      (if company.paid then
        [StoreOp.readOp (creditsKey cid), .readOp (creditsExpireKey cid)]
       else []) }

/-- One step of the allowed-min chain: `if lim is not None:
allowed = min(allowed, f(lim))`. -/
def chainMin (acc : Int) (o : Option Int) (g : Int → Int) : Int :=
  match o with
  | some l => min acc (g l)
  | none => acc

/-- shared/send.py lines 390-408: the incremental min chain computing the
allowed amount, starting from the sentinel 9999999999999. -/
def computeAllowed (ml hl dl mo ps dml dhl ddl : Option Int) (paid : Bool)
    (c : Counts) : Int :=
  let allowed : Int := 9999999999999
  let allowed := chainMin allowed ml (fun l => l - c.mincnt)
  let allowed := chainMin allowed hl (fun l => l - c.hourcnt)
  let allowed := chainMin allowed dl (fun l => l - c.daycnt)
  let allowed := chainMin allowed mo (fun l => l - c.monthcnt)
  let allowed := match dml, c.dmincnt with
    | some l, some cc => min allowed (l - cc)
    | _, _ => allowed
  let allowed := match dhl, c.dhourcnt with
    | some l, some cc => min allowed (l - cc)
    | _, _ => allowed
  let allowed := match ddl, c.ddaycnt with
    | some l, some cc => min allowed (l - cc)
    | _, _ => allowed
  let allowed := if paid then min allowed (c.creditcnt + c.creditexpirecnt)
    else allowed
  chainMin allowed ps (fun l => l)

/-- shared/send.py lines 413-417: debit the authorized amount from the
non-expiring credit pool first, pushing any shortfall onto the expiring
pool. -/
def debitCredits (paid : Bool) (creditcnt creditexpirecnt result : Int) : Int × Int :=
  if paid then
    let c := creditcnt - result
    if c < 0 then (0, creditexpirecnt + c) else (c, creditexpirecnt)
  else (creditcnt, creditexpirecnt)

/-- shared/send.py lines 420-441: the pipelined counter writes, the credit
write-back for paid companies, and the limit-hit marker when this call is
the one that makes the day counter cross the day limit. -/
def writeBack (company : Company) (route domain : String) (dl : Option Int)
    (lt : LocalTime) (nowIso : String) (c : Counts) (result : Int)
    (daylimitok : Bool) (st : Store) : Store × List StoreOp :=
  let cid := company.id
  let cr := debitCredits company.paid c.creditcnt c.creditexpirecnt result
  let st := storeSet st (minKey cid lt) (.intV (c.mincnt + result))
  let ops := [StoreOp.writeOp (minKey cid lt) (.intV (c.mincnt + result))]
  let st := storeSet st (hourKey cid lt) (.intV (c.hourcnt + result))
  let ops := ops ++ [StoreOp.writeOp (hourKey cid lt) (.intV (c.hourcnt + result))]
  let st := storeSet st (dayKey cid lt) (.intV (c.daycnt + result))
  let ops := ops ++ [StoreOp.writeOp (dayKey cid lt) (.intV (c.daycnt + result))]
  let st := storeSet st (monthKey cid lt) (.intV (c.monthcnt + result))
  let ops := ops ++ [StoreOp.writeOp (monthKey cid lt) (.intV (c.monthcnt + result))]
  let st := match c.dmincnt with
    | some cc => storeSet st (domainMinKey cid route domain lt) (.intV (cc + result))
    | none => st
  let ops := ops ++ (match c.dmincnt with
    | some cc => [StoreOp.writeOp (domainMinKey cid route domain lt) (.intV (cc + result))]
    | none => [])
  let st := match c.dhourcnt with
    | some cc => storeSet st (domainHourKey cid route domain lt) (.intV (cc + result))
    | none => st
  let ops := ops ++ (match c.dhourcnt with
    | some cc => [StoreOp.writeOp (domainHourKey cid route domain lt) (.intV (cc + result))]
    | none => [])
  let st := match c.ddaycnt with
    | some cc => storeSet st (domainDayKey cid route domain lt) (.intV (cc + result))
    | none => st
  let ops := ops ++ (match c.ddaycnt with
    | some cc => [StoreOp.writeOp (domainDayKey cid route domain lt) (.intV (cc + result))]
    | none => [])
  let st := if company.paid then
      storeSet (storeSet st (creditsKey cid) (.intV cr.1)) (creditsExpireKey cid)
        (.intV cr.2)
    else st
  let ops := ops ++ (if company.paid then
    [StoreOp.writeOp (creditsKey cid) (.intV cr.1),
     StoreOp.writeOp (creditsExpireKey cid) (.intV cr.2)] else [])
  let hitNow := daylimitok &&
    (match dl with
     | some dlv => decide (dlv ≤ c.daycnt + result)
     | none => false)
  let st := if hitNow then storeSet st (limitHitKey cid lt) (.strV nowIso) else st
  let ops := ops ++
    (if hitNow then [StoreOp.writeOp (limitHitKey cid lt) (.strV nowIso)] else [])
  (st, ops)

/-- shared/send.py lines 162-447: check_send_limit.  The ambient inputs of
the source become parameters: lt is the adjusted local time, nowUtc the
instant compared against the trial end, nowIso its ISO rendering written to
the limit-hit marker.  The optimistic watch/multi/exec retry loop is the
concurrency-control wrapper of a single uninterfered iteration, which is
what this function embeds; key TTLs are dropped (expiry is wall-clock
behavior outside the state modeled here). -/
def check_send_limit (company : Company) (route domain : String)
    (domainthrottles : List DomainThrottle) (requested : Int)
    (lt : LocalTime) (nowUtc : Int) (nowIso : String) (st : Store) : SendLimitResult :=
  let minlimit := fix_empty_limit company.minlimit
  let hourlimit := fix_empty_limit company.hourlimit
  let daylimit := fix_empty_limit company.daylimit
  let monthlimit := fix_empty_limit company.monthlimit
  let persendlimit := fix_empty_limit company.persendlimit
  let dl := resolveDomainLimits route domain domainthrottles
  -- lines 253-265: zero or negative limits, paused or banned
  if limAtMost0 minlimit || limAtMost0 hourlimit || limAtMost0 daylimit ||
      limAtMost0 monthlimit || limAtMost0 dl.1 || limAtMost0 dl.2.1 ||
      limAtMost0 dl.2.2 || company.paused || company.banned then
    ⟨0, st, []⟩
  -- lines 267-269
  else if company.inreview then ⟨0, st, []⟩
  -- lines 270-276
  else if !company.paid &&
      (match company.trialend with
       | some te => decide (te < nowUtc)
       | none => false) then ⟨0, st, []⟩
  else
    let c := readCounts company route domain dl.1 dl.2.1 dl.2.2 lt st
    -- line 335
    let daylimitok :=
      match daylimit with
      | some dlv => decide (c.daycnt < dlv)
      | none => false
    -- lines 337-388: window and credit checks
    if atLimit minlimit c.mincnt then ⟨0, st, c.readops⟩
    else if atLimit hourlimit c.hourcnt then ⟨0, st, c.readops⟩
    else if atLimit daylimit c.daycnt then ⟨0, st, c.readops⟩
    else if atLimit monthlimit c.monthcnt then ⟨0, st, c.readops⟩
    else if atLimitD dl.1 c.dmincnt then ⟨0, st, c.readops⟩
    else if atLimitD dl.2.1 c.dhourcnt then ⟨0, st, c.readops⟩
    else if atLimitD dl.2.2 c.ddaycnt then ⟨0, st, c.readops⟩
    else if company.paid && decide (c.creditcnt + c.creditexpirecnt ≤ 0) then
      ⟨0, st, c.readops⟩
    else
      -- lines 390-441
      let result := min requested
        (computeAllowed minlimit hourlimit daylimit monthlimit persendlimit
          dl.1 dl.2.1 dl.2.2 company.paid c)
      let w := writeBack company route domain daylimit lt nowIso c result daylimitok st
      ⟨result, w.1, c.readops ++ w.2⟩

theorem storeGet_storeSet_self (st : Store) (k : String) (v : StoreVal) :
    storeGet (storeSet st k v) k = some v := by
  induction st with
  | nil => simp [storeSet, storeGet]
  | cons kv rest ih =>
      by_cases h : kv.1 = k
      · simp [storeSet, storeGet, h]
      · simp only [storeSet, if_neg h]
        simp only [storeGet] at ih ⊢
        simpa [List.find?, h] using ih

theorem storeGet_storeSet_ne (st : Store) (k k' : String) (v : StoreVal)
    (h : k' ≠ k) : storeGet (storeSet st k' v) k = storeGet st k := by
  induction st with
  | nil => simp [storeSet, storeGet, List.find?, h]
  | cons kv rest ih =>
      by_cases hk : kv.1 = k'
      · simp only [storeSet, if_pos hk]
        simp [storeGet, List.find?, h, hk, h.symm]
      · simp only [storeSet, if_neg hk]
        simp only [storeGet, List.find?] at ih ⊢
        by_cases hq : kv.1 = k
        · simp [hq]
        · simpa [hq] using ih

theorem readInt_storeSet_ne (st : Store) (k k' : String) (v : StoreVal)
    (h : k' ≠ k) : readInt (storeSet st k' v) k = readInt st k := by
  simp [readInt, storeGet_storeSet_ne st k k' v h]

theorem readInt_storeSet_self (st : Store) (k : String) (n : Int) :
    readInt (storeSet st k (.intV n)) k = n := by
  simp [readInt, storeGet_storeSet_self]

/-- Two strings with unequal characters at some index below both literal
prefixes stay unequal after appending arbitrary suffixes. -/
theorem append_str_ne (p q s t : String) (i : Nat) (h1 : i < p.length)
    (h2 : i < q.length) (h3 : p.data[i]? ≠ q.data[i]?) : p ++ s ≠ q ++ t := by
  intro he
  apply h3
  have hd : (p ++ s).data = (q ++ t).data := congrArg String.data he
  rw [String.data_append, String.data_append] at hd
  have h1' : i < p.data.length := h1
  have h2' : i < q.data.length := h2
  calc p.data[i]? = (p.data ++ s.data)[i]? := by
        rw [List.getElem?_append, if_pos h1']
    _ = (q.data ++ t.data)[i]? := by rw [hd]
    _ = q.data[i]? := by rw [List.getElem?_append, if_pos h2']

/-- A candidate contributed by an optionally-configured limit. -/
def optPiece (o : Option Int) (g : Int → Int) : List Int :=
  match o with
  | some l => [g l]
  | none => []

/-- Claim-side definition (from the spec wording of C2): the list of all
configured positive-headroom candidates — limit minus current count for
every configured company and domain window — plus the credit balance for
paid companies and the per-send cap when configured.  The claimed return
value is the minimum of these together with the requested amount. -/
def headroomCandidates (company : Company) (route domain : String)
    (dts : List DomainThrottle) (lt : LocalTime) (st : Store) : List Int :=
  let dl := resolveDomainLimits route domain dts
  optPiece (fix_empty_limit company.minlimit)
    (fun l => l - readInt st (minKey company.id lt)) ++
  (optPiece (fix_empty_limit company.hourlimit)
    (fun l => l - readInt st (hourKey company.id lt)) ++
  (optPiece (fix_empty_limit company.daylimit)
    (fun l => l - readInt st (dayKey company.id lt)) ++
  (optPiece (fix_empty_limit company.monthlimit)
    (fun l => l - readInt st (monthKey company.id lt)) ++
  (optPiece dl.1
    (fun l => l - readInt st (domainMinKey company.id route domain lt)) ++
  (optPiece dl.2.1
    (fun l => l - readInt st (domainHourKey company.id route domain lt)) ++
  (optPiece dl.2.2
    (fun l => l - readInt st (domainDayKey company.id route domain lt)) ++
  ((if company.paid then
     [readInt st (creditsKey company.id) + readInt st (creditsExpireKey company.id)]
    else []) ++
  optPiece (fix_empty_limit company.persendlimit) (fun l => l))))))))

end SendRate

/-- C1: whenever any configured company limit or any applicable (resolved)
domain-throttle limit is zero or negative, or the company is paused,
banned or in review, or the company is unpaid with an expired trial,
check_send_limit returns 0 immediately, leaves the counter store untouched
and performs no counter read or write at all. -/
theorem c1_immediate_zero_no_counters (company : SendRate.Company)
    (route domain : String) (dts : List SendRate.DomainThrottle) (requested : Int)
    (lt : SendRate.LocalTime) (nowUtc : Int) (nowIso : String) (st : SendRate.Store)
    (h : SendRate.limAtMost0 (SendRate.fix_empty_limit company.minlimit) = true ∨
      SendRate.limAtMost0 (SendRate.fix_empty_limit company.hourlimit) = true ∨
      SendRate.limAtMost0 (SendRate.fix_empty_limit company.daylimit) = true ∨
      SendRate.limAtMost0 (SendRate.fix_empty_limit company.monthlimit) = true ∨
      SendRate.limAtMost0 (SendRate.resolveDomainLimits route domain dts).1 = true ∨
      SendRate.limAtMost0 (SendRate.resolveDomainLimits route domain dts).2.1 = true ∨
      SendRate.limAtMost0 (SendRate.resolveDomainLimits route domain dts).2.2 = true ∨
      company.paused = true ∨ company.banned = true ∨ company.inreview = true ∨
      (company.paid = false ∧ ∃ te, company.trialend = some te ∧ te < nowUtc)) :
    SendRate.check_send_limit company route domain dts requested lt nowUtc nowIso st =
      ⟨0, st, []⟩ := by
  have hb : (SendRate.limAtMost0 (SendRate.fix_empty_limit company.minlimit) ||
      SendRate.limAtMost0 (SendRate.fix_empty_limit company.hourlimit) ||
      SendRate.limAtMost0 (SendRate.fix_empty_limit company.daylimit) ||
      SendRate.limAtMost0 (SendRate.fix_empty_limit company.monthlimit) ||
      SendRate.limAtMost0 (SendRate.resolveDomainLimits route domain dts).1 ||
      SendRate.limAtMost0 (SendRate.resolveDomainLimits route domain dts).2.1 ||
      SendRate.limAtMost0 (SendRate.resolveDomainLimits route domain dts).2.2 ||
      company.paused || company.banned) = true ∨
      company.inreview = true ∨
      (!company.paid &&
        (match company.trialend with
         | some te => decide (te < nowUtc)
         | none => false)) = true := by
    rcases h with h | h | h | h | h | h | h | h | h | h | h
    · exact Or.inl (by simp [h])
    · exact Or.inl (by simp [h])
    · exact Or.inl (by simp [h])
    · exact Or.inl (by simp [h])
    · exact Or.inl (by simp [h])
    · exact Or.inl (by simp [h])
    · exact Or.inl (by simp [h])
    · exact Or.inl (by simp [h])
    · exact Or.inl (by simp [h])
    · exact Or.inr (Or.inl h)
    · obtain ⟨hpaid, te, hte, hlt⟩ := h
      exact Or.inr (Or.inr (by simp [hpaid, hte, hlt]))
  rcases hb with hb | hb | hb <;>
    simp [SendRate.check_send_limit, hb]

/-- Witness for C1: a company whose day limit is configured to 0 and whose
day counter already holds a value; the call returns 0 and the store (with
its existing counter) is byte-for-byte unchanged, with an empty op log. -/
theorem c1_immediate_zero_no_counters_witness :
    SendRate.check_send_limit
      ⟨"c1", .noneVal, .noneVal, .intVal 0, .noneVal, .noneVal,
        false, false, false, false, none⟩
      "r" "example.com" [] 5 ⟨10, 11, 12, 6⟩ 0 ""
      [(SendRate.dayKey "c1" ⟨10, 11, 12, 6⟩, .intV 3)] =
      ⟨0, [(SendRate.dayKey "c1" ⟨10, 11, 12, 6⟩, .intV 3)], []⟩ :=
  c1_immediate_zero_no_counters
    ⟨"c1", .noneVal, .noneVal, .intVal 0, .noneVal, .noneVal,
      false, false, false, false, none⟩
    "r" "example.com" [] 5 ⟨10, 11, 12, 6⟩ 0 ""
    [(SendRate.dayKey "c1" ⟨10, 11, 12, 6⟩, .intV 3)]
    (Or.inr (Or.inr (Or.inl (by decide))))

/-- C2 counterexample: for a company with no limit configured at all,
unpaid with no trial end and no per-send cap, the claim says the call
returns the minimum over an empty set of headrooms and the requested
amount, i.e. the requested amount itself; the code instead caps the result
by its internal sentinel 9999999999999, so requesting 10^13 returns
9999999999999 rather than 10^13. -/
theorem c2_counterexample :
    (SendRate.check_send_limit
      ⟨"c1", .noneVal, .noneVal, .noneVal, .noneVal, .noneVal,
        false, false, false, false, none⟩
      "r" "example.com" [] 10000000000000 ⟨10, 11, 12, 6⟩ 0 "" []).result =
      9999999999999 ∧ (9999999999999 : Int) ≠ 10000000000000 := by
  constructor
  · decide
  · decide

theorem readCounts_mincnt (company : SendRate.Company) (route domain : String)
    (dml dhl ddl : Option Int) (lt : SendRate.LocalTime) (st : SendRate.Store) :
    (SendRate.readCounts company route domain dml dhl ddl lt st).mincnt =
      SendRate.readInt st (SendRate.minKey company.id lt) := rfl

theorem readCounts_hourcnt (company : SendRate.Company) (route domain : String)
    (dml dhl ddl : Option Int) (lt : SendRate.LocalTime) (st : SendRate.Store) :
    (SendRate.readCounts company route domain dml dhl ddl lt st).hourcnt =
      SendRate.readInt st (SendRate.hourKey company.id lt) := rfl

theorem readCounts_daycnt (company : SendRate.Company) (route domain : String)
    (dml dhl ddl : Option Int) (lt : SendRate.LocalTime) (st : SendRate.Store) :
    (SendRate.readCounts company route domain dml dhl ddl lt st).daycnt =
      SendRate.readInt st (SendRate.dayKey company.id lt) := rfl

theorem readCounts_monthcnt (company : SendRate.Company) (route domain : String)
    (dml dhl ddl : Option Int) (lt : SendRate.LocalTime) (st : SendRate.Store) :
    (SendRate.readCounts company route domain dml dhl ddl lt st).monthcnt =
      SendRate.readInt st (SendRate.monthKey company.id lt) := rfl

theorem readCounts_dmincnt (company : SendRate.Company) (route domain : String)
    (dml dhl ddl : Option Int) (lt : SendRate.LocalTime) (st : SendRate.Store) :
    (SendRate.readCounts company route domain dml dhl ddl lt st).dmincnt =
      dml.map (fun _ => SendRate.readInt st
        (SendRate.domainMinKey company.id route domain lt)) := rfl

theorem readCounts_dhourcnt (company : SendRate.Company) (route domain : String)
    (dml dhl ddl : Option Int) (lt : SendRate.LocalTime) (st : SendRate.Store) :
    (SendRate.readCounts company route domain dml dhl ddl lt st).dhourcnt =
      dhl.map (fun _ => SendRate.readInt st
        (SendRate.domainHourKey company.id route domain lt)) := rfl

theorem readCounts_ddaycnt (company : SendRate.Company) (route domain : String)
    (dml dhl ddl : Option Int) (lt : SendRate.LocalTime) (st : SendRate.Store) :
    (SendRate.readCounts company route domain dml dhl ddl lt st).ddaycnt =
      ddl.map (fun _ => SendRate.readInt st
        (SendRate.domainDayKey company.id route domain lt)) := rfl

theorem readCounts_creditcnt (company : SendRate.Company) (route domain : String)
    (dml dhl ddl : Option Int) (lt : SendRate.LocalTime) (st : SendRate.Store) :
    (SendRate.readCounts company route domain dml dhl ddl lt st).creditcnt =
      (if company.paid then SendRate.readInt st (SendRate.creditsKey company.id)
       else 0) := rfl

theorem readCounts_creditexpirecnt (company : SendRate.Company) (route domain : String)
    (dml dhl ddl : Option Int) (lt : SendRate.LocalTime) (st : SendRate.Store) :
    (SendRate.readCounts company route domain dml dhl ddl lt st).creditexpirecnt =
      (if company.paid then SendRate.readInt st (SendRate.creditsExpireKey company.id)
       else 0) := rfl

theorem foldl_optPiece (o : Option Int) (g : Int → Int) (acc : Int)
    (rest : List Int) :
    List.foldl min acc (SendRate.optPiece o g ++ rest) =
      List.foldl min (SendRate.chainMin acc o g) rest := by
  cases o <;> simp [SendRate.optPiece, SendRate.chainMin]

theorem foldl_ifPiece (b : Bool) (x acc : Int) (rest : List Int) :
    List.foldl min acc ((if b then [x] else []) ++ rest) =
      List.foldl min (if b then min acc x else acc) rest := by
  cases b <;> simp

theorem foldl_optLast (o : Option Int) (g : Int → Int) (acc : Int) :
    List.foldl min acc (SendRate.optPiece o g) = SendRate.chainMin acc o g := by
  cases o <;> simp [SendRate.optPiece, SendRate.chainMin]

/-- The incremental min chain of the code equals the minimum over the
claim-side candidate list, starting from the sentinel. -/
theorem computeAllowed_eq_foldl (company : SendRate.Company) (route domain : String)
    (dts : List SendRate.DomainThrottle) (lt : SendRate.LocalTime)
    (st : SendRate.Store) :
    SendRate.computeAllowed (SendRate.fix_empty_limit company.minlimit)
      (SendRate.fix_empty_limit company.hourlimit)
      (SendRate.fix_empty_limit company.daylimit)
      (SendRate.fix_empty_limit company.monthlimit)
      (SendRate.fix_empty_limit company.persendlimit)
      (SendRate.resolveDomainLimits route domain dts).1
      (SendRate.resolveDomainLimits route domain dts).2.1
      (SendRate.resolveDomainLimits route domain dts).2.2
      company.paid
      (SendRate.readCounts company route domain
        (SendRate.resolveDomainLimits route domain dts).1
        (SendRate.resolveDomainLimits route domain dts).2.1
        (SendRate.resolveDomainLimits route domain dts).2.2 lt st) =
      List.foldl min 9999999999999
        (SendRate.headroomCandidates company route domain dts lt st) := by
  simp only [SendRate.headroomCandidates]
  rw [foldl_optPiece, foldl_optPiece, foldl_optPiece, foldl_optPiece, foldl_optPiece,
    foldl_optPiece, foldl_optPiece, foldl_ifPiece, foldl_optLast]
  simp only [SendRate.computeAllowed, readCounts_mincnt, readCounts_hourcnt,
    readCounts_daycnt, readCounts_monthcnt, readCounts_dmincnt, readCounts_dhourcnt,
    readCounts_ddaycnt, readCounts_creditcnt, readCounts_creditexpirecnt]
  rcases hdm : (SendRate.resolveDomainLimits route domain dts).1 with _ | dmv <;>
  rcases hdh : (SendRate.resolveDomainLimits route domain dts).2.1 with _ | dhv <;>
  rcases hdd : (SendRate.resolveDomainLimits route domain dts).2.2 with _ | ddv <;>
  rcases hpd : company.paid with _ | _ <;>
    simp only [hdm, hdh, hdd, hpd, Option.map_some', Option.map_none', if_true, if_false,
      Bool.false_eq_true, Bool.true_eq_false, SendRate.chainMin, ite_true, ite_false]

theorem readInt_ite_set (B : Bool) (X : SendRate.Store) (k k' : String)
    (v : SendRate.StoreVal) (h : k ≠ k') :
    SendRate.readInt (if B then SendRate.storeSet X k v else X) k' =
      SendRate.readInt X k' := by
  cases B <;> simp [SendRate.readInt_storeSet_ne _ _ _ _ h]

theorem readInt_matchOpt_set (o : Option Int) (f : Int → SendRate.StoreVal)
    (X : SendRate.Store) (k k' : String) (h : k ≠ k') :
    SendRate.readInt
      (match o with
       | some cc => SendRate.storeSet X k (f cc)
       | none => X) k' = SendRate.readInt X k' := by
  cases o <;> simp [SendRate.readInt_storeSet_ne _ _ _ _ h]

/-- The allowed amount computed for a paid company never exceeds the sum of
the two credit pools. -/
theorem computeAllowed_le_credits (ml hl dl mo ps dml dhl ddl : Option Int)
    (c : SendRate.Counts) :
    SendRate.computeAllowed ml hl dl mo ps dml dhl ddl true c ≤
      c.creditcnt + c.creditexpirecnt := by
  simp only [SendRate.computeAllowed, SendRate.chainMin, if_true]
  cases ps
  · exact min_le_right _ _
  · exact le_trans (min_le_left _ _) (min_le_right _ _)

/-- After writeBack for a paid company, the two credit keys hold exactly
the debited pools. -/
theorem writeBack_credits (company : SendRate.Company) (route domain : String)
    (dl : Option Int) (lt : SendRate.LocalTime) (nowIso : String)
    (c : SendRate.Counts) (result : Int) (ok : Bool) (st : SendRate.Store)
    (hpaid : company.paid = true) :
    SendRate.readInt
        (SendRate.writeBack company route domain dl lt nowIso c result ok st).1
        (SendRate.creditsKey company.id) =
      (SendRate.debitCredits true c.creditcnt c.creditexpirecnt result).1 ∧
    SendRate.readInt
        (SendRate.writeBack company route domain dl lt nowIso c result ok st).1
        (SendRate.creditsExpireKey company.id) =
      (SendRate.debitCredits true c.creditcnt c.creditexpirecnt result).2 := by
  have hLkCk : SendRate.limitHitKey company.id lt ≠ SendRate.creditsKey company.id :=
    SendRate.append_str_ne _ _ _ _ 0 (by decide) (by decide) (by decide)
  have hLkEk : SendRate.limitHitKey company.id lt ≠ SendRate.creditsExpireKey company.id :=
    SendRate.append_str_ne _ _ _ _ 0 (by decide) (by decide) (by decide)
  have hEkCk : SendRate.creditsExpireKey company.id ≠ SendRate.creditsKey company.id :=
    SendRate.append_str_ne _ _ _ _ 7 (by decide) (by decide) (by decide)
  simp only [SendRate.writeBack, hpaid, if_true]
  constructor
  · rw [readInt_ite_set _ _ _ _ _ hLkCk,
      SendRate.readInt_storeSet_ne _ _ _ _ hEkCk,
      SendRate.readInt_storeSet_self]
  · rw [readInt_ite_set _ _ _ _ _ hLkEk, SendRate.readInt_storeSet_self]

/-- The possible outcomes of one check_send_limit call: either 0 with the
store untouched, or the paid-credit check passed and the result is the min
of requested and the computed allowed amount, with the store produced by
writeBack. -/
def CheckOutcome (company : SendRate.Company) (route domain : String)
    (dts : List SendRate.DomainThrottle) (requested : Int) (lt : SendRate.LocalTime)
    (nowIso : String) (st : SendRate.Store) (r : SendRate.SendLimitResult) : Prop :=
  (r.result = 0 ∧ r.store = st) ∨
  ((company.paid && decide
      ((SendRate.readCounts company route domain
        (SendRate.resolveDomainLimits route domain dts).1
        (SendRate.resolveDomainLimits route domain dts).2.1
        (SendRate.resolveDomainLimits route domain dts).2.2 lt st).creditcnt +
       (SendRate.readCounts company route domain
        (SendRate.resolveDomainLimits route domain dts).1
        (SendRate.resolveDomainLimits route domain dts).2.1
        (SendRate.resolveDomainLimits route domain dts).2.2 lt st).creditexpirecnt
       ≤ 0)) = false ∧
    r.result =
      min requested
        (SendRate.computeAllowed (SendRate.fix_empty_limit company.minlimit)
          (SendRate.fix_empty_limit company.hourlimit)
          (SendRate.fix_empty_limit company.daylimit)
          (SendRate.fix_empty_limit company.monthlimit)
          (SendRate.fix_empty_limit company.persendlimit)
          (SendRate.resolveDomainLimits route domain dts).1
          (SendRate.resolveDomainLimits route domain dts).2.1
          (SendRate.resolveDomainLimits route domain dts).2.2
          company.paid
          (SendRate.readCounts company route domain
            (SendRate.resolveDomainLimits route domain dts).1
            (SendRate.resolveDomainLimits route domain dts).2.1
            (SendRate.resolveDomainLimits route domain dts).2.2 lt st)) ∧
    r.store =
      (SendRate.writeBack company route domain
        (SendRate.fix_empty_limit company.daylimit) lt nowIso
        (SendRate.readCounts company route domain
          (SendRate.resolveDomainLimits route domain dts).1
          (SendRate.resolveDomainLimits route domain dts).2.1
          (SendRate.resolveDomainLimits route domain dts).2.2 lt st)
        r.result
        (match SendRate.fix_empty_limit company.daylimit with
         | some dlv => decide
            ((SendRate.readCounts company route domain
              (SendRate.resolveDomainLimits route domain dts).1
              (SendRate.resolveDomainLimits route domain dts).2.1
              (SendRate.resolveDomainLimits route domain dts).2.2 lt st).daycnt < dlv)
         | none => false) st).1)

/-- Structural case split on check_send_limit. -/
theorem check_send_limit_cases (company : SendRate.Company) (route domain : String)
    (dts : List SendRate.DomainThrottle) (requested : Int) (lt : SendRate.LocalTime)
    (nowUtc : Int) (nowIso : String) (st : SendRate.Store) :
    CheckOutcome company route domain dts requested lt nowIso st
      (SendRate.check_send_limit company route domain dts requested lt nowUtc nowIso
        st) := by
  by_cases h1 : (SendRate.limAtMost0 (SendRate.fix_empty_limit company.minlimit) ||
      SendRate.limAtMost0 (SendRate.fix_empty_limit company.hourlimit) ||
      SendRate.limAtMost0 (SendRate.fix_empty_limit company.daylimit) ||
      SendRate.limAtMost0 (SendRate.fix_empty_limit company.monthlimit) ||
      SendRate.limAtMost0 (SendRate.resolveDomainLimits route domain dts).1 ||
      SendRate.limAtMost0 (SendRate.resolveDomainLimits route domain dts).2.1 ||
      SendRate.limAtMost0 (SendRate.resolveDomainLimits route domain dts).2.2 ||
      company.paused || company.banned) = true
  · simp only [SendRate.check_send_limit, h1, if_true]
    exact Or.inl ⟨rfl, rfl⟩
  by_cases h2 : company.inreview = true
  · simp only [SendRate.check_send_limit, h1, h2]
    exact Or.inl ⟨rfl, rfl⟩
  by_cases h3 : (!company.paid &&
      (match company.trialend with
       | some te => decide (te < nowUtc)
       | none => false)) = true
  · simp only [SendRate.check_send_limit, h1, h2, h3]
    exact Or.inl ⟨rfl, rfl⟩
  by_cases h4 : SendRate.atLimit (SendRate.fix_empty_limit company.minlimit)
      (SendRate.readCounts company route domain
        (SendRate.resolveDomainLimits route domain dts).1
        (SendRate.resolveDomainLimits route domain dts).2.1
        (SendRate.resolveDomainLimits route domain dts).2.2 lt st).mincnt = true
  · simp only [SendRate.check_send_limit, h1, h2, h3, h4]
    exact Or.inl ⟨rfl, rfl⟩
  by_cases h5 : SendRate.atLimit (SendRate.fix_empty_limit company.hourlimit)
      (SendRate.readCounts company route domain
        (SendRate.resolveDomainLimits route domain dts).1
        (SendRate.resolveDomainLimits route domain dts).2.1
        (SendRate.resolveDomainLimits route domain dts).2.2 lt st).hourcnt = true
  · simp only [SendRate.check_send_limit, h1, h2, h3, h4, h5]
    exact Or.inl ⟨rfl, rfl⟩
  by_cases h6 : SendRate.atLimit (SendRate.fix_empty_limit company.daylimit)
      (SendRate.readCounts company route domain
        (SendRate.resolveDomainLimits route domain dts).1
        (SendRate.resolveDomainLimits route domain dts).2.1
        (SendRate.resolveDomainLimits route domain dts).2.2 lt st).daycnt = true
  · simp only [SendRate.check_send_limit, h1, h2, h3, h4, h5, h6]
    exact Or.inl ⟨rfl, rfl⟩
  by_cases h7 : SendRate.atLimit (SendRate.fix_empty_limit company.monthlimit)
      (SendRate.readCounts company route domain
        (SendRate.resolveDomainLimits route domain dts).1
        (SendRate.resolveDomainLimits route domain dts).2.1
        (SendRate.resolveDomainLimits route domain dts).2.2 lt st).monthcnt = true
  · simp only [SendRate.check_send_limit, h1, h2, h3, h4, h5, h6, h7]
    exact Or.inl ⟨rfl, rfl⟩
  by_cases h8 : SendRate.atLimitD (SendRate.resolveDomainLimits route domain dts).1
      (SendRate.readCounts company route domain
        (SendRate.resolveDomainLimits route domain dts).1
        (SendRate.resolveDomainLimits route domain dts).2.1
        (SendRate.resolveDomainLimits route domain dts).2.2 lt st).dmincnt = true
  · simp only [SendRate.check_send_limit, h1, h2, h3, h4, h5, h6, h7, h8]
    exact Or.inl ⟨rfl, rfl⟩
  by_cases h9 : SendRate.atLimitD (SendRate.resolveDomainLimits route domain dts).2.1
      (SendRate.readCounts company route domain
        (SendRate.resolveDomainLimits route domain dts).1
        (SendRate.resolveDomainLimits route domain dts).2.1
        (SendRate.resolveDomainLimits route domain dts).2.2 lt st).dhourcnt = true
  · simp only [SendRate.check_send_limit, h1, h2, h3, h4, h5, h6, h7, h8, h9]
    exact Or.inl ⟨rfl, rfl⟩
  by_cases h10 : SendRate.atLimitD (SendRate.resolveDomainLimits route domain dts).2.2
      (SendRate.readCounts company route domain
        (SendRate.resolveDomainLimits route domain dts).1
        (SendRate.resolveDomainLimits route domain dts).2.1
        (SendRate.resolveDomainLimits route domain dts).2.2 lt st).ddaycnt = true
  · simp only [SendRate.check_send_limit, h1, h2, h3, h4, h5, h6, h7, h8, h9, h10]
    exact Or.inl ⟨rfl, rfl⟩
  by_cases h11 : (company.paid && decide
      ((SendRate.readCounts company route domain
        (SendRate.resolveDomainLimits route domain dts).1
        (SendRate.resolveDomainLimits route domain dts).2.1
        (SendRate.resolveDomainLimits route domain dts).2.2 lt st).creditcnt +
       (SendRate.readCounts company route domain
        (SendRate.resolveDomainLimits route domain dts).1
        (SendRate.resolveDomainLimits route domain dts).2.1
        (SendRate.resolveDomainLimits route domain dts).2.2 lt st).creditexpirecnt
       ≤ 0)) = true
  · simp only [SendRate.check_send_limit, h1, h2, h3, h4, h5, h6, h7, h8, h9, h10, h11]
    exact Or.inl ⟨rfl, rfl⟩
  · simp only [SendRate.check_send_limit, h1, h2, h3, h4, h5, h6, h7, h8, h9, h10, h11]
    exact Or.inr ⟨by simpa using h11, rfl, rfl⟩

/-- Unfolded form of debitCredits: the non-expiring pool is debited first,
the expiring pool takes only the shortfall. -/
theorem debitCredits_spec (ck ek result : Int) :
    (SendRate.debitCredits true ck ek result).1 = max (ck - result) 0 ∧
    (SendRate.debitCredits true ck ek result).2 = ek - max (result - ck) 0 := by
  simp only [SendRate.debitCredits, if_true]
  constructor <;> split <;> omega

/-- C3: for a paid company, if the two credit pools sum to zero or less the
call returns 0 with the store untouched; otherwise whatever amount n it
authorizes is debited n-first from the non-expiring pool (credits key) with
only the shortfall taken from the expiring pool (credits_expire key), and
neither stored pool value ever becomes negative. -/
theorem c3_credit_pools (company : SendRate.Company) (route domain : String)
    (dts : List SendRate.DomainThrottle) (requested : Int) (lt : SendRate.LocalTime)
    (nowUtc : Int) (nowIso : String) (st : SendRate.Store)
    (hpaid : company.paid = true) :
    (SendRate.readInt st (SendRate.creditsKey company.id) +
        SendRate.readInt st (SendRate.creditsExpireKey company.id) ≤ 0 →
      (SendRate.check_send_limit company route domain dts requested lt nowUtc nowIso
        st).result = 0 ∧
      (SendRate.check_send_limit company route domain dts requested lt nowUtc nowIso
        st).store = st) ∧
    (0 ≤ SendRate.readInt st (SendRate.creditsKey company.id) →
     0 ≤ SendRate.readInt st (SendRate.creditsExpireKey company.id) →
      SendRate.readInt
          (SendRate.check_send_limit company route domain dts requested lt nowUtc
            nowIso st).store (SendRate.creditsKey company.id) =
        max (SendRate.readInt st (SendRate.creditsKey company.id) -
          (SendRate.check_send_limit company route domain dts requested lt nowUtc
            nowIso st).result) 0 ∧
      SendRate.readInt
          (SendRate.check_send_limit company route domain dts requested lt nowUtc
            nowIso st).store (SendRate.creditsExpireKey company.id) =
        SendRate.readInt st (SendRate.creditsExpireKey company.id) -
          max ((SendRate.check_send_limit company route domain dts requested lt nowUtc
            nowIso st).result -
            SendRate.readInt st (SendRate.creditsKey company.id)) 0 ∧
      0 ≤ SendRate.readInt
          (SendRate.check_send_limit company route domain dts requested lt nowUtc
            nowIso st).store (SendRate.creditsKey company.id) ∧
      0 ≤ SendRate.readInt
          (SendRate.check_send_limit company route domain dts requested lt nowUtc
            nowIso st).store (SendRate.creditsExpireKey company.id)) := by
  have hcases := check_send_limit_cases company route domain dts requested lt nowUtc
    nowIso st
  rcases hcases with ⟨hr0, hs0⟩ | ⟨hcred, hres, hstore⟩
  · constructor
    · intro _; exact ⟨hr0, hs0⟩
    · intro hck hek
      rw [hs0, hr0]
      exact ⟨by omega, by omega, by omega, by omega⟩
  · have hsum : ¬((SendRate.readInt st (SendRate.creditsKey company.id) +
        SendRate.readInt st (SendRate.creditsExpireKey company.id)) ≤ 0) := by
      rw [hpaid] at hcred
      simp only [readCounts_creditcnt, readCounts_creditexpirecnt, hpaid, if_true,
        Bool.true_and, decide_eq_false_iff_not] at hcred
      exact hcred
    constructor
    · intro hA; exact absurd hA hsum
    · intro hck hek
      have hb : (SendRate.check_send_limit company route domain dts requested lt nowUtc
          nowIso st).result ≤
          SendRate.readInt st (SendRate.creditsKey company.id) +
          SendRate.readInt st (SendRate.creditsExpireKey company.id) := by
        rw [hres, hpaid]
        refine le_trans (min_le_right _ _) (le_trans (computeAllowed_le_credits _ _ _ _
          _ _ _ _ _) ?_)
        simp [readCounts_creditcnt, readCounts_creditexpirecnt, hpaid]
      obtain ⟨hwc, hwe⟩ := writeBack_credits company route domain
        (SendRate.fix_empty_limit company.daylimit) lt nowIso
        (SendRate.readCounts company route domain
          (SendRate.resolveDomainLimits route domain dts).1
          (SendRate.resolveDomainLimits route domain dts).2.1
          (SendRate.resolveDomainLimits route domain dts).2.2 lt st)
        ((SendRate.check_send_limit company route domain dts requested lt nowUtc
          nowIso st).result)
        (match SendRate.fix_empty_limit company.daylimit with
         | some dlv => decide
            ((SendRate.readCounts company route domain
              (SendRate.resolveDomainLimits route domain dts).1
              (SendRate.resolveDomainLimits route domain dts).2.1
              (SendRate.resolveDomainLimits route domain dts).2.2 lt st).daycnt < dlv)
         | none => false) st hpaid
      rw [hstore, hwc, hwe]
      obtain ⟨hd1, hd2⟩ := debitCredits_spec
        ((SendRate.readCounts company route domain
          (SendRate.resolveDomainLimits route domain dts).1
          (SendRate.resolveDomainLimits route domain dts).2.1
          (SendRate.resolveDomainLimits route domain dts).2.2 lt st).creditcnt)
        ((SendRate.readCounts company route domain
          (SendRate.resolveDomainLimits route domain dts).1
          (SendRate.resolveDomainLimits route domain dts).2.1
          (SendRate.resolveDomainLimits route domain dts).2.2 lt st).creditexpirecnt)
        ((SendRate.check_send_limit company route domain dts requested lt nowUtc
          nowIso st).result)
      rw [hd1, hd2]
      simp only [readCounts_creditcnt, readCounts_creditexpirecnt, hpaid, if_true]
      exact ⟨trivial, trivial, by omega, by omega⟩

/-- Witness for C3 at a paid company holding 5 non-expiring and 10 expiring
credits, requesting 8: 8 sends are authorized, the non-expiring pool drops
to 0 and the expiring pool covers the shortfall of 3. -/
theorem c3_credit_pools_witness :
    0 ≤ SendRate.readInt
      [(SendRate.creditsKey "c1", SendRate.StoreVal.intV 5),
       (SendRate.creditsExpireKey "c1", SendRate.StoreVal.intV 10)]
      (SendRate.creditsKey "c1") ∧
    SendRate.readInt
        (SendRate.check_send_limit
          ⟨"c1", .noneVal, .noneVal, .noneVal, .noneVal, .noneVal,
            false, false, true, false, none⟩
          "r" "example.com" [] 8 ⟨10, 11, 12, 6⟩ 0 ""
          [(SendRate.creditsKey "c1", SendRate.StoreVal.intV 5),
           (SendRate.creditsExpireKey "c1", SendRate.StoreVal.intV 10)]).store
        (SendRate.creditsKey "c1") =
      max (SendRate.readInt
        [(SendRate.creditsKey "c1", SendRate.StoreVal.intV 5),
         (SendRate.creditsExpireKey "c1", SendRate.StoreVal.intV 10)]
        (SendRate.creditsKey "c1") -
        (SendRate.check_send_limit
          ⟨"c1", .noneVal, .noneVal, .noneVal, .noneVal, .noneVal,
            false, false, true, false, none⟩
          "r" "example.com" [] 8 ⟨10, 11, 12, 6⟩ 0 ""
          [(SendRate.creditsKey "c1", SendRate.StoreVal.intV 5),
           (SendRate.creditsExpireKey "c1", SendRate.StoreVal.intV 10)]).result) 0 :=
  ⟨by decide,
   ((c3_credit_pools
      ⟨"c1", .noneVal, .noneVal, .noneVal, .noneVal, .noneVal,
        false, false, true, false, none⟩
      "r" "example.com" [] 8 ⟨10, 11, 12, 6⟩ 0 ""
      [(SendRate.creditsKey "c1", SendRate.StoreVal.intV 5),
       (SendRate.creditsExpireKey "c1", SendRate.StoreVal.intV 10)]
      (by decide)).2 (by decide) (by decide)).1⟩

/-- C2 (amended): when no immediate-zero condition applies, no window
counter has reached its limit and a paid company still has credit,
check_send_limit returns the minimum of the requested amount and of all
configured headrooms (limit minus current count for every applicable
company and domain window), the credit balance for paid companies, the
per-send cap when configured — and the internal sentinel 9999999999999,
which bounds the result when no finite candidate applies.  In particular a
company whose only configured limit is daylimit = 100, with zero sends
counted today, requesting 150 is returned 100, and a subsequent request in
the same local day is returned 0. -/
theorem c2_allowed_is_min_of_headrooms :
    (∀ (company : SendRate.Company) (route domain : String)
      (dts : List SendRate.DomainThrottle) (requested : Int)
      (lt : SendRate.LocalTime) (nowUtc : Int) (nowIso : String) (st : SendRate.Store),
      (SendRate.limAtMost0 (SendRate.fix_empty_limit company.minlimit) ||
        SendRate.limAtMost0 (SendRate.fix_empty_limit company.hourlimit) ||
        SendRate.limAtMost0 (SendRate.fix_empty_limit company.daylimit) ||
        SendRate.limAtMost0 (SendRate.fix_empty_limit company.monthlimit) ||
        SendRate.limAtMost0 (SendRate.resolveDomainLimits route domain dts).1 ||
        SendRate.limAtMost0 (SendRate.resolveDomainLimits route domain dts).2.1 ||
        SendRate.limAtMost0 (SendRate.resolveDomainLimits route domain dts).2.2 ||
        company.paused || company.banned) = false →
      company.inreview = false →
      (!company.paid &&
        (match company.trialend with
         | some te => decide (te < nowUtc)
         | none => false)) = false →
      SendRate.atLimit (SendRate.fix_empty_limit company.minlimit)
        (SendRate.readInt st (SendRate.minKey company.id lt)) = false →
      SendRate.atLimit (SendRate.fix_empty_limit company.hourlimit)
        (SendRate.readInt st (SendRate.hourKey company.id lt)) = false →
      SendRate.atLimit (SendRate.fix_empty_limit company.daylimit)
        (SendRate.readInt st (SendRate.dayKey company.id lt)) = false →
      SendRate.atLimit (SendRate.fix_empty_limit company.monthlimit)
        (SendRate.readInt st (SendRate.monthKey company.id lt)) = false →
      SendRate.atLimitD (SendRate.resolveDomainLimits route domain dts).1
        ((SendRate.resolveDomainLimits route domain dts).1.map
          (fun _ => SendRate.readInt st (SendRate.domainMinKey company.id route domain lt)))
        = false →
      SendRate.atLimitD (SendRate.resolveDomainLimits route domain dts).2.1
        ((SendRate.resolveDomainLimits route domain dts).2.1.map
          (fun _ => SendRate.readInt st (SendRate.domainHourKey company.id route domain lt)))
        = false →
      SendRate.atLimitD (SendRate.resolveDomainLimits route domain dts).2.2
        ((SendRate.resolveDomainLimits route domain dts).2.2.map
          (fun _ => SendRate.readInt st (SendRate.domainDayKey company.id route domain lt)))
        = false →
      (company.paid && decide
        ((if company.paid = true then SendRate.readInt st (SendRate.creditsKey company.id)
          else 0) +
         (if company.paid = true then SendRate.readInt st (SendRate.creditsExpireKey company.id)
          else 0) ≤ 0)) = false →
      (SendRate.check_send_limit company route domain dts requested lt nowUtc nowIso
        st).result =
        min requested
          (List.foldl min 9999999999999
            (SendRate.headroomCandidates company route domain dts lt st))) ∧
    ((SendRate.check_send_limit
        ⟨"c1", .noneVal, .noneVal, .intVal 100, .noneVal, .noneVal,
          false, false, false, false, none⟩
        "r" "example.com" [] 150 ⟨10, 11, 12, 6⟩ 0 "" []).result = 100 ∧
      (SendRate.check_send_limit
        ⟨"c1", .noneVal, .noneVal, .intVal 100, .noneVal, .noneVal,
          false, false, false, false, none⟩
        "r" "example.com" [] 50 ⟨10, 11, 12, 6⟩ 0 ""
        (SendRate.check_send_limit
          ⟨"c1", .noneVal, .noneVal, .intVal 100, .noneVal, .noneVal,
            false, false, false, false, none⟩
          "r" "example.com" [] 150 ⟨10, 11, 12, 6⟩ 0 "" []).store).result = 0) := by
  constructor
  · intro company route domain dts requested lt nowUtc nowIso st
    intro hG hR hT w1 w2 w3 w4 w5 w6 w7 w8
    simp only [SendRate.check_send_limit, readCounts_mincnt, readCounts_hourcnt,
      readCounts_daycnt, readCounts_monthcnt, readCounts_dmincnt, readCounts_dhourcnt,
      readCounts_ddaycnt, readCounts_creditcnt, readCounts_creditexpirecnt,
      hG, hR, hT, w1, w2, w3, w4, w5, w6, w7, w8, Bool.false_eq_true, if_false]
    exact congrArg (min requested) (computeAllowed_eq_foldl company route domain dts lt st)
  · constructor
    · decide
    · decide

/-- Witness for the general conjunct of C2 at a concrete company with a
day limit of 100, empty counters, requesting 10. -/
theorem c2_allowed_is_min_of_headrooms_witness :
    (SendRate.check_send_limit
      ⟨"c1", .noneVal, .noneVal, .intVal 100, .noneVal, .noneVal,
        false, false, false, false, none⟩
      "r" "example.com" [] 10 ⟨10, 11, 12, 6⟩ 0 "" []).result =
      min 10
        (List.foldl min 9999999999999
          (SendRate.headroomCandidates
            ⟨"c1", .noneVal, .noneVal, .intVal 100, .noneVal, .noneVal,
              false, false, false, false, none⟩
            "r" "example.com" [] ⟨10, 11, 12, 6⟩ [])) :=
  c2_allowed_is_min_of_headrooms.1
    ⟨"c1", .noneVal, .noneVal, .intVal 100, .noneVal, .noneVal,
      false, false, false, false, none⟩
    "r" "example.com" [] 10 ⟨10, 11, 12, 6⟩ 0 "" []
    (by decide) (by decide) (by decide) (by decide) (by decide) (by decide)
    (by decide) (by decide) (by decide) (by decide) (by decide)

namespace Drain

/-- A queue-group key: (company id, campaign id, destination domain), the
composite key the campqueue page query of check_camps orders by. -/
abbrev GKey := String × String × String

/-- The row comparison of the page query of check_camps
(campaigns.py lines 2927-2944): with a null cursor every group qualifies,
otherwise only groups strictly greater than the cursor in the
(cid, campid, domain) row order.  The page is capped at 200 groups;
`groups` is assumed already ordered as the query orders it. -/
def pageQuery (cursor : Option GKey) (groups : List GKey) : List GKey :=
  (groups.filter (fun g =>
    match cursor with
    | none => true
    | some c =>
        (c.1 < g.1 || (c.1 = g.1 && (c.2.1 < g.2.1 || (c.2.1 = g.2.1 && c.2.2 < g.2.2))))))
    |>.take 200

/-- A campqueue row of one campaign, keyed by (sendid, domain) within the
(cid, campid) scope modeled here (campaigns.py campqueue table). -/
structure QEntry where
  sendid : Nat
  count : Int
  remaining : Int
  policytype : String
  sinkid : Nat
  domain : String
deriving Repr, DecidableEq

/-- One dispatch task handed to send_queued_camp: the queue entry it draws
from, the recipient offset it starts at and how many recipients it covers
(campaigns.py lines 3001-3031). -/
structure Task where
  sendid : Nat
  domain : String
  offset : Int
  tosend : Int
deriving Repr, DecidableEq

/-- The durable state the drain pass mutates for one campaign: its queue
rows, the sinkstatus map on the campaign record, and the finished flag. -/
structure CampState where
  queue : List QEntry
  sinkstatus : List (Nat × Bool)
  finished : Bool
deriving Repr, DecidableEq

/-- The row key of a queue entry. -/
def qkey (e : QEntry) : Nat × String := (e.sendid, e.domain)

def setStatus : List (Nat × Bool) → Nat → Bool → List (Nat × Bool)
  | [], k, b => [(k, b)]
  | kv :: rest, k, b => if kv.1 = k then (k, b) :: rest else kv :: setStatus rest k b

def statusLookup (l : List (Nat × Bool)) (k : Nat) : Option Bool :=
  (l.find? (fun kv => kv.1 = k)).map (fun kv => kv.2)

def qfind (k : Nat × String) (q : List QEntry) : Option QEntry :=
  q.find? (fun e => decide (qkey e = k))

def taskSum (k : Nat × String) (ts : List Task) : Int :=
  ((ts.filter (fun t => decide ((t.sendid, t.domain) = k))).map Task.tosend).sum

/-- campaigns.py lines 2997-3018: the pre-batch loop for providers that can
only send one message at a time.  maxS is the raw max_send_limit
configuration; the source applies max(1, .) to it once at module load
(line 2901), mirrored here inside the loop body where the cap is used. -/
def splitGo (maxS : Int) (sendid : Nat) (domain : String) (tosend : Int)
    (tasksent taskoffset : Int) : List Task :=
  if tasksent < tosend then
    let tasktosend := min (tosend - tasksent) (max 1 maxS)
    ⟨sendid, domain, taskoffset, tasktosend⟩ ::
      splitGo maxS sendid domain tosend (tasksent + tasktosend) (taskoffset + tasktosend)
  else []
termination_by (tosend - tasksent).toNat
decreasing_by
  rename_i h
  omega

/-- math.ceil(a / b) for a positive divisor. -/
def ceilDivInt (a b : Int) : Int := Int.ediv (a + b - 1) b

/-- campaigns.py lines 2988-3091: the inner loop over the snapshot rows of
one (company, campaign, domain) group.  For each snapshot entry a tosend of
min(cntperitem, remaining) is granted; one-at-a-time providers get a chain
of pre-batched tasks, batch providers a single task at offset
count - remaining; the queue row is deleted when its remaining is used up
(flipping the sinkstatus bit when it was the last row of its sink, and
finished when every sink is drained) or decremented otherwise; the loop
stops once the granted budget cnt is exhausted. -/
def processItems (maxS cntperitem : Int) :
    Int → List QEntry → CampState → CampState × List Task
  | _, [], st => (st, [])
  | cnt, e :: rest, st =>
      let tosend := min cntperitem e.remaining
      let tasks :=
        if e.policytype = "ses" ∨ e.policytype = "smtprelay" ∨
            e.policytype = "easylink" then
          splitGo maxS e.sendid e.domain tosend 0 (e.count - e.remaining)
        else
          [⟨e.sendid, e.domain, e.count - e.remaining, tosend⟩]
      let st1 : CampState :=
        if e.remaining - tosend ≤ 0 then
          let q := st.queue.filter (fun x => decide (qkey x ≠ qkey e))
          if q.countP (fun x => decide (x.sinkid = e.sinkid)) = 0 then
            let ss := setStatus st.sinkstatus e.sinkid true
            ⟨q, ss, if ss.all (fun kv => kv.2) then true else st.finished⟩
          else ⟨q, st.sinkstatus, st.finished⟩
        else
          ⟨st.queue.map (fun x =>
            if qkey x = qkey e then { x with remaining := x.remaining - tosend }
            else x), st.sinkstatus, st.finished⟩
      if cnt - tosend ≤ 0 then (st1, tasks)
      else
        let pr := processItems maxS cntperitem (cnt - tosend) rest st1
        (pr.1, tasks ++ pr.2)

/-- campaigns.py lines 2960-2991 for one group: nothing happens unless the
rate limiter granted a positive amount; otherwise the snapshot of the
group's rows is taken and cntperitem = ceil(allowed / row count) with the
zero fallback of the source. -/
def drainGroup (maxS allowed : Int) (domain : String) (st : CampState) :
    CampState × List Task :=
  if allowed ≤ 0 then (st, [])
  else
    let items := st.queue.filter (fun e => decide (e.domain = domain))
    let cntperitem := if items.length ≠ 0 then ceilDivInt allowed items.length else 1
    let cntperitem := if cntperitem = 0 then 1 else cntperitem
    processItems maxS cntperitem allowed items st

/-- A sequence of drain passes over one campaign: each pass processes one
domain group with the amount the rate limiter granted it, accumulating the
dispatch tasks. -/
def drainTrace (maxS : Int) : List (Int × String) → CampState → CampState × List Task
  | [], st => (st, [])
  | (a, d) :: rest, st =>
      let pr := drainGroup maxS a d st
      let pr2 := drainTrace maxS rest pr.1
      (pr2.1, pr.2 ++ pr2.2)

/-- Queue well-formedness: row keys are unique and every row has a
positive remaining not exceeding its count. -/
def wfQueue (q : List QEntry) : Prop :=
  (q.map qkey).Nodup ∧ ∀ e ∈ q, 0 < e.remaining ∧ e.remaining ≤ e.count

/-- Claim-side definition (C5 wording, amended): allotments per entry of a
group, in order: an entry receives min(cntperitem, remaining) while the
granted budget is positive, and nothing once the budget is exhausted. -/
def specAllots (cpi : Int) : Int → List Int → List Int
  | _, [] => []
  | cnt, r :: rs =>
      (if 0 < cnt then min cpi r else 0) :: specAllots cpi (cnt - min cpi r) rs

/-- A contiguous chain of dispatch tasks: offsets start at off and advance
by each tosend, every tosend between 1 and cap. -/
def isChain (off cap : Int) : List Task → Prop
  | [] => True
  | t :: rest =>
      t.offset = off ∧ 1 ≤ t.tosend ∧ t.tosend ≤ cap ∧ isChain (off + t.tosend) cap rest

theorem splitGo_key (maxS : Int) (sid : Nat) (dom : String) :
    ∀ n (tosend tasksent off : Int), (tosend - tasksent).toNat ≤ n →
      ∀ t ∈ splitGo maxS sid dom tosend tasksent off, t.sendid = sid ∧ t.domain = dom := by
  intro n
  induction n with
  | zero =>
      intro tosend tasksent off h t ht
      rw [splitGo, if_neg (by omega)] at ht
      simp at ht
  | succ n ih =>
      intro tosend tasksent off h t ht
      rw [splitGo] at ht
      by_cases hc : tasksent < tosend
      · rw [if_pos hc] at ht
        simp only [List.mem_cons] at ht
        rcases ht with ht | ht
        · subst ht; exact ⟨rfl, rfl⟩
        · exact ih _ _ _ (by omega) t ht
      · rw [if_neg hc] at ht
        simp at ht

theorem splitGo_sum (maxS : Int) (sid : Nat) (dom : String) :
    ∀ n (tosend tasksent off : Int), (tosend - tasksent).toNat ≤ n →
      ((splitGo maxS sid dom tosend tasksent off).map Task.tosend).sum =
        max (tosend - tasksent) 0 := by
  intro n
  induction n with
  | zero =>
      intro tosend tasksent off h
      rw [splitGo, if_neg (by omega)]
      simp; omega
  | succ n ih =>
      intro tosend tasksent off h
      rw [splitGo]
      by_cases hc : tasksent < tosend
      · rw [if_pos hc]
        simp only [List.map_cons, List.sum_cons]
        rw [ih _ _ _ (by omega)]
        omega
      · rw [if_neg hc]
        simp; omega

theorem splitGo_chain (maxS : Int) (sid : Nat) (dom : String) :
    ∀ n (tosend tasksent off : Int), (tosend - tasksent).toNat ≤ n →
      isChain off (max 1 maxS) (splitGo maxS sid dom tosend tasksent off) := by
  intro n
  induction n with
  | zero =>
      intro tosend tasksent off h
      rw [splitGo, if_neg (by omega)]
      trivial
  | succ n ih =>
      intro tosend tasksent off h
      rw [splitGo]
      by_cases hc : tasksent < tosend
      · rw [if_pos hc]
        dsimp only [isChain]
        refine ⟨rfl, by omega, by omega, ?_⟩
        exact ih _ _ _ (by omega)
      · rw [if_neg hc]
        trivial

theorem taskSum_append (k : Nat × String) (ts1 ts2 : List Task) :
    taskSum k (ts1 ++ ts2) = taskSum k ts1 + taskSum k ts2 := by
  simp [taskSum, List.filter_append]

theorem taskSum_all_key (k : Nat × String) (ts : List Task)
    (h : ∀ t ∈ ts, (t.sendid, t.domain) = k) :
    taskSum k ts = (ts.map Task.tosend).sum := by
  have : ts.filter (fun t => decide ((t.sendid, t.domain) = k)) = ts :=
    List.filter_eq_self.mpr (fun t ht => by simp [h t ht])
  simp [taskSum, this]

theorem filter_none_key (k : Nat × String) (ts : List Task)
    (h : ∀ t ∈ ts, (t.sendid, t.domain) ≠ k) :
    ts.filter (fun t => decide ((t.sendid, t.domain) = k)) = [] := by
  simp only [List.filter_eq_nil_iff]
  intro t ht
  simp [h t ht]

theorem taskSum_none_key (k : Nat × String) (ts : List Task)
    (h : ∀ t ∈ ts, (t.sendid, t.domain) ≠ k) : taskSum k ts = 0 := by
  simp [taskSum, filter_none_key k ts h]

theorem qkey_update (x : QEntry) (v : Int) : qkey { x with remaining := v } = qkey x := rfl

theorem qfind_of_mem_nodup (q : List QEntry) (x : QEntry)
    (h1 : (q.map qkey).Nodup) (h2 : x ∈ q) : qfind (qkey x) q = some x := by
  induction q with
  | nil => simp at h2
  | cons y rest ih =>
      simp only [List.map_cons, List.nodup_cons] at h1
      rcases List.mem_cons.mp h2 with h2 | h2
      · subst h2
        simp [qfind, List.find?_cons_of_pos]
      · have hne : qkey y ≠ qkey x := fun he => h1.1 (he ▸ List.mem_map_of_mem qkey h2)
        exact (List.find?_cons_of_neg _ (by simp [hne])).trans (ih h1.2 h2)

theorem qfind_some (k : Nat × String) (q : List QEntry) (x : QEntry)
    (h : qfind k q = some x) : x ∈ q ∧ qkey x = k := by
  have h1 := List.mem_of_find?_eq_some h
  have h2 := List.find?_some h
  simp only [decide_eq_true_eq] at h2
  exact ⟨h1, h2⟩

theorem qfind_filter_ne (kk k : Nat × String) (q : List QEntry) (h : k ≠ kk) :
    qfind k (q.filter (fun x => decide (qkey x ≠ kk))) = qfind k q := by
  induction q with
  | nil => simp [qfind]
  | cons y rest ih =>
      by_cases hy : qkey y = kk
      · rw [List.filter_cons_of_neg (by simp [hy])]
        rw [ih]
        show List.find? _ rest = List.find? _ (y :: rest)
        rw [List.find?_cons_of_neg _ (by simp [hy]; exact fun he => h he.symm)]
      · rw [List.filter_cons_of_pos (by simp [hy])]
        by_cases hk : qkey y = k
        · show List.find? _ (y :: _) = List.find? _ (y :: rest)
          rw [List.find?_cons_of_pos _ (by simp [hk]),
            List.find?_cons_of_pos _ (by simp [hk])]
        · show List.find? _ (y :: _) = List.find? _ (y :: rest)
          rw [List.find?_cons_of_neg _ (by simp [hk]),
            List.find?_cons_of_neg _ (by simp [hk])]
          exact ih

theorem qfind_filter_self (kk : Nat × String) (q : List QEntry) :
    qfind kk (q.filter (fun x => decide (qkey x ≠ kk))) = none := by
  apply List.find?_eq_none.mpr
  intro x hx
  have := (List.mem_filter.mp hx).2
  simp only [decide_eq_true_eq] at this ⊢
  exact this

theorem qfind_map_update_self (kk : Nat × String) (q : List QEntry) (d : Int) :
    qfind kk (q.map (fun x =>
      if qkey x = kk then { x with remaining := x.remaining - d } else x)) =
      (qfind kk q).map (fun x => { x with remaining := x.remaining - d }) := by
  induction q with
  | nil => simp [qfind]
  | cons y rest ih =>
      by_cases hy : qkey y = kk
      · simp only [List.map_cons, if_pos hy]
        show List.find? _ _ = (List.find? _ (y :: rest)).map _
        rw [List.find?_cons_of_pos _ (by simp [qkey_update, hy]),
          List.find?_cons_of_pos _ (by simp [hy])]
        rfl
      · simp only [List.map_cons, if_neg hy]
        show List.find? _ _ = (List.find? _ (y :: rest)).map _
        rw [List.find?_cons_of_neg _ (by simp [hy]),
          List.find?_cons_of_neg _ (by simp [hy])]
        exact ih

theorem qfind_map_update_ne (kk k : Nat × String) (q : List QEntry) (d : Int)
    (h : k ≠ kk) :
    qfind k (q.map (fun x =>
      if qkey x = kk then { x with remaining := x.remaining - d } else x)) =
      qfind k q := by
  induction q with
  | nil => simp [qfind]
  | cons y rest ih =>
      by_cases hy : qkey y = kk
      · simp only [List.map_cons, if_pos hy]
        show List.find? _ _ = List.find? _ (y :: rest)
        rw [List.find?_cons_of_neg _
            (by simp [qkey_update, hy]; exact fun he => h he.symm),
          List.find?_cons_of_neg _ (by simp [hy]; exact fun he => h he.symm)]
        exact ih
      · simp only [List.map_cons, if_neg hy]
        show List.find? _ _ = List.find? _ (y :: rest)
        by_cases hk : qkey y = k
        · rw [List.find?_cons_of_pos _ (by simp [hk]),
            List.find?_cons_of_pos _ (by simp [hk])]
        · rw [List.find?_cons_of_neg _ (by simp [hk]),
            List.find?_cons_of_neg _ (by simp [hk])]
          exact ih

theorem statusLookup_setStatus_self (l : List (Nat × Bool)) (k : Nat) (b : Bool) :
    statusLookup (setStatus l k b) k = some b := by
  induction l with
  | nil => simp [setStatus, statusLookup]
  | cons kv rest ih =>
      by_cases h : kv.1 = k
      · simp [setStatus, statusLookup, h]
      · simp only [setStatus, if_neg h]
        simp only [statusLookup, List.find?] at ih ⊢
        simpa [h] using ih

theorem statusLookup_setStatus_ne (l : List (Nat × Bool)) (k k' : Nat) (b : Bool)
    (h : k' ≠ k) : statusLookup (setStatus l k' b) k = statusLookup l k := by
  induction l with
  | nil => simp [setStatus, statusLookup, List.find?, h]
  | cons kv rest ih =>
      by_cases hk : kv.1 = k'
      · simp only [setStatus, if_pos hk]
        simp only [statusLookup, List.find?]
        rw [show (decide (k' = k)) = false by simp [h],
          show (decide (kv.1 = k)) = false by simp [hk, h]]
      · simp only [setStatus, if_neg hk]
        simp only [statusLookup, List.find?] at ih ⊢
        by_cases hq : kv.1 = k
        · simp [hq]
        · simpa [hq] using ih

/-- The outer drain loop of check_camps (campaigns.py lines 2919-2947),
recording the successive pages it reads.  Faithful to the source, the
cursor variables lastcid / lastcampid / lastdomain are (re)initialized to
None INSIDE the `while True` loop, so every page query runs with a null
cursor.  The per-group processing is abstracted as `step` (for a group a
rate limiter grants 0, the source mutates nothing, so `step` is the
identity on the group list in that situation); `fuel` bounds the number of
loop iterations observed. -/
def checkCampsPages (step : List GKey → GKey → List GKey) :
    Nat → List GKey → List (List GKey)
  | 0, _ => []
  | fuel + 1, groups =>
      -- lines 2920-2922: cursor reset to None at the top of each iteration
      let page := pageQuery none groups
      if page = [] then []
      else page :: checkCampsPages step fuel (page.foldl step groups)

end Drain

/-- C6: the spec claims each page read by the queue drainer after the first
resumes from the last (company, campaign, domain) key of the previous page.
In the code the cursor is reset to None at the top of every iteration of
the drain loop, so the page query always restarts from the beginning: with
a single group whose rate limit check grants 0 (hence no state mutation),
three loop iterations read the very same page three times instead of
terminating after one, contradicting the claimed keyset resumption. -/
theorem c6_cursor_reset_rereads_page :
    Drain.checkCampsPages (fun groups _ => groups) 3 [("c1", "camp1", "example.com")] =
      [[("c1", "camp1", "example.com")],
       [("c1", "camp1", "example.com")],
       [("c1", "camp1", "example.com")]] := by
  decide

namespace Drain

theorem deleteState_count0 (st : CampState) (e : QEntry)
    (hwf : wfQueue st.queue) (heMem : e ∈ st.queue)
    (hcp : (st.queue.filter (fun x => decide (qkey x ≠ qkey e))).countP
      (fun x => decide (x.sinkid = e.sinkid)) = 0) :
    wfQueue (st.queue.filter (fun x => decide (qkey x ≠ qkey e))) ∧
    qfind (qkey e) (st.queue.filter (fun x => decide (qkey x ≠ qkey e))) = none ∧
    (∀ k, k ≠ qkey e →
      qfind k (st.queue.filter (fun x => decide (qkey x ≠ qkey e))) =
        qfind k st.queue) ∧
    (∀ s, (statusLookup st.sinkstatus s = some true →
            statusLookup (setStatus st.sinkstatus e.sinkid true) s = some true) ∧
          ((∃ x ∈ st.queue, x.sinkid = s) →
            (∃ x ∈ st.queue.filter (fun x => decide (qkey x ≠ qkey e)),
              x.sinkid = s) ∨
            statusLookup (setStatus st.sinkstatus e.sinkid true) s = some true)) := by
  obtain ⟨hN, hR⟩ := hwf
  refine ⟨⟨?_, ?_⟩, qfind_filter_self _ _, fun k hk => qfind_filter_ne _ _ _ hk, ?_⟩
  · exact List.Nodup.sublist (List.Sublist.map qkey (List.filter_sublist _)) hN
  · intro x hx; exact hR x (List.mem_of_mem_filter hx)
  · intro s
    constructor
    · intro hs
      by_cases hse : s = e.sinkid
      · subst hse; rw [statusLookup_setStatus_self]
      · rw [statusLookup_setStatus_ne _ _ _ _ (fun he => hse he.symm)]; exact hs
    · rintro ⟨x, hxm, hxs⟩
      by_cases hse : s = e.sinkid
      · subst hse; right; rw [statusLookup_setStatus_self]
      · left
        refine ⟨x, List.mem_filter.mpr ⟨hxm, ?_⟩, hxs⟩
        simp only [decide_eq_true_eq]
        intro hkx
        have hx1 : qfind (qkey e) st.queue = some x := hkx ▸ qfind_of_mem_nodup _ _ hN hxm
        have hx2 : qfind (qkey e) st.queue = some e := qfind_of_mem_nodup _ _ hN heMem
        have : x = e := by rw [hx1] at hx2; exact (Option.some.injEq _ _).mp hx2
        exact hse (by rw [← this, hxs])

theorem deleteState_countPos (st : CampState) (e : QEntry)
    (hwf : wfQueue st.queue) (heMem : e ∈ st.queue)
    (hcp : ¬((st.queue.filter (fun x => decide (qkey x ≠ qkey e))).countP
      (fun x => decide (x.sinkid = e.sinkid)) = 0)) :
    wfQueue (st.queue.filter (fun x => decide (qkey x ≠ qkey e))) ∧
    qfind (qkey e) (st.queue.filter (fun x => decide (qkey x ≠ qkey e))) = none ∧
    (∀ k, k ≠ qkey e →
      qfind k (st.queue.filter (fun x => decide (qkey x ≠ qkey e))) =
        qfind k st.queue) ∧
    (∀ s, ((∃ x ∈ st.queue, x.sinkid = s) →
        ∃ x ∈ st.queue.filter (fun x => decide (qkey x ≠ qkey e)), x.sinkid = s)) := by
  obtain ⟨hN, hR⟩ := hwf
  have hex : ∃ x ∈ st.queue.filter (fun x => decide (qkey x ≠ qkey e)),
      x.sinkid = e.sinkid := by
    rcases List.countP_pos_iff.mp (Nat.pos_of_ne_zero hcp) with ⟨x, hxm, hxp⟩
    exact ⟨x, hxm, by simpa using hxp⟩
  refine ⟨⟨?_, ?_⟩, qfind_filter_self _ _, fun k hk => qfind_filter_ne _ _ _ hk, ?_⟩
  · exact List.Nodup.sublist (List.Sublist.map qkey (List.filter_sublist _)) hN
  · intro x hx; exact hR x (List.mem_of_mem_filter hx)
  · intro s
    rintro ⟨x, hxm, hxs⟩
    by_cases hse : s = e.sinkid
    · subst hse; exact hex
    · refine ⟨x, List.mem_filter.mpr ⟨hxm, ?_⟩, hxs⟩
      simp only [decide_eq_true_eq]
      intro hkx
      have hx1 : qfind (qkey e) st.queue = some x := hkx ▸ qfind_of_mem_nodup _ _ hN hxm
      have hx2 : qfind (qkey e) st.queue = some e := qfind_of_mem_nodup _ _ hN heMem
      have : x = e := by rw [hx1] at hx2; exact (Option.some.injEq _ _).mp hx2
      exact hse (by rw [← this, hxs])

theorem updateState_spec (st : CampState) (e : QEntry) (d : Int)
    (hwf : wfQueue st.queue) (heMem : e ∈ st.queue)
    (hd0 : 0 < d) (hdlt : d < e.remaining) :
    wfQueue (st.queue.map (fun x =>
      if qkey x = qkey e then { x with remaining := x.remaining - d } else x)) ∧
    qfind (qkey e) (st.queue.map (fun x =>
      if qkey x = qkey e then { x with remaining := x.remaining - d } else x)) =
      some { e with remaining := e.remaining - d } ∧
    (∀ k, k ≠ qkey e →
      qfind k (st.queue.map (fun x =>
        if qkey x = qkey e then { x with remaining := x.remaining - d } else x)) =
        qfind k st.queue) ∧
    (∀ s, ((∃ x ∈ st.queue, x.sinkid = s) →
        ∃ x ∈ st.queue.map (fun x =>
          if qkey x = qkey e then { x with remaining := x.remaining - d } else x),
          x.sinkid = s)) := by
  obtain ⟨hN, hR⟩ := hwf
  have hfind : qfind (qkey e) st.queue = some e := qfind_of_mem_nodup _ _ hN heMem
  have hkeys : (st.queue.map (fun x =>
      if qkey x = qkey e then { x with remaining := x.remaining - d } else x)).map qkey
      = st.queue.map qkey := by
    rw [List.map_map]
    apply List.map_congr_left
    intro x _
    by_cases hx : qkey x = qkey e
    · simp [hx, qkey_update]
    · simp [hx]
  refine ⟨⟨?_, ?_⟩, ?_, fun k hk => qfind_map_update_ne _ _ _ _ hk, ?_⟩
  · rw [hkeys]; exact hN
  · intro y hy
    rcases List.mem_map.mp hy with ⟨x, hxm, hxe⟩
    by_cases hx : qkey x = qkey e
    · have hx2 : x = e := by
        have h1 : qfind (qkey e) st.queue = some x := hx ▸ qfind_of_mem_nodup _ _ hN hxm
        rw [h1] at hfind; exact (Option.some.injEq _ _).mp hfind
      rw [if_pos hx, hx2] at hxe
      subst hxe
      have hec := (hR e heMem).2
      constructor
      · show 0 < e.remaining - d; omega
      · show e.remaining - d ≤ e.count; omega
    · rw [if_neg hx] at hxe
      subst hxe; exact hR x hxm
  · rw [qfind_map_update_self, hfind]; rfl
  · intro s
    rintro ⟨x, hxm, hxs⟩
    refine ⟨(fun x => if qkey x = qkey e then { x with remaining := x.remaining - d }
      else x) x, List.mem_map_of_mem _ hxm, ?_⟩
    by_cases hx : qkey x = qkey e
    · simp [hx, hxs]
    · simp [hx, hxs]

theorem specAllots_nonpos (cpi : Int) :
    ∀ (rs : List Int) (cnt : Int), cnt ≤ 0 → (∀ r ∈ rs, 0 ≤ min cpi r) →
      specAllots cpi cnt rs = rs.map (fun _ => (0 : Int)) := by
  intro rs
  induction rs with
  | nil => intro cnt _ _; rfl
  | cons r rs ih =>
      intro cnt hc hr
      simp only [specAllots, List.map_cons]
      rw [if_neg (by omega)]
      congr 1
      refine ih _ ?_ (fun x hx => hr x (List.mem_cons_of_mem _ hx))
      have := hr r (List.mem_cons_self _ _)
      omega

set_option maxHeartbeats 1000000 in
theorem processItems_spec (maxS cpi : Int) (hcpi : 1 ≤ cpi) :
    ∀ (items : List QEntry) (cnt : Int) (st : CampState),
      0 < cnt →
      wfQueue st.queue →
      (∀ x ∈ items, qfind (qkey x) st.queue = some x) →
      (items.map qkey).Nodup →
      ∀ pr, processItems maxS cpi cnt items st = pr →
      wfQueue pr.1.queue ∧
      (∀ k, k ∉ items.map qkey →
        (pr.2.filter (fun t => decide ((t.sendid, t.domain) = k))) = [] ∧
        qfind k pr.1.queue = qfind k st.queue) ∧
      (∀ x ∈ items,
        0 ≤ taskSum (qkey x) pr.2 ∧
        taskSum (qkey x) pr.2 ≤ x.remaining ∧
        qfind (qkey x) pr.1.queue =
          (if taskSum (qkey x) pr.2 = x.remaining then none
           else some { x with remaining := x.remaining - taskSum (qkey x) pr.2 })) ∧
      (∀ s, (statusLookup st.sinkstatus s = some true →
              statusLookup pr.1.sinkstatus s = some true) ∧
            ((∃ x ∈ st.queue, x.sinkid = s) →
              (∃ x ∈ pr.1.queue, x.sinkid = s) ∨
              statusLookup pr.1.sinkstatus s = some true)) ∧
      ((items.map fun x => taskSum (qkey x) pr.2) =
        specAllots cpi cnt (items.map QEntry.remaining)) ∧
      (∀ x ∈ items,
        ((x.policytype = "ses" ∨ x.policytype = "smtprelay" ∨
            x.policytype = "easylink") →
          isChain (x.count - x.remaining) (max 1 maxS)
            (pr.2.filter (fun t => decide ((t.sendid, t.domain) = qkey x)))) ∧
        (¬(x.policytype = "ses" ∨ x.policytype = "smtprelay" ∨
            x.policytype = "easylink") →
          pr.2.filter (fun t => decide ((t.sendid, t.domain) = qkey x)) =
            (if taskSum (qkey x) pr.2 = 0 then []
             else [⟨x.sendid, x.domain, x.count - x.remaining,
               taskSum (qkey x) pr.2⟩]))) := by
  intro items
  induction items with
  | nil =>
      intro cnt st hcnt hwf hsnap hnodup pr hpr
      simp only [processItems] at hpr
      subst hpr
      refine ⟨hwf, ?_, ?_, ?_, ?_, ?_⟩
      · intro k _; exact ⟨rfl, rfl⟩
      · intro x hx; simp at hx
      · intro s; exact ⟨fun h => h, fun h => Or.inl h⟩
      · simp [specAllots]
      · intro x hx; simp at hx
  | cons e rest ih =>
      intro cnt st hcnt hwf hsnap hnodup pr hpr
      have hsnapE := hsnap e (List.mem_cons_self e rest)
      obtain ⟨heMem, -⟩ := qfind_some _ _ _ hsnapE
      have hwfE := hwf.2 e heMem
      have hnodup2 : qkey e ∉ rest.map qkey ∧ (rest.map qkey).Nodup := by
        have := hnodup
        simp only [List.map_cons, List.nodup_cons] at this
        exact this
      have htp : 1 ≤ min cpi e.remaining := by omega
      have htr : min cpi e.remaining ≤ e.remaining := by omega
      have hchunkKeys : ∀ t ∈ (if (e.policytype = "ses" ∨ e.policytype = "smtprelay" ∨
          e.policytype = "easylink") then
            splitGo maxS e.sendid e.domain (min cpi e.remaining) 0
              (e.count - e.remaining)
          else [⟨e.sendid, e.domain, e.count - e.remaining, min cpi e.remaining⟩]),
          (t.sendid, t.domain) = qkey e := by
        intro t ht
        split at ht
        · obtain ⟨h1, h2⟩ := splitGo_key maxS e.sendid e.domain
            (min cpi e.remaining).toNat (min cpi e.remaining) 0
            (e.count - e.remaining) (by omega) t ht
          rw [h1, h2]; rfl
        · simp only [List.mem_singleton] at ht
          rw [ht]; rfl
      have hchunkSum : ((if (e.policytype = "ses" ∨ e.policytype = "smtprelay" ∨
          e.policytype = "easylink") then
            splitGo maxS e.sendid e.domain (min cpi e.remaining) 0
              (e.count - e.remaining)
          else [⟨e.sendid, e.domain, e.count - e.remaining, min cpi e.remaining⟩]).map
            Task.tosend).sum = min cpi e.remaining := by
        split
        · have hs := splitGo_sum maxS e.sendid e.domain
            (min cpi e.remaining).toNat (min cpi e.remaining) 0
            (e.count - e.remaining) (by omega)
          rw [hs]; omega
        · simp
      have hfinish : ∀ st1 : CampState,
          wfQueue st1.queue →
          (qfind (qkey e) st1.queue =
            (if min cpi e.remaining = e.remaining then none
             else some { e with remaining := e.remaining - min cpi e.remaining })) →
          (∀ k, k ≠ qkey e → qfind k st1.queue = qfind k st.queue) →
          (∀ s, statusLookup st.sinkstatus s = some true →
            statusLookup st1.sinkstatus s = some true) →
          (∀ s, (∃ x ∈ st.queue, x.sinkid = s) →
            (∃ x ∈ st1.queue, x.sinkid = s) ∨
            statusLookup st1.sinkstatus s = some true) →
          ∀ pr, (if cnt - min cpi e.remaining ≤ 0 then
              (st1, (if (e.policytype = "ses" ∨ e.policytype = "smtprelay" ∨
                  e.policytype = "easylink") then
                    splitGo maxS e.sendid e.domain (min cpi e.remaining) 0
                      (e.count - e.remaining)
                  else [⟨e.sendid, e.domain, e.count - e.remaining,
                    min cpi e.remaining⟩]))
            else
              ((processItems maxS cpi (cnt - min cpi e.remaining) rest st1).1,
                (if (e.policytype = "ses" ∨ e.policytype = "smtprelay" ∨
                  e.policytype = "easylink") then
                    splitGo maxS e.sendid e.domain (min cpi e.remaining) 0
                      (e.count - e.remaining)
                  else [⟨e.sendid, e.domain, e.count - e.remaining,
                    min cpi e.remaining⟩]) ++
                (processItems maxS cpi (cnt - min cpi e.remaining) rest st1).2)) = pr →
          wfQueue pr.1.queue ∧
          (∀ k, k ∉ (e :: rest).map qkey →
            (pr.2.filter (fun t => decide ((t.sendid, t.domain) = k))) = [] ∧
            qfind k pr.1.queue = qfind k st.queue) ∧
          (∀ x ∈ e :: rest,
            0 ≤ taskSum (qkey x) pr.2 ∧
            taskSum (qkey x) pr.2 ≤ x.remaining ∧
            qfind (qkey x) pr.1.queue =
              (if taskSum (qkey x) pr.2 = x.remaining then none
               else some { x with remaining := x.remaining - taskSum (qkey x) pr.2 })) ∧
          (∀ s, (statusLookup st.sinkstatus s = some true →
                  statusLookup pr.1.sinkstatus s = some true) ∧
                ((∃ x ∈ st.queue, x.sinkid = s) →
                  (∃ x ∈ pr.1.queue, x.sinkid = s) ∨
                  statusLookup pr.1.sinkstatus s = some true)) ∧
          (((e :: rest).map fun x => taskSum (qkey x) pr.2) =
            specAllots cpi cnt ((e :: rest).map QEntry.remaining)) ∧
          (∀ x ∈ e :: rest,
            ((x.policytype = "ses" ∨ x.policytype = "smtprelay" ∨
                x.policytype = "easylink") →
              isChain (x.count - x.remaining) (max 1 maxS)
                (pr.2.filter (fun t => decide ((t.sendid, t.domain) = qkey x)))) ∧
            (¬(x.policytype = "ses" ∨ x.policytype = "smtprelay" ∨
                x.policytype = "easylink") →
              pr.2.filter (fun t => decide ((t.sendid, t.domain) = qkey x)) =
                (if taskSum (qkey x) pr.2 = 0 then []
                 else [⟨x.sendid, x.domain, x.count - x.remaining,
                   taskSum (qkey x) pr.2⟩]))) := by
        intro st1 hwf1 hfe1 hfo1 hstat1 halive1 pr hpr
        by_cases hbreak : cnt - min cpi e.remaining ≤ 0
        · rw [if_pos hbreak] at hpr
          subst hpr
          dsimp only
          have htsE : taskSum (qkey e)
              (if (e.policytype = "ses" ∨ e.policytype = "smtprelay" ∨
                  e.policytype = "easylink") then
                splitGo maxS e.sendid e.domain (min cpi e.remaining) 0
                  (e.count - e.remaining)
              else [⟨e.sendid, e.domain, e.count - e.remaining,
                min cpi e.remaining⟩]) = min cpi e.remaining := by
            rw [taskSum_all_key _ _ hchunkKeys, hchunkSum]
          refine ⟨hwf1, ?_, ?_, ?_, ?_, ?_⟩
          · intro k hk
            simp only [List.map_cons, List.mem_cons, not_or] at hk
            obtain ⟨hk1, hk2⟩ := hk
            refine ⟨filter_none_key _ _ (fun t ht => ?_), hfo1 k hk1⟩
            rw [hchunkKeys t ht]
            exact fun he => hk1 he.symm
          · intro x hx
            rcases List.mem_cons.mp hx with hx | hx
            · rw [hx, htsE]
              exact ⟨by omega, htr, hfe1⟩
            · have hkx : qkey x ≠ qkey e := fun he =>
                hnodup2.1 (he ▸ List.mem_map_of_mem qkey hx)
              have hts0 : taskSum (qkey x)
                  (if (e.policytype = "ses" ∨ e.policytype = "smtprelay" ∨
                      e.policytype = "easylink") then
                    splitGo maxS e.sendid e.domain (min cpi e.remaining) 0
                      (e.count - e.remaining)
                  else [⟨e.sendid, e.domain, e.count - e.remaining,
                    min cpi e.remaining⟩]) = 0 :=
                taskSum_none_key _ _ (fun t ht => by
                  rw [hchunkKeys t ht]; exact fun he => hkx he.symm)
              have hxs := hsnap x (List.mem_cons_of_mem _ hx)
              obtain ⟨hxMem, -⟩ := qfind_some _ _ _ hxs
              have hxwf := hwf.2 x hxMem
              rw [hts0]
              refine ⟨le_refl 0, by omega, ?_⟩
              rw [if_neg (by omega), hfo1 _ hkx, hxs]
              congr 1
              have : x.remaining - 0 = x.remaining := by omega
              rw [this]
          · intro s
            exact ⟨hstat1 s, halive1 s⟩
          · simp only [List.map_cons, specAllots]
            rw [htsE, if_pos hcnt]
            congr 1
            have hzero : specAllots cpi (cnt - min cpi e.remaining)
                (rest.map QEntry.remaining) =
                (rest.map QEntry.remaining).map (fun _ => (0 : Int)) := by
              refine specAllots_nonpos cpi _ _ hbreak ?_
              intro r hr
              rcases List.mem_map.mp hr with ⟨x, hxm, hxe⟩
              have hxs := hsnap x (List.mem_cons_of_mem _ hxm)
              obtain ⟨hxMem, -⟩ := qfind_some _ _ _ hxs
              have hxwf := hwf.2 x hxMem
              omega
            rw [hzero, List.map_map]
            apply List.map_congr_left
            intro x hx
            have hkx : qkey x ≠ qkey e := fun he =>
              hnodup2.1 (he ▸ List.mem_map_of_mem qkey hx)
            exact taskSum_none_key _ _ (fun t ht => by
              rw [hchunkKeys t ht]; exact fun he => hkx he.symm)
          · intro x hx
            rcases List.mem_cons.mp hx with hx | hx
            · rw [hx]
              have hflt : (if (e.policytype = "ses" ∨ e.policytype = "smtprelay" ∨
                    e.policytype = "easylink") then
                  splitGo maxS e.sendid e.domain (min cpi e.remaining) 0
                    (e.count - e.remaining)
                else [⟨e.sendid, e.domain, e.count - e.remaining,
                  min cpi e.remaining⟩]).filter
                  (fun t => decide ((t.sendid, t.domain) = qkey e)) =
                  (if (e.policytype = "ses" ∨ e.policytype = "smtprelay" ∨
                      e.policytype = "easylink") then
                    splitGo maxS e.sendid e.domain (min cpi e.remaining) 0
                      (e.count - e.remaining)
                  else [⟨e.sendid, e.domain, e.count - e.remaining,
                    min cpi e.remaining⟩]) :=
                List.filter_eq_self.mpr (fun t ht => by simp [hchunkKeys t ht])
              constructor
              · intro hpre
                rw [hflt, if_pos hpre]
                exact splitGo_chain maxS e.sendid e.domain
                  (min cpi e.remaining).toNat (min cpi e.remaining) 0
                  (e.count - e.remaining) (by omega)
              · intro hpre
                rw [hflt, if_neg hpre]
                have hts1 : taskSum (qkey e)
                    [⟨e.sendid, e.domain, e.count - e.remaining,
                      min cpi e.remaining⟩] = min cpi e.remaining := by
                  simp [taskSum, qkey]
                rw [hts1, if_neg (by omega)]
            · have hkx : qkey x ≠ qkey e := fun he =>
                hnodup2.1 (he ▸ List.mem_map_of_mem qkey hx)
              have hflt0 : (if (e.policytype = "ses" ∨ e.policytype = "smtprelay" ∨
                    e.policytype = "easylink") then
                  splitGo maxS e.sendid e.domain (min cpi e.remaining) 0
                    (e.count - e.remaining)
                else [⟨e.sendid, e.domain, e.count - e.remaining,
                  min cpi e.remaining⟩]).filter
                  (fun t => decide ((t.sendid, t.domain) = qkey x)) = [] :=
                filter_none_key _ _ (fun t ht => by
                  rw [hchunkKeys t ht]; exact fun he => hkx he.symm)
              have hts0 : taskSum (qkey x)
                  (if (e.policytype = "ses" ∨ e.policytype = "smtprelay" ∨
                      e.policytype = "easylink") then
                    splitGo maxS e.sendid e.domain (min cpi e.remaining) 0
                      (e.count - e.remaining)
                  else [⟨e.sendid, e.domain, e.count - e.remaining,
                    min cpi e.remaining⟩]) = 0 :=
                taskSum_none_key _ _ (fun t ht => by
                  rw [hchunkKeys t ht]; exact fun he => hkx he.symm)
              constructor
              · intro _
                rw [hflt0]
                trivial
              · intro _
                rw [hflt0, hts0, if_pos rfl]
        · rw [if_neg hbreak] at hpr
          subst hpr
          dsimp only
          have hcnt1 : 0 < cnt - min cpi e.remaining := by omega
          have hsnap1 : ∀ x ∈ rest, qfind (qkey x) st1.queue = some x := by
            intro x hx
            have hkx : qkey x ≠ qkey e := fun he =>
              hnodup2.1 (he ▸ List.mem_map_of_mem qkey hx)
            rw [hfo1 _ hkx]
            exact hsnap x (List.mem_cons_of_mem _ hx)
          obtain ⟨hrwf, hrout, hrin, hrsink, hrallot, hrstruct⟩ :=
            ih (cnt - min cpi e.remaining) st1 hcnt1 hwf1 hsnap1 hnodup2.2
              (processItems maxS cpi (cnt - min cpi e.remaining) rest st1) rfl
          have htsRec0 : taskSum (qkey e)
              (processItems maxS cpi (cnt - min cpi e.remaining) rest st1).2 = 0 := by
            simp [taskSum, (hrout (qkey e) hnodup2.1).1]
          have htsFullE : taskSum (qkey e)
              ((if (e.policytype = "ses" ∨ e.policytype = "smtprelay" ∨
                  e.policytype = "easylink") then
                splitGo maxS e.sendid e.domain (min cpi e.remaining) 0
                  (e.count - e.remaining)
              else [⟨e.sendid, e.domain, e.count - e.remaining,
                min cpi e.remaining⟩]) ++
              (processItems maxS cpi (cnt - min cpi e.remaining) rest st1).2) =
              min cpi e.remaining := by
            rw [taskSum_append, htsRec0, taskSum_all_key _ _ hchunkKeys, hchunkSum]
            omega
          have hchunkF0 : ∀ x ∈ rest,
              (if (e.policytype = "ses" ∨ e.policytype = "smtprelay" ∨
                  e.policytype = "easylink") then
                splitGo maxS e.sendid e.domain (min cpi e.remaining) 0
                  (e.count - e.remaining)
              else [⟨e.sendid, e.domain, e.count - e.remaining,
                min cpi e.remaining⟩]).filter
                (fun t => decide ((t.sendid, t.domain) = qkey x)) = [] := by
            intro x hx
            have hkx : qkey x ≠ qkey e := fun he =>
              hnodup2.1 (he ▸ List.mem_map_of_mem qkey hx)
            exact filter_none_key _ _ (fun t ht => by
              rw [hchunkKeys t ht]; exact fun he => hkx he.symm)
          have htsFullR : ∀ x ∈ rest, taskSum (qkey x)
              ((if (e.policytype = "ses" ∨ e.policytype = "smtprelay" ∨
                  e.policytype = "easylink") then
                splitGo maxS e.sendid e.domain (min cpi e.remaining) 0
                  (e.count - e.remaining)
              else [⟨e.sendid, e.domain, e.count - e.remaining,
                min cpi e.remaining⟩]) ++
              (processItems maxS cpi (cnt - min cpi e.remaining) rest st1).2) =
              taskSum (qkey x)
                (processItems maxS cpi (cnt - min cpi e.remaining) rest st1).2 := by
            intro x hx
            rw [taskSum_append]
            have : taskSum (qkey x)
                (if (e.policytype = "ses" ∨ e.policytype = "smtprelay" ∨
                    e.policytype = "easylink") then
                  splitGo maxS e.sendid e.domain (min cpi e.remaining) 0
                    (e.count - e.remaining)
                else [⟨e.sendid, e.domain, e.count - e.remaining,
                  min cpi e.remaining⟩]) = 0 := by
              simp [taskSum, hchunkF0 x hx]
            omega
          refine ⟨hrwf, ?_, ?_, ?_, ?_, ?_⟩
          · intro k hk
            simp only [List.map_cons, List.mem_cons, not_or] at hk
            obtain ⟨hk1, hk2⟩ := hk
            constructor
            · rw [List.filter_append, (hrout k hk2).1,
                filter_none_key _ _ (fun t ht => by
                  rw [hchunkKeys t ht]; exact fun he => hk1 he.symm)]
              rfl
            · rw [(hrout k hk2).2, hfo1 k hk1]
          · intro x hx
            rcases List.mem_cons.mp hx with hx | hx
            · rw [hx, htsFullE]
              refine ⟨by omega, htr, ?_⟩
              rw [(hrout (qkey e) hnodup2.1).2, hfe1]
            · obtain ⟨hr1, hr2, hr3⟩ := hrin x hx
              rw [htsFullR x hx]
              exact ⟨hr1, hr2, hr3⟩
          · intro s
            constructor
            · intro hs
              exact (hrsink s).1 (hstat1 s hs)
            · intro hs
              rcases halive1 s hs with hs1 | hs1
              · exact (hrsink s).2 hs1
              · exact Or.inr ((hrsink s).1 hs1)
          · simp only [List.map_cons, specAllots]
            rw [htsFullE, if_pos hcnt]
            congr 1
            rw [← hrallot]
            apply List.map_congr_left
            intro x hx
            exact htsFullR x hx
          · intro x hx
            rcases List.mem_cons.mp hx with hx | hx
            · rw [hx]
              have hflt : ((if (e.policytype = "ses" ∨ e.policytype = "smtprelay" ∨
                    e.policytype = "easylink") then
                  splitGo maxS e.sendid e.domain (min cpi e.remaining) 0
                    (e.count - e.remaining)
                else [⟨e.sendid, e.domain, e.count - e.remaining,
                  min cpi e.remaining⟩]) ++
                (processItems maxS cpi (cnt - min cpi e.remaining) rest st1).2).filter
                  (fun t => decide ((t.sendid, t.domain) = qkey e)) =
                  (if (e.policytype = "ses" ∨ e.policytype = "smtprelay" ∨
                      e.policytype = "easylink") then
                    splitGo maxS e.sendid e.domain (min cpi e.remaining) 0
                      (e.count - e.remaining)
                  else [⟨e.sendid, e.domain, e.count - e.remaining,
                    min cpi e.remaining⟩]) := by
                rw [List.filter_append, (hrout (qkey e) hnodup2.1).1,
                  List.filter_eq_self.mpr (fun t ht => by simp [hchunkKeys t ht]),
                  List.append_nil]
              constructor
              · intro hpre
                rw [hflt, if_pos hpre]
                exact splitGo_chain maxS e.sendid e.domain
                  (min cpi e.remaining).toNat (min cpi e.remaining) 0
                  (e.count - e.remaining) (by omega)
              · intro hpre
                rw [htsFullE]
                rw [if_neg (show ¬(min cpi e.remaining = (0 : Int)) by omega)]
                rw [hflt, if_neg hpre]
            · have hfapp : ((if (e.policytype = "ses" ∨ e.policytype = "smtprelay" ∨
                    e.policytype = "easylink") then
                  splitGo maxS e.sendid e.domain (min cpi e.remaining) 0
                    (e.count - e.remaining)
                else [⟨e.sendid, e.domain, e.count - e.remaining,
                  min cpi e.remaining⟩]) ++
                (processItems maxS cpi (cnt - min cpi e.remaining) rest st1).2).filter
                  (fun t => decide ((t.sendid, t.domain) = qkey x)) =
                  ((processItems maxS cpi (cnt - min cpi e.remaining) rest st1).2).filter
                    (fun t => decide ((t.sendid, t.domain) = qkey x)) := by
                rw [List.filter_append, hchunkF0 x hx, List.nil_append]
              obtain ⟨hc1, hc2⟩ := hrstruct x hx
              constructor
              · intro hpre
                rw [hfapp]
                exact hc1 hpre
              · intro hpre
                rw [hfapp, htsFullR x hx]
                exact hc2 hpre
      simp only [processItems] at hpr
      by_cases hdel : e.remaining - min cpi e.remaining ≤ 0
      · have hminEq : min cpi e.remaining = e.remaining := by omega
        by_cases hcp : (st.queue.filter (fun x => decide (qkey x ≠ qkey e))).countP
            (fun x => decide (x.sinkid = e.sinkid)) = 0
        · simp only [if_pos hdel, if_pos hcp] at hpr
          obtain ⟨hwf1, hfe1, hfo1, hsink1⟩ := deleteState_count0 st e hwf heMem hcp
          refine hfinish _ ?_ ?_ ?_ ?_ ?_ pr hpr
          · exact hwf1
          · rw [if_pos hminEq]; exact hfe1
          · exact hfo1
          · exact fun s => (hsink1 s).1
          · exact fun s => (hsink1 s).2
        · simp only [if_pos hdel, if_neg hcp] at hpr
          obtain ⟨hwf1, hfe1, hfo1, halive1⟩ := deleteState_countPos st e hwf heMem hcp
          refine hfinish _ ?_ ?_ ?_ ?_ ?_ pr hpr
          · exact hwf1
          · rw [if_pos hminEq]; exact hfe1
          · exact hfo1
          · exact fun s hs => hs
          · exact fun s hs => Or.inl (halive1 s hs)
      · simp only [if_neg hdel] at hpr
        obtain ⟨hwf1, hfe1, hfo1, halive1⟩ := updateState_spec st e
          (min cpi e.remaining) hwf heMem (by omega) (by omega)
        refine hfinish _ ?_ ?_ ?_ ?_ ?_ pr hpr
        · exact hwf1
        · rw [if_neg (show ¬(min cpi e.remaining = e.remaining) by omega)]
          exact hfe1
        · exact hfo1
        · exact fun s hs => hs
        · exact fun s hs => Or.inl (halive1 s hs)

theorem ceilDivInt_pos (a b : Int) (ha : 0 < a) (hb : 0 < b) :
    1 ≤ ceilDivInt a b := by
  have h : ceilDivInt a b = (a + b - 1) / b := rfl
  rw [h, Int.le_ediv_iff_mul_le hb]
  omega

theorem qentry_eta_sub_zero (x : QEntry) :
    ({ x with remaining := x.remaining - 0 } : QEntry) = x := by
  cases x; simp

/-- One drain pass over one (campaign, domain) group: the conserved
per-entry facts needed to chain passes together. -/
theorem drainGroup_spec (maxS allowed : Int) (d : String) (st : CampState)
    (hwf : wfQueue st.queue) :
    ∀ pr, drainGroup maxS allowed d st = pr →
    wfQueue pr.1.queue ∧
    (∀ x ∈ st.queue,
      0 ≤ taskSum (qkey x) pr.2 ∧
      taskSum (qkey x) pr.2 ≤ x.remaining ∧
      qfind (qkey x) pr.1.queue =
        (if taskSum (qkey x) pr.2 = x.remaining then none
         else some { x with remaining := x.remaining - taskSum (qkey x) pr.2 })) ∧
    (∀ k, qfind k st.queue = none →
      (pr.2.filter (fun t => decide ((t.sendid, t.domain) = k))) = [] ∧
      qfind k pr.1.queue = none) ∧
    (∀ s, (statusLookup st.sinkstatus s = some true →
            statusLookup pr.1.sinkstatus s = some true) ∧
          ((∃ x ∈ st.queue, x.sinkid = s) →
            (∃ x ∈ pr.1.queue, x.sinkid = s) ∨
            statusLookup pr.1.sinkstatus s = some true)) := by
  intro pr hpr
  by_cases hal : allowed ≤ 0
  · simp only [drainGroup, if_pos hal] at hpr
    subst hpr
    dsimp only
    refine ⟨hwf, ?_, ?_, ?_⟩
    · intro x hx
      have hx0 := (hwf.2 x hx).1
      have hts : taskSum (qkey x) ([] : List Task) = 0 := by simp [taskSum]
      refine ⟨by omega, by omega, ?_⟩
      rw [hts, if_neg (by omega), qentry_eta_sub_zero]
      exact qfind_of_mem_nodup st.queue x hwf.1 hx
    · intro k hk
      exact ⟨rfl, hk⟩
    · intro s
      exact ⟨fun h => h, fun h => Or.inl h⟩
  · have hal0 : 0 < allowed := by omega
    have hpr1 : processItems maxS
        (if (if (st.queue.filter (fun e => decide (e.domain = d))).length ≠ 0 then
              ceilDivInt allowed (st.queue.filter (fun e => decide (e.domain = d))).length
            else 1) = 0 then 1
         else (if (st.queue.filter (fun e => decide (e.domain = d))).length ≠ 0 then
              ceilDivInt allowed (st.queue.filter (fun e => decide (e.domain = d))).length
            else 1))
        allowed (st.queue.filter (fun e => decide (e.domain = d))) st = pr := by
      rw [← hpr]
      simp only [drainGroup, if_neg hal]
    have hitems : ∀ x ∈ st.queue.filter (fun e => decide (e.domain = d)), x ∈ st.queue :=
      fun x hx => List.mem_of_mem_filter hx
    have hnodup : ((st.queue.filter (fun e => decide (e.domain = d))).map qkey).Nodup :=
      hwf.1.sublist ((List.filter_sublist st.queue).map qkey)
    have hsnap : ∀ x ∈ st.queue.filter (fun e => decide (e.domain = d)),
        qfind (qkey x) st.queue = some x :=
      fun x hx => qfind_of_mem_nodup st.queue x hwf.1 (hitems x hx)
    have hcpi : 1 ≤ (if (if (st.queue.filter (fun e => decide (e.domain = d))).length ≠ 0 then
              ceilDivInt allowed (st.queue.filter (fun e => decide (e.domain = d))).length
            else 1) = 0 then 1
         else (if (st.queue.filter (fun e => decide (e.domain = d))).length ≠ 0 then
              ceilDivInt allowed (st.queue.filter (fun e => decide (e.domain = d))).length
            else 1)) := by
      by_cases hlen : (st.queue.filter (fun e => decide (e.domain = d))).length ≠ 0
      · have h1 : 1 ≤ ceilDivInt allowed
            ((st.queue.filter (fun e => decide (e.domain = d))).length : Int) :=
          ceilDivInt_pos _ _ hal0 (by exact_mod_cast Nat.pos_of_ne_zero hlen)
        rw [if_pos hlen]
        split
        · omega
        · omega
      · rw [if_neg hlen]
        norm_num
    obtain ⟨hc1, hc2, hc3, hc4, hc5, hc6⟩ :=
      processItems_spec maxS _ hcpi _ allowed st hal0 hwf hsnap hnodup pr hpr1
    refine ⟨hc1, ?_, ?_, hc4⟩
    · intro x hx
      by_cases hdx : x.domain = d
      · exact hc3 x (List.mem_filter.mpr ⟨hx, by simp [hdx]⟩)
      · have hnot : qkey x ∉ (st.queue.filter (fun e => decide (e.domain = d))).map qkey := by
          intro hmem
          obtain ⟨y, hy, hky⟩ := List.mem_map.mp hmem
          have hyq := hitems y hy
          have hxy : y = x := List.inj_on_of_nodup_map hwf.1 hyq hx hky
          subst hxy
          exact hdx (by simpa using (List.mem_filter.mp hy).2)
        obtain ⟨hflt, hsame⟩ := hc2 (qkey x) hnot
        have hts : taskSum (qkey x) pr.2 = 0 := by simp [taskSum, hflt]
        have hx0 := (hwf.2 x hx).1
        refine ⟨by omega, by omega, ?_⟩
        rw [hts, if_neg (by omega), qentry_eta_sub_zero, hsame]
        exact qfind_of_mem_nodup st.queue x hwf.1 hx
    · intro k hk
      have hnot : k ∉ (st.queue.filter (fun e => decide (e.domain = d))).map qkey := by
        intro hmem
        obtain ⟨y, hy, hky⟩ := List.mem_map.mp hmem
        have := qfind_of_mem_nodup st.queue y hwf.1 (hitems y hy)
        rw [hky, hk] at this
        exact Option.noConfusion this
      obtain ⟨hflt, hsame⟩ := hc2 k hnot
      exact ⟨hflt, hsame.trans hk⟩

/-- A whole sequence of drain passes, chained with drainGroup_spec: the
per-entry task totals, deletion condition and sink handover survive the
composition. -/
theorem drainTrace_spec (maxS : Int) :
    ∀ (passes : List (Int × String)) (st : CampState),
      wfQueue st.queue →
      ∀ pr, drainTrace maxS passes st = pr →
      wfQueue pr.1.queue ∧
      (∀ x ∈ st.queue,
        0 ≤ taskSum (qkey x) pr.2 ∧
        taskSum (qkey x) pr.2 ≤ x.remaining ∧
        qfind (qkey x) pr.1.queue =
          (if taskSum (qkey x) pr.2 = x.remaining then none
           else some { x with remaining := x.remaining - taskSum (qkey x) pr.2 })) ∧
      (∀ k, qfind k st.queue = none →
        (pr.2.filter (fun t => decide ((t.sendid, t.domain) = k))) = [] ∧
        qfind k pr.1.queue = none) ∧
      (∀ s, (statusLookup st.sinkstatus s = some true →
              statusLookup pr.1.sinkstatus s = some true) ∧
            ((∃ x ∈ st.queue, x.sinkid = s) →
              (∃ x ∈ pr.1.queue, x.sinkid = s) ∨
              statusLookup pr.1.sinkstatus s = some true)) := by
  intro passes
  induction passes with
  | nil =>
      intro st hwf pr hpr
      simp only [drainTrace] at hpr
      subst hpr
      dsimp only
      refine ⟨hwf, ?_, ?_, ?_⟩
      · intro x hx
        have hx0 := (hwf.2 x hx).1
        have hts : taskSum (qkey x) ([] : List Task) = 0 := by simp [taskSum]
        refine ⟨by omega, by omega, ?_⟩
        rw [hts, if_neg (by omega), qentry_eta_sub_zero]
        exact qfind_of_mem_nodup st.queue x hwf.1 hx
      · intro k hk
        exact ⟨rfl, hk⟩
      · intro s
        exact ⟨fun h => h, fun h => Or.inl h⟩
  | cons p rest ih =>
      intro st hwf pr hpr
      obtain ⟨a, d⟩ := p
      simp only [drainTrace] at hpr
      subst hpr
      dsimp only
      obtain ⟨g1, g2, g3, g4⟩ :=
        drainGroup_spec maxS a d st hwf (drainGroup maxS a d st) rfl
      obtain ⟨i1, i2, i3, i4⟩ :=
        ih (drainGroup maxS a d st).1 g1
          (drainTrace maxS rest (drainGroup maxS a d st).1) rfl
      refine ⟨i1, ?_, ?_, ?_⟩
      · intro x hx
        obtain ⟨hs1a, hs1b, hq1⟩ := g2 x hx
        rw [taskSum_append]
        by_cases hdone : taskSum (qkey x) (drainGroup maxS a d st).2 = x.remaining
        · rw [if_pos hdone] at hq1
          obtain ⟨hflt, hqf⟩ := i3 (qkey x) hq1
          have hs2 : taskSum (qkey x)
              (drainTrace maxS rest (drainGroup maxS a d st).1).2 = 0 := by
            simp [taskSum, hflt]
          rw [hs2, hdone]
          refine ⟨by omega, by omega, ?_⟩
          rw [if_pos (by omega)]
          exact hqf
        · rw [if_neg hdone] at hq1
          obtain ⟨hx1, -⟩ := qfind_some _ _ _ hq1
          obtain ⟨ha2, hb2, hc2⟩ := i2 _ hx1
          rw [qkey_update] at ha2 hb2 hc2
          dsimp only at hb2 hc2
          refine ⟨by omega, by omega, ?_⟩
          rw [hc2]
          by_cases hfin : taskSum (qkey x)
              (drainTrace maxS rest (drainGroup maxS a d st).1).2 =
              x.remaining - taskSum (qkey x) (drainGroup maxS a d st).2
          · rw [if_pos hfin, if_pos (by omega)]
          · rw [if_neg hfin, if_neg (by omega)]
            simp only [Option.some.injEq, QEntry.mk.injEq, true_and, and_true]
            omega
      · intro k hk
        obtain ⟨hflt1, hq1⟩ := g3 k hk
        obtain ⟨hflt2, hq2⟩ := i3 k hq1
        rw [List.filter_append, hflt1, hflt2]
        exact ⟨rfl, hq2⟩
      · intro s
        refine ⟨fun h => (i4 s).1 ((g4 s).1 h), ?_⟩
        intro halive
        rcases (g4 s).2 halive with h | h
        · exact (i4 s).2 h
        · exact Or.inr ((i4 s).1 h)

end Drain

/-- C4: for every queue entry created with count = C and remaining = C,
across all drain passes until the entry is deleted the sum of the tosend
amounts dispatched for it equals exactly C; remaining never goes negative
and always satisfies remaining <= count (wfQueue is preserved); the entry
is deleted exactly when its remaining reaches zero (the dispatched total
reaches C); and when the deleted entry was the last entry of its sink the
sinkstatus bit of that sink is set to true. -/
theorem c4_queue_entry_conservation (maxS : Int) (passes : List (Int × String))
    (st : Drain.CampState) (x : Drain.QEntry)
    (hwf : Drain.wfQueue st.queue) (hx : x ∈ st.queue)
    (hfresh : x.remaining = x.count) :
    ∀ pr, Drain.drainTrace maxS passes st = pr →
    Drain.wfQueue pr.1.queue ∧
    (0 ≤ Drain.taskSum (Drain.qkey x) pr.2 ∧
     Drain.taskSum (Drain.qkey x) pr.2 ≤ x.count) ∧
    (Drain.qfind (Drain.qkey x) pr.1.queue = none ↔
      Drain.taskSum (Drain.qkey x) pr.2 = x.count) ∧
    (∀ y, Drain.qfind (Drain.qkey x) pr.1.queue = some y →
      y.count = x.count ∧
      y.remaining = x.count - Drain.taskSum (Drain.qkey x) pr.2 ∧
      0 < y.remaining ∧ y.remaining ≤ y.count) ∧
    ((¬ ∃ z ∈ pr.1.queue, z.sinkid = x.sinkid) →
      Drain.statusLookup pr.1.sinkstatus x.sinkid = some true) := by
  intro pr hpr
  obtain ⟨h1, h2, h3, h4⟩ := Drain.drainTrace_spec maxS passes st hwf pr hpr
  obtain ⟨ha, hb, hc⟩ := h2 x hx
  rw [hfresh] at hb hc
  refine ⟨h1, ⟨ha, hb⟩, ?_, ?_, ?_⟩
  · constructor
    · intro hnone
      by_contra hne
      rw [if_neg hne] at hc
      rw [hc] at hnone
      exact Option.noConfusion hnone
    · intro heq
      rw [hc, if_pos heq]
  · intro y hy
    by_cases heq : Drain.taskSum (Drain.qkey x) pr.2 = x.count
    · rw [hc, if_pos heq] at hy
      exact Option.noConfusion hy
    · rw [hc, if_neg heq] at hy
      have hy2 := Option.some.inj hy
      subst hy2
      refine ⟨rfl, rfl, ?_, ?_⟩
      · dsimp only
        omega
      · dsimp only
        omega
  · intro hno
    rcases (h4 x.sinkid).2 ⟨x, hx, rfl⟩ with h | h
    · exact absurd h hno
    · exact h

theorem c4_queue_entry_conservation_witness :
    Drain.wfQueue ([⟨1, 3, 3, "batch", 7, "d"⟩] : List Drain.QEntry) ∧
    (⟨1, 3, 3, "batch", 7, "d"⟩ : Drain.QEntry) ∈
      ([⟨1, 3, 3, "batch", 7, "d"⟩] : List Drain.QEntry) ∧
    (Drain.wfQueue
        (Drain.drainTrace 1000 [(2, "d"), (5, "d")]
          ⟨[⟨1, 3, 3, "batch", 7, "d"⟩], [(7, false)], false⟩).1.queue ∧
      (0 ≤ Drain.taskSum (Drain.qkey ⟨1, 3, 3, "batch", 7, "d"⟩)
          (Drain.drainTrace 1000 [(2, "d"), (5, "d")]
            ⟨[⟨1, 3, 3, "batch", 7, "d"⟩], [(7, false)], false⟩).2 ∧
       Drain.taskSum (Drain.qkey ⟨1, 3, 3, "batch", 7, "d"⟩)
          (Drain.drainTrace 1000 [(2, "d"), (5, "d")]
            ⟨[⟨1, 3, 3, "batch", 7, "d"⟩], [(7, false)], false⟩).2 ≤ 3) ∧
      (Drain.qfind (Drain.qkey ⟨1, 3, 3, "batch", 7, "d"⟩)
          (Drain.drainTrace 1000 [(2, "d"), (5, "d")]
            ⟨[⟨1, 3, 3, "batch", 7, "d"⟩], [(7, false)], false⟩).1.queue = none ↔
        Drain.taskSum (Drain.qkey ⟨1, 3, 3, "batch", 7, "d"⟩)
          (Drain.drainTrace 1000 [(2, "d"), (5, "d")]
            ⟨[⟨1, 3, 3, "batch", 7, "d"⟩], [(7, false)], false⟩).2 = 3) ∧
      (∀ y, Drain.qfind (Drain.qkey ⟨1, 3, 3, "batch", 7, "d"⟩)
          (Drain.drainTrace 1000 [(2, "d"), (5, "d")]
            ⟨[⟨1, 3, 3, "batch", 7, "d"⟩], [(7, false)], false⟩).1.queue = some y →
        y.count = 3 ∧
        y.remaining = 3 - Drain.taskSum (Drain.qkey ⟨1, 3, 3, "batch", 7, "d"⟩)
          (Drain.drainTrace 1000 [(2, "d"), (5, "d")]
            ⟨[⟨1, 3, 3, "batch", 7, "d"⟩], [(7, false)], false⟩).2 ∧
        0 < y.remaining ∧ y.remaining ≤ y.count) ∧
      ((¬ ∃ z ∈ (Drain.drainTrace 1000 [(2, "d"), (5, "d")]
            ⟨[⟨1, 3, 3, "batch", 7, "d"⟩], [(7, false)], false⟩).1.queue,
          z.sinkid = 7) →
        Drain.statusLookup
          (Drain.drainTrace 1000 [(2, "d"), (5, "d")]
            ⟨[⟨1, 3, 3, "batch", 7, "d"⟩], [(7, false)], false⟩).1.sinkstatus 7 =
          some true)) :=
  ⟨by unfold Drain.wfQueue; decide, by decide,
    c4_queue_entry_conservation 1000 [(2, "d"), (5, "d")]
      ⟨[⟨1, 3, 3, "batch", 7, "d"⟩], [(7, false)], false⟩
      ⟨1, 3, 3, "batch", 7, "d"⟩ (by unfold Drain.wfQueue; decide) (by decide)
      (by decide) _ rfl⟩

/-- C5 (amended): in one drain pass over a group of k queue entries granted
allowed > 0, cntperitem is ceil(allowed / k); entries are processed in
snapshot order, each allotted min(cntperitem, its remaining) while the
granted budget is still positive and nothing once the budget is exhausted
(specAllots); for one-at-a-time providers (ses, smtprelay, easylink) the
allotment is split into consecutive tasks of at most max(1, max-send-limit)
each whose offsets start at count - remaining and continue contiguously;
for batch providers the whole allotment is a single task at offset
count - remaining. -/
theorem c5_per_entry_allotment (maxS allowed : Int) (d : String)
    (st : Drain.CampState) (hwf : Drain.wfQueue st.queue) (hal : 0 < allowed)
    (hk : (st.queue.filter (fun e => decide (e.domain = d))).length ≠ 0) :
    ∀ pr, Drain.drainGroup maxS allowed d st = pr →
    ((st.queue.filter (fun e => decide (e.domain = d))).map
        (fun x => Drain.taskSum (Drain.qkey x) pr.2)) =
      Drain.specAllots
        (Drain.ceilDivInt allowed
          ((st.queue.filter (fun e => decide (e.domain = d))).length : Int))
        allowed
        ((st.queue.filter (fun e => decide (e.domain = d))).map
          Drain.QEntry.remaining) ∧
    (∀ x ∈ st.queue.filter (fun e => decide (e.domain = d)),
      ((x.policytype = "ses" ∨ x.policytype = "smtprelay" ∨
          x.policytype = "easylink") →
        Drain.isChain (x.count - x.remaining) (max 1 maxS)
          (pr.2.filter (fun t => decide ((t.sendid, t.domain) = Drain.qkey x)))) ∧
      (¬(x.policytype = "ses" ∨ x.policytype = "smtprelay" ∨
          x.policytype = "easylink") →
        pr.2.filter (fun t => decide ((t.sendid, t.domain) = Drain.qkey x)) =
          (if Drain.taskSum (Drain.qkey x) pr.2 = 0 then []
           else [⟨x.sendid, x.domain, x.count - x.remaining,
             Drain.taskSum (Drain.qkey x) pr.2⟩]))) := by
  intro pr hpr
  have hlen : (0 : Int) <
      ((st.queue.filter (fun e => decide (e.domain = d))).length : Int) := by
    exact_mod_cast Nat.pos_of_ne_zero hk
  have h1 : 1 ≤ Drain.ceilDivInt allowed
      ((st.queue.filter (fun e => decide (e.domain = d))).length : Int) :=
    Drain.ceilDivInt_pos _ _ hal hlen
  have hpr1 : Drain.processItems maxS
      (Drain.ceilDivInt allowed
        ((st.queue.filter (fun e => decide (e.domain = d))).length : Int))
      allowed (st.queue.filter (fun e => decide (e.domain = d))) st = pr := by
    rw [← hpr]
    simp only [Drain.drainGroup, if_neg (not_le.mpr hal)]
    rw [if_pos hk, if_neg (by omega)]
  have hnodup : ((st.queue.filter (fun e => decide (e.domain = d))).map
      Drain.qkey).Nodup :=
    hwf.1.sublist ((List.filter_sublist st.queue).map Drain.qkey)
  have hsnap : ∀ x ∈ st.queue.filter (fun e => decide (e.domain = d)),
      Drain.qfind (Drain.qkey x) st.queue = some x :=
    fun x hx => Drain.qfind_of_mem_nodup st.queue x hwf.1 (List.mem_of_mem_filter hx)
  obtain ⟨-, -, -, -, hc5, hc6⟩ :=
    Drain.processItems_spec maxS _ h1 _ allowed st hal hwf hsnap hnodup pr hpr1
  exact ⟨hc5, hc6⟩

theorem c5_per_entry_allotment_witness :
    Drain.wfQueue ([⟨1, 10, 10, "sparkpost", 7, "d"⟩] : List Drain.QEntry) ∧
    (0 : Int) < 4 ∧
    (([⟨1, 10, 10, "sparkpost", 7, "d"⟩] : List Drain.QEntry).filter
      (fun e => decide (e.domain = "d"))).length ≠ 0 ∧
    ((([⟨1, 10, 10, "sparkpost", 7, "d"⟩] : List Drain.QEntry).filter
        (fun e => decide (e.domain = "d"))).map
        (fun x => Drain.taskSum (Drain.qkey x)
          (Drain.drainGroup 1000 4 "d"
            ⟨[⟨1, 10, 10, "sparkpost", 7, "d"⟩], [(7, false)], false⟩).2)) =
      Drain.specAllots
        (Drain.ceilDivInt 4
          (((([⟨1, 10, 10, "sparkpost", 7, "d"⟩] : List Drain.QEntry).filter
            (fun e => decide (e.domain = "d"))).length : Nat) : Int))
        4
        ((([⟨1, 10, 10, "sparkpost", 7, "d"⟩] : List Drain.QEntry).filter
          (fun e => decide (e.domain = "d"))).map Drain.QEntry.remaining) ∧
    (∀ x ∈ ([⟨1, 10, 10, "sparkpost", 7, "d"⟩] : List Drain.QEntry).filter
        (fun e => decide (e.domain = "d")),
      ((x.policytype = "ses" ∨ x.policytype = "smtprelay" ∨
          x.policytype = "easylink") →
        Drain.isChain (x.count - x.remaining) (max 1 1000)
          ((Drain.drainGroup 1000 4 "d"
            ⟨[⟨1, 10, 10, "sparkpost", 7, "d"⟩], [(7, false)], false⟩).2.filter
            (fun t => decide ((t.sendid, t.domain) = Drain.qkey x)))) ∧
      (¬(x.policytype = "ses" ∨ x.policytype = "smtprelay" ∨
          x.policytype = "easylink") →
        (Drain.drainGroup 1000 4 "d"
            ⟨[⟨1, 10, 10, "sparkpost", 7, "d"⟩], [(7, false)], false⟩).2.filter
            (fun t => decide ((t.sendid, t.domain) = Drain.qkey x)) =
          (if Drain.taskSum (Drain.qkey x)
              (Drain.drainGroup 1000 4 "d"
                ⟨[⟨1, 10, 10, "sparkpost", 7, "d"⟩], [(7, false)], false⟩).2 = 0 then []
           else [⟨x.sendid, x.domain, x.count - x.remaining,
             Drain.taskSum (Drain.qkey x)
              (Drain.drainGroup 1000 4 "d"
                ⟨[⟨1, 10, 10, "sparkpost", 7, "d"⟩], [(7, false)], false⟩).2⟩]))) ∧
    (Drain.drainGroup 1000 4 "d"
        ⟨[⟨1, 10, 10, "sparkpost", 7, "d"⟩], [(7, false)], false⟩).2 =
      [⟨1, "d", 0, 4⟩] ∧
    (Drain.drainGroup 1000 4 "d"
        ⟨[⟨1, 10, 10, "sparkpost", 7, "d"⟩], [(7, false)], false⟩).1.queue =
      [⟨1, 10, 6, "sparkpost", 7, "d"⟩] := by
  refine ⟨by unfold Drain.wfQueue; decide, by decide, by decide, ?_, ?_,
    by decide, by decide⟩
  · exact (c5_per_entry_allotment 1000 4 "d"
      ⟨[⟨1, 10, 10, "sparkpost", 7, "d"⟩], [(7, false)], false⟩
      (by unfold Drain.wfQueue; decide) (by decide) (by decide) _ rfl).1
  · exact (c5_per_entry_allotment 1000 4 "d"
      ⟨[⟨1, 10, 10, "sparkpost", 7, "d"⟩], [(7, false)], false⟩
      (by unfold Drain.wfQueue; decide) (by decide) (by decide) _ rfl).2

/-- C5, original wording refuted: with three queue entries of remaining 2
each in one group and allowed = 4, cntperitem = ceil(4/3) = 2, but the
third entry receives 0 rather than min(2, 2) = 2 because the granted
budget is exhausted after the first two entries. -/
theorem c5_counterexample :
    Drain.ceilDivInt 4 3 = 2 ∧
    min (Drain.ceilDivInt 4 3) 2 = 2 ∧
    Drain.taskSum (3, "d")
      (Drain.drainGroup 1000 4 "d"
        ⟨[⟨1, 2, 2, "batch", 7, "d"⟩, ⟨2, 2, 2, "batch", 7, "d"⟩,
          ⟨3, 2, 2, "batch", 7, "d"⟩], [(7, false)], false⟩).2 = 0 := by
  decide


namespace ListWriter

/- campaigns.py lines 99-315 (write_campaign_lists) and 955-963
(campaign_start).  The partition loop walks the filtered, ordered rows
once, with a running cumulative percentage pct and a running row index
cnt; each sink consumes rows while cnt < len(rows) and
(float(cnt)/float(len(rows)))*100 < pct, then the loop over sinks breaks
once pct >= 100.  The source computes the guard in binary64 floating
point; it is embedded here as the exact rational comparison
cnt * 100 < pct * len(rows).  The two agree except when the double
rounding of (cnt/N)*100 falls one ulp below an exactly attained integer
threshold (this happens for the thresholds 29, 57 and 58, e.g.
(29/100)*100 = 28.999999999999996 < 29), which shifts that one boundary
by a single row; it never affects which rows are written, that each row
is written exactly once, or the per-domain count totals, which is what
C7 asserts. -/

/-- A provider sink taking part of the split: its id and its (already
normalized) percentage. -/
structure SinkObj where
  id : String
  pct : Int
deriving Repr, DecidableEq

/-- campaigns.py 955-963: a single split gets 100; otherwise every pct is
rescaled to ceil((pct / totalpct) * 100) when the total is positive. -/
def normalizeSplits (pcts : List Int) : List Int :=
  if pcts.length = 1 then [100]
  else
    let totalpct := pcts.sum
    if 0 < totalpct then pcts.map (fun p => Drain.ceilDivInt (p * 100) totalpct)
    else pcts

def afterFirstAt : List Char → List Char
  | [] => []
  | c :: rest => if c = Char.ofNat 64 then rest else afterFirstAt rest

def upToAt : List Char → List Char
  | [] => []
  | c :: rest => if c = Char.ofNat 64 then [] else c :: upToAt rest

/-- Python em.split("@")[1]: the piece between the first @ and the next
@ or the end (an address without @ would raise IndexError in the source;
here it maps to the empty domain). -/
def emailDomain (em : String) : String := String.mk (upToAt (afterFirstAt em.data))

/-- campaigns.py 280-287: the per-domain tally upsert of countbydomain. -/
def addCount : List (String × Nat) → String → List (String × Nat)
  | [], domain => [(domain, 1)]
  | (d, c) :: rest, domain =>
      if d = domain then (d, c + 1) :: rest else (d, c) :: addCount rest domain

/-- The per-row effects of the while body over the rows a sink consumed. -/
def addCounts (counts : List (String × Nat)) (slice : List String) :
    List (String × Nat) :=
  slice.foldl (fun cs em => addCount cs (emailDomain em)) counts

/-- campaigns.py 274-277: the while guard, run to exhaustion; fuel is
len(rows) - cnt, enough for the cnt < len(rows) conjunct to stop it. -/
def whileGo : Nat → Nat → Int → Nat → Nat
  | 0, _, _, cnt => cnt
  | fuel + 1, N, pct, cnt =>
      if cnt < N ∧ (cnt : Int) * 100 < pct * N then whileGo fuel N pct (cnt + 1)
      else cnt

/-- campaigns.py 264-302: the loop over sinkobjs.  Each sink accumulates
its pct, consumes rows while the guard holds (its list block is that
slice, its rows tallied into countbydomain), and the loop breaks once the
cumulative pct reaches 100. -/
def sinkLoop (rows : List String) :
    List SinkObj → Int → Nat → List (String × Nat) →
      List (String × List String) × List (String × Nat)
  | [], _, _, counts => ([], counts)
  | obj :: rest, pct0, cnt, counts =>
      let pct := pct0 + obj.pct
      let e := whileGo (rows.length - cnt) rows.length pct cnt
      let slice := (rows.drop cnt).take (e - cnt)
      let counts1 := addCounts counts slice
      if 100 ≤ pct then ([(obj.id, slice)], counts1)
      else
        let pr := sinkLoop rows rest pct e counts1
        ((obj.id, slice) :: pr.1, pr.2)

/-- campaigns.py 262-302: the partition only runs when the filtered row
set is nonempty; countbydomain starts empty for the fresh sendid. -/
def write_campaign_lists (rows : List String) (sinks : List SinkObj) :
    List (String × List String) × List (String × Nat) :=
  if rows.length ≠ 0 then sinkLoop rows sinks 0 0 [] else ([], [])

/-- Claim-side definition (C7 wording): each sink receives the contiguous
slice of the ordered rows between the cumulative percentage boundaries
b = min(N, ceil(P * N / 100)), stopping with the sink whose cumulative
percentage reaches 100. -/
def specBlocks (rows : List String) :
    List SinkObj → Int → Nat → List (String × List String)
  | [], _, _ => []
  | obj :: rest, pct0, cnt =>
      let pct := pct0 + obj.pct
      let b := max cnt (min rows.length
        (Int.toNat (Drain.ceilDivInt (pct * rows.length) 100)))
      (obj.id, (rows.drop cnt).take (b - cnt)) ::
        (if 100 ≤ pct then [] else specBlocks rows rest pct b)

theorem addCount_total (cs : List (String × Nat)) (d : String) :
    ((addCount cs d).map Prod.snd).sum = (cs.map Prod.snd).sum + 1 := by
  induction cs with
  | nil => simp [addCount]
  | cons kv rest ih =>
      by_cases h : kv.1 = d
      · obtain ⟨k, c⟩ := kv
        simp only at h
        simp [addCount, h]
        omega
      · obtain ⟨k, c⟩ := kv
        simp only at h
        simp [addCount, h, ih]
        omega

theorem addCounts_total (slice : List String) :
    ∀ cs : List (String × Nat),
      ((addCounts cs slice).map Prod.snd).sum =
        (cs.map Prod.snd).sum + slice.length := by
  induction slice with
  | nil => intro cs; simp [addCounts]
  | cons em rest ih =>
      intro cs
      have h1 : addCounts cs (em :: rest) =
          addCounts (addCount cs (emailDomain em)) rest := rfl
      rw [h1, ih, addCount_total]
      simp
      omega

/-- The while loop runs cnt up to the cumulative boundary
min(N, ceil(pct * N / 100)) (and never below its start). -/
theorem whileGo_eq (N : Nat) (pct : Int) :
    ∀ (fuel cnt : Nat), N ≤ cnt + fuel →
      whileGo fuel N pct cnt =
        max cnt (min N (Int.toNat (Drain.ceilDivInt (pct * N) 100))) := by
  have hc : Drain.ceilDivInt (pct * (N : Int)) 100 =
      (pct * (N : Int) + 100 - 1) / 100 := rfl
  intro fuel
  induction fuel with
  | zero =>
      intro cnt h
      simp only [whileGo, hc]
      omega
  | succ fuel ih =>
      intro cnt h
      simp only [whileGo, hc]
      by_cases hg : cnt < N ∧ (cnt : Int) * 100 < pct * N
      · rw [if_pos hg, ih (cnt + 1) (by omega)]
        obtain ⟨h1, h2⟩ := hg
        rw [hc]
        omega
      · rw [if_neg hg]
        rw [not_and_or] at hg
        rcases hg with hg | hg
        · omega
        · rw [not_lt] at hg
          omega

theorem sinkLoop_spec (rows : List String) :
    ∀ (sinks : List SinkObj) (pct0 : Int) (cnt : Nat)
      (counts : List (String × Nat)),
      cnt ≤ rows.length →
      ∀ pr, sinkLoop rows sinks pct0 cnt counts = pr →
      pr.1 = specBlocks rows sinks pct0 cnt ∧
      (pct0 < 100 → pct0 + (sinks.map SinkObj.pct).sum = 100 →
        (pr.1.map Prod.snd).flatten = rows.drop cnt ∧
        (pr.2.map Prod.snd).sum =
          (counts.map Prod.snd).sum + (rows.length - cnt)) := by
  intro sinks
  induction sinks with
  | nil =>
      intro pct0 cnt counts hcnt pr hpr
      simp only [sinkLoop] at hpr
      subst hpr
      refine ⟨rfl, ?_⟩
      intro hlt hsum
      simp only [List.map_nil, List.sum_nil, add_zero] at hsum
      omega
  | cons obj rest ih =>
      intro pct0 cnt counts hcnt pr hpr
      simp only [sinkLoop] at hpr
      have he := whileGo_eq rows.length (pct0 + obj.pct) (rows.length - cnt) cnt
        (by omega)
      rw [he] at hpr
      have hbnds : cnt ≤ max cnt (min rows.length
          (Int.toNat (Drain.ceilDivInt ((pct0 + obj.pct) * rows.length) 100))) ∧
          max cnt (min rows.length
          (Int.toNat (Drain.ceilDivInt ((pct0 + obj.pct) * rows.length) 100))) ≤
          rows.length := by omega
      have hslen : ((rows.drop cnt).take
          (max cnt (min rows.length
            (Int.toNat (Drain.ceilDivInt ((pct0 + obj.pct) * rows.length) 100))) -
            cnt)).length =
          max cnt (min rows.length
            (Int.toNat (Drain.ceilDivInt ((pct0 + obj.pct) * rows.length) 100))) -
            cnt := by
        rw [List.length_take, List.length_drop]
        omega
      by_cases hbr : 100 ≤ pct0 + obj.pct
      · rw [if_pos hbr] at hpr
        subst hpr
        have hmul : (100 : Int) * (rows.length : Int) ≤
            (pct0 + obj.pct) * rows.length :=
          mul_le_mul_of_nonneg_right hbr (Int.natCast_nonneg _)
        have hdiv : Drain.ceilDivInt ((pct0 + obj.pct) * (rows.length : Int)) 100 =
            ((pct0 + obj.pct) * (rows.length : Int) + 100 - 1) / 100 := rfl
        have heN : max cnt (min rows.length
            (Int.toNat (Drain.ceilDivInt ((pct0 + obj.pct) * rows.length) 100))) =
            rows.length := by
          rw [hdiv]
          omega
        constructor
        · simp only [specBlocks, if_pos hbr]
        · intro hlt hsum
          constructor
          · simp only [List.map_cons, List.map_nil, List.flatten_cons,
              List.flatten_nil, List.append_nil]
            rw [heN]
            exact List.take_of_length_le (by rw [List.length_drop])
          · simp only [addCounts_total, heN, List.length_take, List.length_drop]
            all_goals omega
      · rw [if_neg hbr] at hpr
        subst hpr
        obtain ⟨ih1, ih2⟩ := ih (pct0 + obj.pct)
          (max cnt (min rows.length
            (Int.toNat (Drain.ceilDivInt ((pct0 + obj.pct) * rows.length) 100))))
          (addCounts counts ((rows.drop cnt).take
            (max cnt (min rows.length
              (Int.toNat (Drain.ceilDivInt ((pct0 + obj.pct) * rows.length) 100))) -
              cnt)))
          (by omega) _ rfl
        constructor
        · simp only [specBlocks, if_neg hbr]
          rw [ih1]
        · intro hlt hsum
          simp only [List.map_cons, List.sum_cons] at hsum
          obtain ⟨ihf, ihc⟩ := ih2 (by omega) (by omega)
          constructor
          · simp only [List.map_cons, List.flatten_cons]
            rw [ihf]
            have hdd : rows.drop (max cnt (min rows.length
                (Int.toNat (Drain.ceilDivInt ((pct0 + obj.pct) * rows.length) 100))))
                = (rows.drop cnt).drop
                  (max cnt (min rows.length
                    (Int.toNat (Drain.ceilDivInt
                      ((pct0 + obj.pct) * rows.length) 100))) - cnt) := by
              rw [List.drop_drop]
              congr 1
              omega
            rw [hdd, List.take_append_drop]
          · rw [ihc]
            simp only [addCounts_total]
            rw [hslen]
            omega

end ListWriter

/-- C7: for every filtered recipient row set partitioned by
write_campaign_lists across sinks whose (normalized) percentages sum to
100, each sink receives the contiguous slice of the ordered rows between
the cumulative percentage boundaries (specBlocks), the concatenation of
the slices is exactly the row set (every row in exactly one sink's list
block), the per-sink partition sizes sum to N, and the recorded
per-domain counts across all sinks sum to N. -/
theorem c7_partition_completeness (rows : List String)
    (sinks : List ListWriter.SinkObj) (hrows : rows ≠ [])
    (hsum : (sinks.map ListWriter.SinkObj.pct).sum = 100) :
    ∀ pr, ListWriter.write_campaign_lists rows sinks = pr →
    pr.1 = ListWriter.specBlocks rows sinks 0 0 ∧
    (pr.1.map Prod.snd).flatten = rows ∧
    (pr.1.map (fun b => b.2.length)).sum = rows.length ∧
    (pr.2.map Prod.snd).sum = rows.length := by
  intro pr hpr
  have hlen : rows.length ≠ 0 := by
    cases rows
    · exact absurd rfl hrows
    · simp
  simp only [ListWriter.write_campaign_lists, if_pos hlen] at hpr
  obtain ⟨h1, h2⟩ := ListWriter.sinkLoop_spec rows sinks 0 0 [] (by omega) pr hpr
  obtain ⟨hf, hc⟩ := h2 (by norm_num) (by simpa using hsum)
  have hf0 : (pr.1.map Prod.snd).flatten = rows := by simpa using hf
  refine ⟨h1, hf0, ?_, ?_⟩
  · have h3 := congrArg List.length hf0
    rw [List.length_flatten, List.map_map] at h3
    simpa [Function.comp] using h3
  · simpa using hc

set_option maxRecDepth 10000 in
theorem c7_partition_completeness_witness :
    (List.replicate 1000 "a@example.com" ≠ ([] : List String)) ∧
    ((([⟨"A", 70⟩, ⟨"B", 30⟩] : List ListWriter.SinkObj).map
        ListWriter.SinkObj.pct).sum = 100) ∧
    ((ListWriter.write_campaign_lists (List.replicate 1000 "a@example.com")
        [⟨"A", 70⟩, ⟨"B", 30⟩]).1 =
      ListWriter.specBlocks (List.replicate 1000 "a@example.com")
        [⟨"A", 70⟩, ⟨"B", 30⟩] 0 0 ∧
      ((ListWriter.write_campaign_lists (List.replicate 1000 "a@example.com")
        [⟨"A", 70⟩, ⟨"B", 30⟩]).1.map Prod.snd).flatten =
      List.replicate 1000 "a@example.com" ∧
      ((ListWriter.write_campaign_lists (List.replicate 1000 "a@example.com")
        [⟨"A", 70⟩, ⟨"B", 30⟩]).1.map (fun b => b.2.length)).sum =
      (List.replicate 1000 "a@example.com").length ∧
      ((ListWriter.write_campaign_lists (List.replicate 1000 "a@example.com")
        [⟨"A", 70⟩, ⟨"B", 30⟩]).2.map Prod.snd).sum =
      (List.replicate 1000 "a@example.com").length) ∧
    ((ListWriter.write_campaign_lists (List.replicate 1000 "a@example.com")
        [⟨"A", 70⟩, ⟨"B", 30⟩]).1.map (fun b => (b.1, b.2.length))) =
      [("A", 700), ("B", 300)] ∧
    (ListWriter.write_campaign_lists (List.replicate 1000 "a@example.com")
        [⟨"A", 70⟩, ⟨"B", 30⟩]).2 = [("example.com", 1000)] ∧
    ListWriter.normalizeSplits [35, 15] = [70, 30] ∧
    ListWriter.normalizeSplits [42] = [100] :=
  ⟨by decide, by decide,
    c7_partition_completeness _ _ (by decide) (by decide) _ rfl,
    by decide, by decide, by decide, by decide⟩

namespace Events

/- events.py write_list (lines 415-701), restricted to the campaign path
(is_camp = True; the is_camp = False branch mirrors every write onto the
messages tables).  The db side effects are modeled as explicit channels of
an EvState; ambient inputs (geolocation results, timestamps, tag
configuration, settingsid / ip presence) are parameters.  The insertts /
updatedts comparison is collapsed into the updatedOk flag, and Python
set() tag deduplication is modeled with eraseDups. -/

structure EvState where
  campaignDevices : List ((String × String) × Int)
  campaignBrowsers : List ((String × String × String) × Int)
  campaignLocations : List ((String × String × String) × Int)
  linkclicks : List (String × List Int)
  counters : List ((String × String) × Int)
  camplogs : List (String × String × String)
  contactsUpdates : List (String × String × String)
  unsublogs : List ((String × String) × (Bool × Bool × Bool))
  tagUpdates : List ((String × String) × List String)
  hourstats : List (String × Int × Int × Int × Int)
  webhooks : List (String × String)
deriving Repr, DecidableEq

/-- An insert ... on conflict do update set count = count + 1 upsert. -/
def bumpCount {α : Type} [DecidableEq α] : List (α × Int) → α → List (α × Int)
  | [], k => [(k, 1)]
  | (k0, n) :: rest, k =>
      if k0 = k then (k0, n + 1) :: rest else (k0, n) :: bumpCount rest k

def getCount {α : Type} [DecidableEq α] (l : List (α × Int)) (k : α) : Int :=
  ((l.find? (fun kv => decide (kv.1 = k))).map Prod.snd).getD 0

/-- events.py lines 44-50. -/
def campprops (ct : String) : Option String :=
  if ct = "open" then some "opened"
  else if ct = "click" then some "clicked"
  else if ct = "bounce" then some "bounced"
  else if ct = "complaint" then some "complained"
  else if ct = "unsub" then some "unsubscribed"
  else none

/-- The linkclicks jsonb_set update: bump index i of the campaign row's
array when the row exists and the array is long enough (List.set is a
no-op out of range, matching the jsonb_array_length > i where clause). -/
def bumpLink : List (String × List Int) → String → Nat → List (String × List Int)
  | [], _, _ => []
  | (k, arr) :: rest, q, i =>
      if k = q then (k, arr.set i (arr.getD i 0 + 1)) :: rest
      else (k, arr) :: bumpLink rest q i

/-- The unsublogs upsert with or-merged flags (unsubscribed, complained,
bounced). -/
def unsubUpsert :
    List ((String × String) × (Bool × Bool × Bool)) → String × String →
      Bool × Bool × Bool → List ((String × String) × (Bool × Bool × Bool))
  | [], k, v => [(k, v)]
  | (k0, v0) :: rest, k, v =>
      if k0 = k then (k0, (v0.1 || v.1, v0.2.1 || v.2.1, v0.2.2 || v.2.2)) :: rest
      else (k0, v0) :: unsubUpsert rest k v

def write_list (email t c campcid : String) (linkindex : Int) (linktrack : Bool)
    (updatedOk : Bool) (devO osO browserO countryO : Option String)
    (addtags remtags : List String) (settingsidNE ipNE : Bool)
    (st : EvState) : Option EvState :=
  let ct := if t = "hard" then "bounce" else t
  let st := if (ct = "open" ∨ ct = "unsub" ∨ ct = "click") ∧ devO.isSome then
      { st with
        campaignDevices := bumpCount st.campaignDevices (c, devO.getD ""),
        campaignBrowsers :=
          bumpCount st.campaignBrowsers (c, osO.getD "", browserO.getD ""),
        campaignLocations :=
          match countryO with
          | some country => bumpCount st.campaignLocations (c, country, "")
          | none => st.campaignLocations }
    else st
  let st := if (t = "click" ∨ t = "unsub") ∧ 0 ≤ linkindex ∧ updatedOk then
      { st with linkclicks := bumpLink st.linkclicks c linkindex.toNat }
    else st
  if (t = "click" ∨ t = "unsub") ∧ linktrack = false then some st
  else
    let st := if ct = "click" ∨ ct = "open" then
        { st with counters :=
          bumpCount st.counters (c, (campprops ct).getD "" ++ "_all") }
      else st
    let uniq := (c, email, ct) ∉ st.camplogs
    let st := if uniq then { st with camplogs := (c, email, ct) :: st.camplogs }
      else st
    let st := { st with
      contactsUpdates := st.contactsUpdates ++ [(campcid, email, ct)] }
    if uniq then
      let st := if ct = "bounce" ∨ ct = "complaint" ∨ ct = "unsub" then
          { st with unsublogs := unsubUpsert st.unsublogs (campcid, email)
                                   (ct = "unsub", ct = "complaint", ct = "bounce") }
        else st
      let taglist := (addtags.filter (fun tg => tg ≠ "")).eraseDups ++
        ((remtags.filter (fun tg => tg ≠ "")).map (fun tg => "-" ++ tg)).eraseDups
      let st := if (ct = "open" ∨ ct = "click") ∧ taglist.length ≠ 0 then
          { st with tagUpdates := st.tagUpdates ++ [((campcid, email), taglist)] }
        else st
      match campprops ct with
      | none => none
      | some prop =>
        let st := { st with counters := bumpCount st.counters (c, prop) }
        let st := if (ct = "open" ∨ ct = "complaint" ∨ ct = "unsub" ∨
            ct = "click") ∧ settingsidNE ∧ ipNE then
            { st with hourstats := st.hourstats ++
              [(c, (if ct = "complaint" then 1 else 0),
                (if ct = "unsub" then 1 else 0),
                (if ct = "open" then 1 else 0),
                (if ct = "click" then 1 else 0))] }
          else st
        some { st with webhooks := st.webhooks ++ [(ct, email)] }
    else some st

theorem getCount_cons {α : Type} [DecidableEq α] (k0 : α) (n : Int)
    (rest : List (α × Int)) (k : α) :
    getCount ((k0, n) :: rest) k = if k0 = k then n else getCount rest k := by
  by_cases h : k0 = k
  · rw [if_pos h]
    subst h
    simp [getCount, List.find?_cons_of_pos]
  · rw [if_neg h, getCount, List.find?_cons_of_neg _ (by simp [h])]
    rfl

theorem getCount_bumpCount_self {α : Type} [DecidableEq α]
    (l : List (α × Int)) (k : α) :
    getCount (bumpCount l k) k = getCount l k + 1 := by
  induction l with
  | nil => simp [bumpCount, getCount_cons, getCount]
  | cons kv rest ih =>
      obtain ⟨k0, n⟩ := kv
      simp only [bumpCount]
      by_cases h : k0 = k
      · rw [if_pos h, getCount_cons, getCount_cons, if_pos h, if_pos h]
      · rw [if_neg h, getCount_cons, getCount_cons, if_neg h, if_neg h, ih]

theorem getCount_bumpCount_ne {α : Type} [DecidableEq α]
    (l : List (α × Int)) (k0 k : α) (h : k0 ≠ k) :
    getCount (bumpCount l k0) k = getCount l k := by
  induction l with
  | nil =>
      simp only [bumpCount]
      rw [getCount_cons, if_neg h]
  | cons kv rest ih =>
      obtain ⟨k1, n⟩ := kv
      simp only [bumpCount]
      by_cases h1 : k1 = k0
      · have h2 : k1 ≠ k := by rw [h1]; exact h
        rw [if_pos h1, getCount_cons, getCount_cons, if_neg h2, if_neg h2]
      · rw [if_neg h1, getCount_cons, getCount_cons]
        by_cases h2 : k1 = k
        · rw [if_pos h2, if_pos h2]
        · rw [if_neg h2, if_neg h2, ih]

end Events


/-- C8: recording the same delivery event twice for one
(campaign, email, cmd) increments the unique aggregate counter exactly
once, the open and click _all counters on every occurrence, and triggers
the suppression upsert and the webhook emission only on the first
occurrence (tag updates are untouched by the second occurrence). -/
theorem c8_idempotent_event_recording
    (email t ct c campcid : String) (linkindex : Int) (updatedOk : Bool)
    (devO osO browserO countryO : Option String) (addtags remtags : List String)
    (settingsidNE ipNE : Bool) (st0 st1 st2 : Events.EvState) (prop : String)
    (hct : ct = if t = "hard" then "bounce" else t)
    (hprop : Events.campprops ct = some prop)
    (hnew : (c, email, ct) ∉ st0.camplogs)
    (h1 : Events.write_list email t c campcid linkindex true updatedOk devO osO
      browserO countryO addtags remtags settingsidNE ipNE st0 = some st1)
    (h2 : Events.write_list email t c campcid linkindex true updatedOk devO osO
      browserO countryO addtags remtags settingsidNE ipNE st1 = some st2) :
    Events.getCount st2.counters (c, prop) =
      Events.getCount st0.counters (c, prop) + 1 ∧
    ((ct = "open" ∨ ct = "click") →
      Events.getCount st2.counters (c, prop ++ "_all") =
        Events.getCount st0.counters (c, prop ++ "_all") + 2) ∧
    st2.unsublogs = st1.unsublogs ∧
    ((ct = "bounce" ∨ ct = "complaint" ∨ ct = "unsub") →
      st1.unsublogs = Events.unsubUpsert st0.unsublogs (campcid, email)
        (ct = "unsub", ct = "complaint", ct = "bounce")) ∧
    st2.tagUpdates = st1.tagUpdates ∧
    st2.webhooks = st1.webhooks ∧
    st1.webhooks = st0.webhooks ++ [(ct, email)] := by
  subst hct
  by_cases ht : t = "hard"
  · subst ht
    simp only [String.reduceEq, reduceIte] at hprop hnew ⊢
    have hp : prop = "bounced" := by
      simp [Events.campprops] at hprop
      first
      | exact hprop
      | exact hprop.symm
    subst hp
    simp [Events.write_list, Events.campprops,
      apply_ite Events.EvState.campaignDevices,
      apply_ite Events.EvState.campaignBrowsers,
      apply_ite Events.EvState.campaignLocations,
      apply_ite Events.EvState.linkclicks,
      apply_ite Events.EvState.counters,
      apply_ite Events.EvState.camplogs,
      apply_ite Events.EvState.contactsUpdates,
      apply_ite Events.EvState.unsublogs,
      apply_ite Events.EvState.tagUpdates,
      apply_ite Events.EvState.hourstats,
      apply_ite Events.EvState.webhooks,
      ite_self, hnew] at h1
    subst h1
    simp [Events.write_list, Events.campprops,
      apply_ite Events.EvState.campaignDevices,
      apply_ite Events.EvState.campaignBrowsers,
      apply_ite Events.EvState.campaignLocations,
      apply_ite Events.EvState.linkclicks,
      apply_ite Events.EvState.counters,
      apply_ite Events.EvState.camplogs,
      apply_ite Events.EvState.contactsUpdates,
      apply_ite Events.EvState.unsublogs,
      apply_ite Events.EvState.tagUpdates,
      apply_ite Events.EvState.hourstats,
      apply_ite Events.EvState.webhooks,
      ite_self] at h2
    subst h2
    refine ⟨?_, ?_, rfl, ?_, rfl, rfl, rfl⟩
    · exact Events.getCount_bumpCount_self st0.counters (c, "bounced")
    · rintro (hh | hh) <;> exact absurd hh (by decide)
    · intro hh
      rfl
  · by_cases h1t : t = "open"
    · subst h1t
      simp only [String.reduceEq, reduceIte] at hprop hnew ⊢
      have hp : prop = "opened" := by
        simp [Events.campprops] at hprop
        first
        | exact hprop
        | exact hprop.symm
      subst hp
      simp [Events.write_list, Events.campprops,
      apply_ite Events.EvState.campaignDevices,
      apply_ite Events.EvState.campaignBrowsers,
      apply_ite Events.EvState.campaignLocations,
      apply_ite Events.EvState.linkclicks,
      apply_ite Events.EvState.counters,
      apply_ite Events.EvState.camplogs,
      apply_ite Events.EvState.contactsUpdates,
      apply_ite Events.EvState.unsublogs,
      apply_ite Events.EvState.tagUpdates,
      apply_ite Events.EvState.hourstats,
      apply_ite Events.EvState.webhooks,
      ite_self, hnew] at h1
      subst h1
      simp [Events.write_list, Events.campprops,
      apply_ite Events.EvState.campaignDevices,
      apply_ite Events.EvState.campaignBrowsers,
      apply_ite Events.EvState.campaignLocations,
      apply_ite Events.EvState.linkclicks,
      apply_ite Events.EvState.counters,
      apply_ite Events.EvState.camplogs,
      apply_ite Events.EvState.contactsUpdates,
      apply_ite Events.EvState.unsublogs,
      apply_ite Events.EvState.tagUpdates,
      apply_ite Events.EvState.hourstats,
      apply_ite Events.EvState.webhooks,
      ite_self] at h2
      subst h2
      refine ⟨?_, ?_, rfl, ?_, rfl, rfl, rfl⟩
      · rw [Events.getCount_bumpCount_ne _ _ _ (by simp),
          Events.getCount_bumpCount_self,
          Events.getCount_bumpCount_ne _ _ _ (by simp)]
      · intro hh
        simp only [String.reduceAppend]
        rw [Events.getCount_bumpCount_self,
          Events.getCount_bumpCount_ne _ _ _ (by simp),
          Events.getCount_bumpCount_self]
        omega
      · rintro (hh | hh | hh) <;> exact absurd hh (by decide)
    · by_cases h2t : t = "click"
      · subst h2t
        simp only [String.reduceEq, reduceIte] at hprop hnew ⊢
        have hp : prop = "clicked" := by
          simp [Events.campprops] at hprop
          first
          | exact hprop
          | exact hprop.symm
        subst hp
        simp [Events.write_list, Events.campprops,
      apply_ite Events.EvState.campaignDevices,
      apply_ite Events.EvState.campaignBrowsers,
      apply_ite Events.EvState.campaignLocations,
      apply_ite Events.EvState.linkclicks,
      apply_ite Events.EvState.counters,
      apply_ite Events.EvState.camplogs,
      apply_ite Events.EvState.contactsUpdates,
      apply_ite Events.EvState.unsublogs,
      apply_ite Events.EvState.tagUpdates,
      apply_ite Events.EvState.hourstats,
      apply_ite Events.EvState.webhooks,
      ite_self, hnew] at h1
        subst h1
        simp [Events.write_list, Events.campprops,
      apply_ite Events.EvState.campaignDevices,
      apply_ite Events.EvState.campaignBrowsers,
      apply_ite Events.EvState.campaignLocations,
      apply_ite Events.EvState.linkclicks,
      apply_ite Events.EvState.counters,
      apply_ite Events.EvState.camplogs,
      apply_ite Events.EvState.contactsUpdates,
      apply_ite Events.EvState.unsublogs,
      apply_ite Events.EvState.tagUpdates,
      apply_ite Events.EvState.hourstats,
      apply_ite Events.EvState.webhooks,
      ite_self] at h2
        subst h2
        refine ⟨?_, ?_, rfl, ?_, rfl, rfl, rfl⟩
        · rw [Events.getCount_bumpCount_ne _ _ _ (by simp),
            Events.getCount_bumpCount_self,
            Events.getCount_bumpCount_ne _ _ _ (by simp)]
        · intro hh
          simp only [String.reduceAppend]
          rw [Events.getCount_bumpCount_self,
            Events.getCount_bumpCount_ne _ _ _ (by simp),
            Events.getCount_bumpCount_self]
          omega
        · rintro (hh | hh | hh) <;> exact absurd hh (by decide)
      · by_cases h3t : t = "bounce"
        · subst h3t
          simp only [String.reduceEq, reduceIte] at hprop hnew ⊢
          have hp : prop = "bounced" := by
            simp [Events.campprops] at hprop
            first
            | exact hprop
            | exact hprop.symm
          subst hp
          simp [Events.write_list, Events.campprops,
      apply_ite Events.EvState.campaignDevices,
      apply_ite Events.EvState.campaignBrowsers,
      apply_ite Events.EvState.campaignLocations,
      apply_ite Events.EvState.linkclicks,
      apply_ite Events.EvState.counters,
      apply_ite Events.EvState.camplogs,
      apply_ite Events.EvState.contactsUpdates,
      apply_ite Events.EvState.unsublogs,
      apply_ite Events.EvState.tagUpdates,
      apply_ite Events.EvState.hourstats,
      apply_ite Events.EvState.webhooks,
      ite_self, hnew] at h1
          subst h1
          simp [Events.write_list, Events.campprops,
      apply_ite Events.EvState.campaignDevices,
      apply_ite Events.EvState.campaignBrowsers,
      apply_ite Events.EvState.campaignLocations,
      apply_ite Events.EvState.linkclicks,
      apply_ite Events.EvState.counters,
      apply_ite Events.EvState.camplogs,
      apply_ite Events.EvState.contactsUpdates,
      apply_ite Events.EvState.unsublogs,
      apply_ite Events.EvState.tagUpdates,
      apply_ite Events.EvState.hourstats,
      apply_ite Events.EvState.webhooks,
      ite_self] at h2
          subst h2
          refine ⟨?_, ?_, rfl, ?_, rfl, rfl, rfl⟩
          · exact Events.getCount_bumpCount_self st0.counters (c, "bounced")
          · rintro (hh | hh) <;> exact absurd hh (by decide)
          · intro hh
            rfl
        · by_cases h4t : t = "complaint"
          · subst h4t
            simp only [String.reduceEq, reduceIte] at hprop hnew ⊢
            have hp : prop = "complained" := by
              simp [Events.campprops] at hprop
              first
              | exact hprop
              | exact hprop.symm
            subst hp
            simp [Events.write_list, Events.campprops,
      apply_ite Events.EvState.campaignDevices,
      apply_ite Events.EvState.campaignBrowsers,
      apply_ite Events.EvState.campaignLocations,
      apply_ite Events.EvState.linkclicks,
      apply_ite Events.EvState.counters,
      apply_ite Events.EvState.camplogs,
      apply_ite Events.EvState.contactsUpdates,
      apply_ite Events.EvState.unsublogs,
      apply_ite Events.EvState.tagUpdates,
      apply_ite Events.EvState.hourstats,
      apply_ite Events.EvState.webhooks,
      ite_self, hnew] at h1
            subst h1
            simp [Events.write_list, Events.campprops,
      apply_ite Events.EvState.campaignDevices,
      apply_ite Events.EvState.campaignBrowsers,
      apply_ite Events.EvState.campaignLocations,
      apply_ite Events.EvState.linkclicks,
      apply_ite Events.EvState.counters,
      apply_ite Events.EvState.camplogs,
      apply_ite Events.EvState.contactsUpdates,
      apply_ite Events.EvState.unsublogs,
      apply_ite Events.EvState.tagUpdates,
      apply_ite Events.EvState.hourstats,
      apply_ite Events.EvState.webhooks,
      ite_self] at h2
            subst h2
            refine ⟨?_, ?_, rfl, ?_, rfl, rfl, rfl⟩
            · exact Events.getCount_bumpCount_self st0.counters (c, "complained")
            · rintro (hh | hh) <;> exact absurd hh (by decide)
            · intro hh
              rfl
          · by_cases h5t : t = "unsub"
            · subst h5t
              simp only [String.reduceEq, reduceIte] at hprop hnew ⊢
              have hp : prop = "unsubscribed" := by
                simp [Events.campprops] at hprop
                first
                | exact hprop
                | exact hprop.symm
              subst hp
              simp [Events.write_list, Events.campprops,
      apply_ite Events.EvState.campaignDevices,
      apply_ite Events.EvState.campaignBrowsers,
      apply_ite Events.EvState.campaignLocations,
      apply_ite Events.EvState.linkclicks,
      apply_ite Events.EvState.counters,
      apply_ite Events.EvState.camplogs,
      apply_ite Events.EvState.contactsUpdates,
      apply_ite Events.EvState.unsublogs,
      apply_ite Events.EvState.tagUpdates,
      apply_ite Events.EvState.hourstats,
      apply_ite Events.EvState.webhooks,
      ite_self, hnew] at h1
              subst h1
              simp [Events.write_list, Events.campprops,
      apply_ite Events.EvState.campaignDevices,
      apply_ite Events.EvState.campaignBrowsers,
      apply_ite Events.EvState.campaignLocations,
      apply_ite Events.EvState.linkclicks,
      apply_ite Events.EvState.counters,
      apply_ite Events.EvState.camplogs,
      apply_ite Events.EvState.contactsUpdates,
      apply_ite Events.EvState.unsublogs,
      apply_ite Events.EvState.tagUpdates,
      apply_ite Events.EvState.hourstats,
      apply_ite Events.EvState.webhooks,
      ite_self] at h2
              subst h2
              refine ⟨?_, ?_, rfl, ?_, rfl, rfl, rfl⟩
              · exact Events.getCount_bumpCount_self st0.counters (c, "unsubscribed")
              · rintro (hh | hh) <;> exact absurd hh (by decide)
              · intro hh
                rfl
            · exfalso
              simp [Events.campprops, ht, h1t, h2t, h3t, h4t, h5t] at hprop

theorem c8_idempotent_event_recording_witness :
    (("bounce" : String) = if ("hard" : String) = "hard" then "bounce" else "hard") ∧
    Events.campprops "bounce" = some "bounced" ∧
    (("X", "u@example.com", "bounce") ∉
      (⟨[], [], [], [], [], [], [], [], [], [], []⟩ : Events.EvState).camplogs) ∧
    Events.write_list "u@example.com" "hard" "X" "C" (-1) true true
      none none none none [] [] true true
      (⟨[], [], [], [], [], [], [], [], [], [], []⟩ : Events.EvState) =
      some (⟨[], [], [], [],
      [(("X", "bounced"), 1)],
      [("X", "u@example.com", "bounce")],
      [("C", "u@example.com", "bounce")],
      [(("C", "u@example.com"), (false, false, true))],
      [], [],
      [("bounce", "u@example.com")]⟩ : Events.EvState) ∧
    Events.write_list "u@example.com" "hard" "X" "C" (-1) true true
      none none none none [] [] true true
      (⟨[], [], [], [],
      [(("X", "bounced"), 1)],
      [("X", "u@example.com", "bounce")],
      [("C", "u@example.com", "bounce")],
      [(("C", "u@example.com"), (false, false, true))],
      [], [],
      [("bounce", "u@example.com")]⟩ : Events.EvState) =
      some (⟨[], [], [], [],
      [(("X", "bounced"), 1)],
      [("X", "u@example.com", "bounce")],
      [("C", "u@example.com", "bounce"), ("C", "u@example.com", "bounce")],
      [(("C", "u@example.com"), (false, false, true))],
      [], [],
      [("bounce", "u@example.com")]⟩ : Events.EvState) ∧
    (Events.getCount (⟨[], [], [], [],
      [(("X", "bounced"), 1)],
      [("X", "u@example.com", "bounce")],
      [("C", "u@example.com", "bounce"), ("C", "u@example.com", "bounce")],
      [(("C", "u@example.com"), (false, false, true))],
      [], [],
      [("bounce", "u@example.com")]⟩ : Events.EvState).counters ("X", "bounced") =
      Events.getCount (⟨[], [], [], [], [], [], [], [], [], [], []⟩ : Events.EvState).counters ("X", "bounced") + 1 ∧
    ((("bounce" : String) = "open" ∨ ("bounce" : String) = "click") →
      Events.getCount (⟨[], [], [], [],
      [(("X", "bounced"), 1)],
      [("X", "u@example.com", "bounce")],
      [("C", "u@example.com", "bounce"), ("C", "u@example.com", "bounce")],
      [(("C", "u@example.com"), (false, false, true))],
      [], [],
      [("bounce", "u@example.com")]⟩ : Events.EvState).counters ("X", "bounced" ++ "_all") =
        Events.getCount (⟨[], [], [], [], [], [], [], [], [], [], []⟩ : Events.EvState).counters ("X", "bounced" ++ "_all") + 2) ∧
    (⟨[], [], [], [],
      [(("X", "bounced"), 1)],
      [("X", "u@example.com", "bounce")],
      [("C", "u@example.com", "bounce"), ("C", "u@example.com", "bounce")],
      [(("C", "u@example.com"), (false, false, true))],
      [], [],
      [("bounce", "u@example.com")]⟩ : Events.EvState).unsublogs = (⟨[], [], [], [],
      [(("X", "bounced"), 1)],
      [("X", "u@example.com", "bounce")],
      [("C", "u@example.com", "bounce")],
      [(("C", "u@example.com"), (false, false, true))],
      [], [],
      [("bounce", "u@example.com")]⟩ : Events.EvState).unsublogs ∧
    ((("bounce" : String) = "bounce" ∨ ("bounce" : String) = "complaint" ∨
        ("bounce" : String) = "unsub") →
      (⟨[], [], [], [],
      [(("X", "bounced"), 1)],
      [("X", "u@example.com", "bounce")],
      [("C", "u@example.com", "bounce")],
      [(("C", "u@example.com"), (false, false, true))],
      [], [],
      [("bounce", "u@example.com")]⟩ : Events.EvState).unsublogs =
        Events.unsubUpsert (⟨[], [], [], [], [], [], [], [], [], [], []⟩ : Events.EvState).unsublogs ("C", "u@example.com")
          (("bounce" : String) = "unsub", ("bounce" : String) = "complaint",
            ("bounce" : String) = "bounce")) ∧
    (⟨[], [], [], [],
      [(("X", "bounced"), 1)],
      [("X", "u@example.com", "bounce")],
      [("C", "u@example.com", "bounce"), ("C", "u@example.com", "bounce")],
      [(("C", "u@example.com"), (false, false, true))],
      [], [],
      [("bounce", "u@example.com")]⟩ : Events.EvState).tagUpdates = (⟨[], [], [], [],
      [(("X", "bounced"), 1)],
      [("X", "u@example.com", "bounce")],
      [("C", "u@example.com", "bounce")],
      [(("C", "u@example.com"), (false, false, true))],
      [], [],
      [("bounce", "u@example.com")]⟩ : Events.EvState).tagUpdates ∧
    (⟨[], [], [], [],
      [(("X", "bounced"), 1)],
      [("X", "u@example.com", "bounce")],
      [("C", "u@example.com", "bounce"), ("C", "u@example.com", "bounce")],
      [(("C", "u@example.com"), (false, false, true))],
      [], [],
      [("bounce", "u@example.com")]⟩ : Events.EvState).webhooks = (⟨[], [], [], [],
      [(("X", "bounced"), 1)],
      [("X", "u@example.com", "bounce")],
      [("C", "u@example.com", "bounce")],
      [(("C", "u@example.com"), (false, false, true))],
      [], [],
      [("bounce", "u@example.com")]⟩ : Events.EvState).webhooks ∧
    (⟨[], [], [], [],
      [(("X", "bounced"), 1)],
      [("X", "u@example.com", "bounce")],
      [("C", "u@example.com", "bounce")],
      [(("C", "u@example.com"), (false, false, true))],
      [], [],
      [("bounce", "u@example.com")]⟩ : Events.EvState).webhooks =
      (⟨[], [], [], [], [], [], [], [], [], [], []⟩ : Events.EvState).webhooks ++ [("bounce", "u@example.com")]) :=
  ⟨by decide, by decide, by decide, by decide, by decide,
    c8_idempotent_event_recording "u@example.com" "hard" "bounce" "X" "C" (-1)
      true none none none none [] [] true true
      (⟨[], [], [], [], [], [], [], [], [], [], []⟩ : Events.EvState)
      (⟨[], [], [], [],
      [(("X", "bounced"), 1)],
      [("X", "u@example.com", "bounce")],
      [("C", "u@example.com", "bounce")],
      [(("C", "u@example.com"), (false, false, true))],
      [], [],
      [("bounce", "u@example.com")]⟩ : Events.EvState)
      (⟨[], [], [], [],
      [(("X", "bounced"), 1)],
      [("X", "u@example.com", "bounce")],
      [("C", "u@example.com", "bounce"), ("C", "u@example.com", "bounce")],
      [(("C", "u@example.com"), (false, false, true))],
      [], [],
      [("bounce", "u@example.com")]⟩ : Events.EvState)
      "bounced" (by decide) (by decide) (by decide) (by decide) (by decide)⟩

namespace Crypto

/- send.py lines 1100-1154: the tracking id encryption.  Python str values
are modeled as lists of unicode codepoints (all inputs concerned are
ASCII); bytes values as lists of naturals below 256.  random.randint(1,253)
is the key parameter.  base64.urlsafe_b64decode discards characters outside
the alphabet before decoding (validate=False); the decoder here rejects
them instead, which coincides on every string the encoder can produce. -/

/-- send.py lines 1100-1119: the replacements dict, in insertion order,
as (key codepoints, single replacement codepoint). -/
def replacements : List (List Nat × Nat) := [
    ([64, 97, 111, 108, 46, 99, 111, 109], 33),
    ([64, 97, 105, 109, 46, 99, 111, 109], 35),
    ([64, 103, 109, 97, 105, 108, 46, 99, 111, 109], 94),
    ([64, 103, 111, 111, 103, 108, 101, 109, 97, 105, 108, 46, 99, 111, 109], 58),
    ([64, 121, 97, 104, 111, 111, 46, 99, 111, 109], 38),
    ([64, 121, 97, 104, 111, 111, 46, 99, 111, 46, 117, 107], 42),
    ([64, 114, 111, 99, 107, 101, 116, 109, 97, 105, 108, 46, 99, 111, 109], 63),
    ([64, 104, 111, 116, 109, 97, 105, 108, 46, 99, 111, 109], 40),
    ([64, 104, 111, 116, 109, 97, 105, 108, 46, 99, 111, 46, 117, 107], 41),
    ([64, 108, 105, 118, 101, 46, 99, 111, 109], 126),
    ([64, 99, 111, 109, 99, 97, 115, 116, 46, 110, 101, 116], 123),
    ([64, 97, 116, 116, 46, 110, 101, 116], 125),
    ([64, 115, 98, 99, 103, 108, 111, 98, 97, 108, 46, 110, 101, 116], 91),
    ([64, 118, 101, 114, 105, 122, 111, 110, 46, 110, 101, 116], 93),
    ([64, 99, 104, 97, 114, 116, 101, 114, 46, 110, 101, 116], 44),
    ([64, 99, 111, 120, 46, 110, 101, 116], 124),
    ([64, 101, 97, 114, 116, 104, 108, 105, 110, 107, 46, 110, 101, 116], 60),
    ([64, 98, 101, 108, 108, 115, 111, 117, 116, 104, 46, 110, 101, 116], 62)]

/-- Python str.replace(k, v) with nonempty k = k0 :: kt: replace every
non-overlapping occurrence left to right.  Fuel is the string length
(each step consumes at least one character). -/
def replaceGo (k0 : Nat) (kt v : List Nat) : Nat → List Nat → List Nat
  | _, [] => []
  | 0, s => s
  | fuel + 1, c :: rest =>
      if c = k0 ∧ kt.isPrefixOf rest then
        v ++ replaceGo k0 kt v fuel (rest.drop kt.length)
      else c :: replaceGo k0 kt v fuel rest

def replaceStr (k v s : List Nat) : List Nat :=
  match k with
  | [] => s
  | k0 :: kt => replaceGo k0 kt v s.length s

/-- The forward pass of encrypt (for k, v in replacements: s = s.replace(k, v)). -/
def fwdChain (T : List (List Nat × Nat)) (s : List Nat) : List Nat :=
  T.foldl (fun x kv => replaceStr kv.1 [kv.2] x) s

/-- The reverse pass of unencrypt (for k, v in replacements: s = s.replace(v, k)). -/
def revChain (T : List (List Nat × Nat)) (s : List Nat) : List Nat :=
  T.foldl (fun x kv => replaceStr [kv.2] kv.1 x) s

/-- str.encode("utf-8") for one codepoint. -/
def utf8Bytes (n : Nat) : List Nat :=
  if n < 128 then [n]
  else if n < 2048 then [192 + n / 64, 128 + n % 64]
  else if n < 65536 then [224 + n / 4096, 128 + (n / 64) % 64, 128 + n % 64]
  else [240 + n / 262144, 128 + (n / 4096) % 64, 128 + (n / 64) % 64, 128 + n % 64]

def utf8Encode (s : List Nat) : List Nat := (s.map utf8Bytes).flatten

/-- The urlsafe base64 alphabet. -/
def b64Char (i : Nat) : Nat :=
  if i < 26 then 65 + i
  else if i < 52 then 97 + (i - 26)
  else if i < 62 then 48 + (i - 52)
  else if i = 62 then 45
  else 95

def b64Val (c : Nat) : Option Nat :=
  if 65 ≤ c ∧ c ≤ 90 then some (c - 65)
  else if 97 ≤ c ∧ c ≤ 122 then some (c - 97 + 26)
  else if 48 ≤ c ∧ c ≤ 57 then some (c - 48 + 52)
  else if c = 45 then some 62
  else if c = 95 then some 63
  else none

/-- base64.urlsafe_b64encode over byte triples, with = padding. -/
def b64EncodeGo : List Nat → List Nat
  | [] => []
  | [a] => [b64Char (a / 4), b64Char (a % 4 * 16), 61, 61]
  | [a, b] => [b64Char (a / 4), b64Char (a % 4 * 16 + b / 16),
      b64Char (b % 16 * 4), 61]
  | a :: b :: c :: rest =>
      b64Char (a / 4) :: b64Char (a % 4 * 16 + b / 16) ::
        b64Char (b % 16 * 4 + c / 64) :: b64Char (c % 64) :: b64EncodeGo rest

/-- Python .strip("=") removes = from both ends (the encoder never puts
one at the front). -/
def stripEq (l : List Nat) : List Nat :=
  (((l.dropWhile (fun c => c = 61)).reverse.dropWhile (fun c => c = 61)).reverse)

/-- base64.urlsafe_b64decode over 4-character groups; padding only in the
last group; anything else raises (none). -/
def b64DecodeGo : List Nat → Option (List Nat)
  | c1 :: c2 :: c3 :: c4 :: rest =>
      match b64Val c1, b64Val c2 with
      | some v1, some v2 =>
          if c3 = 61 ∧ c4 = 61 ∧ rest = [] then some [v1 * 4 + v2 / 16]
          else
            match b64Val c3 with
            | some v3 =>
                if c4 = 61 ∧ rest = [] then
                  some [v1 * 4 + v2 / 16, v2 % 16 * 16 + v3 / 4]
                else
                  match b64Val c4 with
                  | some v4 =>
                      (b64DecodeGo rest).map
                        (fun tl => (v1 * 4 + v2 / 16) :: (v2 % 16 * 16 + v3 / 4) ::
                          (v3 % 4 * 64 + v4) :: tl)
                  | none => none
            | none => none
      | _, _ => none
  | [] => some []
  | _ => none

/-- send.py 1124-1136: encrypt with the chosen random key (1..253). -/
def encrypt (key : Nat) (s : List Nat) : List Nat :=
  let s1 := fwdChain replacements s
  let r := key :: (utf8Encode s1).map (fun c => c.xor key)
  stripEq (b64EncodeGo r)

/- The email regex emailwordre (send.py 1121):
\b[A-Za-z0-9._%+-]+@[A-Za-z0-9.-]+\.[A-Za-z]{2,}\b
modeled over codepoints.  The searcher mirrors the backtracking order of
the engine: the character-class pluses take their maximal runs (a shorter
local run would put the mandatory @ on a local character, and a shorter
top-level run would put the trailing word boundary before a letter, so
those backtracks never succeed and are omitted), and the domain split is
tried at every dot from the rightmost to the left. -/

def isAlphaCp (c : Nat) : Bool :=
  (decide (65 ≤ c) && decide (c ≤ 90)) || (decide (97 ≤ c) && decide (c ≤ 122))

def isDigitCp (c : Nat) : Bool := decide (48 ≤ c) && decide (c ≤ 57)

/-- Python word characters [A-Za-z0-9_], for the boundary. -/
def isWordCp (c : Nat) : Bool := isAlphaCp c || isDigitCp c || decide (c = 95)

/-- [A-Za-z0-9._%+-] -/
def isLocalCp (c : Nat) : Bool :=
  isAlphaCp c || isDigitCp c || decide (c = 46) || decide (c = 95) ||
    decide (c = 37) || decide (c = 43) || decide (c = 45)

/-- [A-Za-z0-9.-] -/
def isDomainCp (c : Nat) : Bool :=
  isAlphaCp c || isDigitCp c || decide (c = 46) || decide (c = 45)

/-- All splits d1 ++ 46 :: d2 of a domain run, rightmost dot first — the
order the engine visits them with a greedy [A-Za-z0-9.-]+ before the
literal dot. -/
def dotSplitsRev : List Nat → List (List Nat × List Nat)
  | [] => []
  | c :: rest =>
      ((dotSplitsRev rest).map (fun pr => (c :: pr.1, pr.2))) ++
        (if c = 46 then [([], rest)] else [])

/-- One domain split attempt: greedy [A-Za-z]{2,} after the dot, then
the trailing word boundary against the next character (afterH is the
character following the whole domain run, if any). -/
def trySplit (afterH : Option Nat) (pr : List Nat × List Nat) :
    Option (List Nat) :=
  let a := pr.2.takeWhile isAlphaCp
  let nxtW :=
    if a.length < pr.2.length then isWordCp (pr.2.getD a.length 0)
    else match afterH with
      | some x => isWordCp x
      | none => false
  if 2 ≤ a.length ∧ nxtW = false then some (pr.1 ++ 46 :: a) else none

/-- Attempt a match of the whole pattern at the head of l, prev being the
character before l (for the leading word boundary). -/
def matchAt (prev : Option Nat) (l : List Nat) : Option (List Nat) :=
  let loc := l.takeWhile isLocalCp
  if loc.length = 0 then none
  else
    let bOk :=
      match prev with
      | none => isWordCp (loc.headD 0)
      | some p => !(isWordCp p == isWordCp (loc.headD 0))
    if bOk = false then none
    else
      match l.drop loc.length with
      | 64 :: rest2 =>
          let dom := rest2.takeWhile isDomainCp
          let afterH := (rest2.drop dom.length).head?
          match (dotSplitsRev dom).findSome? (trySplit afterH) with
          | some dpart => some (loc ++ 64 :: dpart)
          | none => none
      | _ => none

/-- re.search: try each start position left to right. -/
def searchGo (prev : Option Nat) : List Nat → Option (List Nat)
  | [] => none
  | c :: rest =>
      match matchAt prev (c :: rest) with
      | some m => some m
      | none => searchGo (some c) rest

def searchEmail (s : List Nat) : Option (List Nat) := searchGo none s

/-- send.py 1139-1154: unencrypt. -/
def unencrypt (s : List Nat) : Option (List Nat) :=
  let padding := (4 - s.length % 4) % 4
  match b64DecodeGo (s ++ List.replicate padding 61) with
  | none => none
  | some [] => none
  | some (key :: rest) =>
      let s1 := rest.map (fun a => a.xor key)
      let s2 := revChain replacements s1
      searchEmail s2

/-- The hypothesis side of C10: a plain email address as the adapter's
pattern sees it — a nonempty local part of [A-Za-z0-9._%+-] starting with
a word character (the leading word boundary), an @, a nonempty domain of
[A-Za-z0-9.-], a dot, and an alphabetic top-level label of length at
least two. -/
def isPlainEmail (s : List Nat) : Prop :=
  ∃ loc sub tld, s = loc ++ 64 :: (sub ++ 46 :: tld) ∧
    loc ≠ [] ∧ sub ≠ [] ∧ 2 ≤ tld.length ∧
    (∀ c ∈ loc, isLocalCp c = true) ∧ isWordCp (loc.headD 0) = true ∧
    (∀ c ∈ sub, isDomainCp c = true) ∧ (∀ c ∈ tld, isAlphaCp c = true)

end Crypto

namespace Crypto

theorem b64Val_b64Char : ∀ i, i < 64 → b64Val (b64Char i) = some i := by decide

theorem b64Char_ne_61 : ∀ i, i < 64 → b64Char i ≠ 61 := by decide

theorem b64_decode_encode :
    ∀ (n : Nat) (r : List Nat), r.length ≤ n → (∀ b ∈ r, b < 256) →
      b64DecodeGo (b64EncodeGo r) = some r := by
  intro n
  induction n with
  | zero =>
      intro r hl hb
      cases r with
      | nil => rfl
      | cons a t => simp at hl
  | succ n ih =>
      intro r hl hb
      rcases r with - | ⟨a, - | ⟨b, - | ⟨c, rest⟩⟩⟩
      · rfl
      · have ha : a < 256 := hb a (by simp)
        have h1 := b64Val_b64Char (a / 4) (by omega)
        have h2 := b64Val_b64Char (a % 4 * 16) (by omega)
        simp only [b64EncodeGo, b64DecodeGo, h1, h2]
        rw [if_pos (by simp)]
        simp only [Option.some.injEq, List.cons.injEq, and_true]
        omega
      · have ha : a < 256 := hb a (by simp)
        have hbb : b < 256 := hb b (by simp)
        have h1 := b64Val_b64Char (a / 4) (by omega)
        have h2 := b64Val_b64Char (a % 4 * 16 + b / 16) (by omega)
        have h3 := b64Val_b64Char (b % 16 * 4) (by omega)
        have hne := b64Char_ne_61 (b % 16 * 4) (by omega)
        simp only [b64EncodeGo, b64DecodeGo, h1, h2, h3]
        rw [if_neg (by simp [hne]), if_pos (by simp)]
        simp only [Option.some.injEq, List.cons.injEq, and_true]
        constructor
        · omega
        · omega
      · have ha : a < 256 := hb a (by simp)
        have hbb : b < 256 := hb b (by simp)
        have hc : c < 256 := hb c (by simp)
        have h1 := b64Val_b64Char (a / 4) (by omega)
        have h2 := b64Val_b64Char (a % 4 * 16 + b / 16) (by omega)
        have h3 := b64Val_b64Char (b % 16 * 4 + c / 64) (by omega)
        have h4 := b64Val_b64Char (c % 64) (by omega)
        have hne3 := b64Char_ne_61 (b % 16 * 4 + c / 64) (by omega)
        have hne4 := b64Char_ne_61 (c % 64) (by omega)
        have hrest : b64DecodeGo (b64EncodeGo rest) = some rest := by
          apply ih rest (by simp at hl; omega)
          intro x hx
          exact hb x (by simp [hx])
        simp only [b64EncodeGo, b64DecodeGo, h1, h2, h3, h4]
        rw [if_neg (by simp [hne3]), if_neg (by simp [hne4]), hrest]
        simp only [Option.map_some', Option.some.injEq, List.cons.injEq, and_true]
        refine ⟨by omega, by omega, by omega⟩

/-- Right strip of trailing = signs. -/
def rstrip (l : List Nat) : List Nat :=
  (l.reverse.dropWhile (fun c => c = 61)).reverse

theorem dropWhile_append_cases (p : Nat → Bool) :
    ∀ (a b : List Nat), List.dropWhile p (a ++ b) =
      (if List.dropWhile p a = [] then List.dropWhile p b
       else List.dropWhile p a ++ b) := by
  intro a
  induction a with
  | nil => intro b; simp
  | cons x t ih =>
      intro b
      by_cases hp : p x = true
      · simp only [List.cons_append, List.dropWhile_cons, hp, if_true]
        exact ih b
      · simp only [List.cons_append, List.dropWhile_cons, hp]
        simp [Bool.not_eq_true] at hp
        simp [hp]

theorem rstrip_append (a b : List Nat) (ha : ∀ c ∈ a, ¬ c = 61) :
    rstrip (a ++ b) = a ++ rstrip b := by
  unfold rstrip
  rw [List.reverse_append, dropWhile_append_cases]
  by_cases hb : List.dropWhile (fun c => decide (c = 61)) b.reverse = []
  · rw [if_pos hb]
    have haa : List.dropWhile (fun c => decide (c = 61)) a.reverse = a.reverse := by
      cases h : a.reverse with
      | nil => simp
      | cons x t =>
          have hx : x ∈ a := by
            have : x ∈ a.reverse := by rw [h]; simp
            simpa using this
          rw [List.dropWhile_cons, if_neg (by simp [ha x hx])]
    rw [haa, hb]
    simp
  · rw [if_neg hb]
    rw [List.reverse_append]
    simp

theorem rstrip_cons_ne (x : Nat) (t : List Nat) (hx : ¬ x = 61) :
    rstrip (x :: t) = x :: rstrip t := by
  have := rstrip_append [x] t (by simpa using hx)
  simpa using this

/-- The encoder output never begins with =, so stripEq is rstrip on it. -/
theorem stripEq_eq_rstrip (l : List Nat) (h : l.headD 0 ≠ 61 ∨ l = []) :
    stripEq l = rstrip l := by
  rcases h with h | h
  · cases l with
    | nil => rfl
    | cons x t =>
        unfold stripEq rstrip
        rw [List.dropWhile_cons, if_neg (by simp at h ⊢; exact h)]
  · subst h
    rfl

theorem pad_encode :
    ∀ (n : Nat) (r : List Nat), r.length ≤ n → (∀ b ∈ r, b < 256) →
      rstrip (b64EncodeGo r) ++
        List.replicate ((4 - (rstrip (b64EncodeGo r)).length % 4) % 4) 61 =
        b64EncodeGo r := by
  intro n
  induction n with
  | zero =>
      intro r hl hb
      cases r with
      | nil => rfl
      | cons a t => simp at hl
  | succ n ih =>
      intro r hl hb
      rcases r with - | ⟨a, - | ⟨b, - | ⟨c, rest⟩⟩⟩
      · rfl
      · have ha : a < 256 := hb a (by simp)
        have hne1 := b64Char_ne_61 (a / 4) (by omega)
        have hne2 := b64Char_ne_61 (a % 4 * 16) (by omega)
        have h61 : rstrip ([61, 61] : List Nat) = [] := by decide
        have he : b64EncodeGo [a] =
            b64Char (a / 4) :: b64Char (a % 4 * 16) :: ([61, 61] : List Nat) := rfl
        rw [he, rstrip_cons_ne _ _ hne1, rstrip_cons_ne _ _ hne2, h61]
        rfl
      · have ha : a < 256 := hb a (by simp)
        have hbb : b < 256 := hb b (by simp)
        have hne1 := b64Char_ne_61 (a / 4) (by omega)
        have hne2 := b64Char_ne_61 (a % 4 * 16 + b / 16) (by omega)
        have hne3 := b64Char_ne_61 (b % 16 * 4) (by omega)
        have h61 : rstrip ([61] : List Nat) = [] := by decide
        have he : b64EncodeGo [a, b] =
            b64Char (a / 4) :: b64Char (a % 4 * 16 + b / 16) ::
              b64Char (b % 16 * 4) :: ([61] : List Nat) := rfl
        rw [he, rstrip_cons_ne _ _ hne1, rstrip_cons_ne _ _ hne2,
          rstrip_cons_ne _ _ hne3, h61]
        rfl
      · have ha : a < 256 := hb a (by simp)
        have hbb : b < 256 := hb b (by simp)
        have hc : c < 256 := hb c (by simp)
        have hne1 := b64Char_ne_61 (a / 4) (by omega)
        have hne2 := b64Char_ne_61 (a % 4 * 16 + b / 16) (by omega)
        have hne3 := b64Char_ne_61 (b % 16 * 4 + c / 64) (by omega)
        have hne4 := b64Char_ne_61 (c % 64) (by omega)
        have hrec := ih rest (by simp at hl; omega)
          (fun x hx => hb x (by simp [hx]))
        have he : b64EncodeGo (a :: b :: c :: rest) =
            b64Char (a / 4) :: b64Char (a % 4 * 16 + b / 16) ::
              b64Char (b % 16 * 4 + c / 64) :: b64Char (c % 64) ::
                b64EncodeGo rest := rfl
        rw [he, rstrip_cons_ne _ _ hne1, rstrip_cons_ne _ _ hne2,
          rstrip_cons_ne _ _ hne3, rstrip_cons_ne _ _ hne4]
        simp only [List.length_cons, List.cons_append, List.cons.injEq, true_and]
        rw [show ((rstrip (b64EncodeGo rest)).length + 1 + 1 + 1 + 1) % 4 =
          (rstrip (b64EncodeGo rest)).length % 4 from by omega]
        exact hrec

end Crypto

namespace Crypto

theorem replaceGo_id (k0 : Nat) (kt v : List Nat) :
    ∀ (fuel : Nat) (s : List Nat), ¬ (k0 :: kt) <:+: s →
      replaceGo k0 kt v fuel s = s := by
  intro fuel
  induction fuel with
  | zero =>
      intro s hinf
      cases s with
      | nil => rfl
      | cons c rest => rfl
  | succ fuel ih =>
      intro s hinf
      cases s with
      | nil => rfl
      | cons c rest =>
          have hcond : ¬ (c = k0 ∧ kt.isPrefixOf rest) := by
            rintro ⟨hc, hp⟩
            obtain ⟨t, ht⟩ := List.isPrefixOf_iff_prefix.mp hp
            exact hinf ⟨[], t, by subst hc; rw [← ht]; simp⟩
          have hrest : ¬ (k0 :: kt) <:+: rest := by
            intro h
            obtain ⟨l, r, hlr⟩ := h
            exact hinf ⟨c :: l, r, by rw [← hlr]; simp⟩
          simp only [replaceGo]
          rw [if_neg hcond, ih rest hrest]

theorem replaceGo_single (k0 : Nat) (kt v : List Nat) :
    ∀ (fuel : Nat) (α β : List Nat), k0 ∉ α → ¬ (k0 :: kt) <:+: β →
      (α ++ (k0 :: kt) ++ β).length ≤ fuel →
      replaceGo k0 kt v fuel (α ++ (k0 :: kt) ++ β) = α ++ v ++ β := by
  intro fuel
  induction fuel with
  | zero =>
      intro α β hα hβ hlen
      simp at hlen
  | succ fuel ih =>
      intro α β hα hβ hlen
      cases α with
      | nil =>
          simp only [List.nil_append]
          simp only [replaceGo]
          rw [show kt.append β = kt ++ β from rfl]
          rw [if_pos (show True ∧ kt.isPrefixOf (kt ++ β) = true from
            ⟨trivial, List.isPrefixOf_iff_prefix.mpr ⟨β, rfl⟩⟩)]
          rw [List.drop_left, replaceGo_id k0 kt v fuel β hβ]
      | cons a α2 =>
          have ha : ¬ a = k0 := fun h => hα (h ▸ List.mem_cons_self a α2)
          simp only [List.cons_append]
          simp only [replaceGo]
          rw [if_neg]
          · rw [ih α2 β (fun h => hα (List.mem_cons_of_mem a h)) hβ
              (by simp at hlen ⊢; omega)]
          · rintro ⟨hc, -⟩
            exact ha hc

theorem replaceGo_mem (k0 : Nat) (kt v : List Nat) :
    ∀ (fuel : Nat) (s : List Nat) (c : Nat), c ∈ replaceGo k0 kt v fuel s →
      c ∈ s ∨ c ∈ v := by
  intro fuel
  induction fuel with
  | zero =>
      intro s c hc
      cases s with
      | nil => simp [replaceGo] at hc
      | cons x rest => exact Or.inl hc
  | succ fuel ih =>
      intro s c hc
      cases s with
      | nil => simp [replaceGo] at hc
      | cons x rest =>
          simp only [replaceGo] at hc
          by_cases hcond : x = k0 ∧ kt.isPrefixOf rest
          · rw [if_pos hcond] at hc
            rcases List.mem_append.mp hc with h | h
            · exact Or.inr h
            · rcases ih _ c h with h2 | h2
              · exact Or.inl (List.mem_cons_of_mem x (List.mem_of_mem_drop h2))
              · exact Or.inr h2
          · rw [if_neg hcond] at hc
            rcases List.mem_cons.mp hc with h | h
            · exact Or.inl (h ▸ List.mem_cons_self x rest)
            · rcases ih _ c h with h2 | h2
              · exact Or.inl (List.mem_cons_of_mem x h2)
              · exact Or.inr h2

theorem replaceStr_mem (k v s : List Nat) (c : Nat)
    (hc : c ∈ replaceStr k v s) : c ∈ s ∨ c ∈ v := by
  cases k with
  | nil => exact Or.inl hc
  | cons k0 kt => exact replaceGo_mem k0 kt v s.length s c hc

theorem replaceStr_id (k v s : List Nat) (hk : k ≠ []) (h : ¬ k <:+: s) :
    replaceStr k v s = s := by
  cases k with
  | nil => exact absurd rfl hk
  | cons k0 kt => exact replaceGo_id k0 kt v s.length s h

theorem replaceStr_single (k0 : Nat) (kt v α β : List Nat)
    (hα : k0 ∉ α) (hβ : ¬ (k0 :: kt) <:+: β) :
    replaceStr (k0 :: kt) v (α ++ (k0 :: kt) ++ β) = α ++ v ++ β :=
  replaceGo_single k0 kt v (α ++ (k0 :: kt) ++ β).length α β hα hβ le_rfl

theorem mem_of_infix_mem {l₁ l₂ : List Nat} (h : l₁ <:+: l₂) {c : Nat}
    (hc : c ∈ l₁) : c ∈ l₂ := h.sublist.mem hc

/-- Table facts about the replacements, checked by evaluation. -/
theorem replacements_facts :
    (∀ kv ∈ replacements, kv.1.headD 0 = 64 ∧ kv.1 ≠ [] ∧ 64 ∉ kv.1.tail ∧
      kv.2 ≠ 64 ∧ kv.2 < 128) ∧
    (replacements.map Prod.snd).Nodup := by decide

theorem fwd_id (T : List (List Nat × Nat)) (s : List Nat)
    (hT : ∀ kv ∈ T, kv.1 ≠ [])
    (h : ∀ kv ∈ T, ¬ kv.1 <:+: s) : fwdChain T s = s := by
  induction T with
  | nil => rfl
  | cons kv T2 ih =>
      show fwdChain T2 (replaceStr kv.1 [kv.2] s) = s
      rw [replaceStr_id kv.1 [kv.2] s (hT kv (List.mem_cons_self kv T2))
        (h kv (List.mem_cons_self kv T2))]
      exact ih (fun x hx => hT x (List.mem_cons_of_mem kv hx))
        (fun x hx => h x (List.mem_cons_of_mem kv hx))

theorem rev_id (T : List (List Nat × Nat)) (s : List Nat)
    (h : ∀ kv ∈ T, kv.2 ∉ s) : revChain T s = s := by
  induction T with
  | nil => rfl
  | cons kv T2 ih =>
      show revChain T2 (replaceStr [kv.2] kv.1 s) = s
      rw [replaceStr_id [kv.2] kv.1 s (by simp)]
      · exact ih (fun x hx => h x (List.mem_cons_of_mem kv hx))
      · intro hinf
        exact h kv (List.mem_cons_self kv T2) (mem_of_infix_mem hinf (by simp))

theorem find_match (T : List (List Nat × Nat)) (s : List Nat) :
    (∀ kv ∈ T, ¬ kv.1 <:+: s) ∨
    ∃ T1 kv T2, T = T1 ++ kv :: T2 ∧ (∀ kv2 ∈ T1, ¬ kv2.1 <:+: s) ∧
      kv.1 <:+: s := by
  induction T with
  | nil => exact Or.inl (by simp)
  | cons kv T2 ih =>
      by_cases h : kv.1 <:+: s
      · exact Or.inr ⟨[], kv, T2, rfl, by simp, h⟩
      · rcases ih with hall | ⟨T1, kv2, T3, heq, hno, hyes⟩
        · refine Or.inl ?_
          intro x hx
          rcases List.mem_cons.mp hx with h2 | h2
          · subst h2; exact h
          · exact hall x h2
        · refine Or.inr ⟨kv :: T1, kv2, T3, by simp [heq], ?_, hyes⟩
          intro x hx
          rcases List.mem_cons.mp hx with h2 | h2
          · subst h2; exact h
          · exact hno x h2

theorem chain_roundtrip (s : List Nat) (hs64 : s.count 64 ≤ 1)
    (hsv : ∀ kv ∈ replacements, kv.2 ∉ s) :
    revChain replacements (fwdChain replacements s) = s := by
  obtain ⟨hfacts, hnodup⟩ := replacements_facts
  have hTne : ∀ kv ∈ replacements, kv.1 ≠ [] := fun kv hkv => (hfacts kv hkv).2.1
  rcases find_match replacements s with hall | ⟨T1, kv, T2, heq, hno, hyes⟩
  · rw [fwd_id replacements s hTne hall]
    exact rev_id replacements s hsv
  · obtain ⟨hk64, -, hknone, hv64, -⟩ := hfacts kv (by rw [heq]; simp)
    obtain ⟨k0, kt, hk⟩ : ∃ k0 kt, kv.1 = k0 :: kt := by
      cases hkv1 : kv.1 with
      | nil => exact absurd hkv1 (hTne kv (by rw [heq]; simp))
      | cons a b => exact ⟨a, b, rfl⟩
    have hk0 : k0 = 64 := by rw [hk] at hk64; simpa using hk64
    obtain ⟨α, β, hαβ⟩ := hyes
    rw [hk] at hαβ
    have hco : α.count 64 = 0 ∧ β.count 64 = 0 := by
      have := hs64
      rw [← hαβ] at this
      rw [List.count_append, List.count_append] at this
      have hck : (k0 :: kt).count 64 = 1 := by
        rw [List.count_cons]
        rw [hk] at hknone
        simp only [List.tail_cons] at hknone
        rw [List.count_eq_zero.mpr hknone]
        simp [hk0]
      omega
    have h64α : 64 ∉ α := List.count_eq_zero.mp hco.1
    have h64β : 64 ∉ β := List.count_eq_zero.mp hco.2
    have hinfβ : ¬ (k0 :: kt) <:+: β := fun h =>
      h64β (mem_of_infix_mem h (by simp [hk0]))
    have hmemα : ∀ c ∈ α, c ∈ s := by
      intro c hc
      rw [← hαβ]
      simp [hc]
    have hmemβ : ∀ c ∈ β, c ∈ s := by
      intro c hc
      rw [← hαβ]
      simp [hc]
    -- forward chain
    have hf1 : fwdChain T1 s = s :=
      fwd_id T1 s (fun x hx => hTne x (by rw [heq]; simp [hx])) hno
    have hf2 : replaceStr kv.1 [kv.2] s = α ++ [kv.2] ++ β := by
      rw [hk, ← hαβ]
      exact replaceStr_single k0 kt [kv.2] α β (hk0 ▸ h64α) hinfβ
    have h64mid : (64 : Nat) ∉ α ++ [kv.2] ++ β := by
      intro h
      rcases List.mem_append.mp h with h2 | h2
      · rcases List.mem_append.mp h2 with h3 | h3
        · exact h64α h3
        · simp at h3
          exact hv64 h3.symm
      · exact h64β h2
    have hf3 : fwdChain T2 (α ++ [kv.2] ++ β) = α ++ [kv.2] ++ β := by
      apply fwd_id T2 _ (fun x hx => hTne x (by rw [heq]; simp [hx]))
      intro x hx hinf
      obtain ⟨hx64, hxne, -⟩ := hfacts x (by rw [heq]; simp [hx])
      obtain ⟨x0, xt, hxx⟩ : ∃ x0 xt, x.1 = x0 :: xt := by
        cases hxv : x.1 with
        | nil => exact absurd hxv hxne
        | cons a b => exact ⟨a, b, rfl⟩
      have : (64 : Nat) ∈ α ++ [kv.2] ++ β := by
        apply mem_of_infix_mem hinf
        rw [hxx]
        rw [hxx] at hx64
        simp at hx64
        simp [hx64]
      exact h64mid this
    have hfwd : fwdChain replacements s = α ++ [kv.2] ++ β := by
      rw [heq]
      unfold fwdChain
      rw [List.foldl_append]
      show fwdChain T2 (replaceStr kv.1 [kv.2] (fwdChain T1 s)) = _
      rw [hf1, hf2, hf3]
    -- reverse chain
    have hvdisj : kv.2 ∉ T1.map Prod.snd := by
      have h2 : (T1.map Prod.snd ++ (kv :: T2).map Prod.snd).Nodup := by
        rw [← List.map_append, ← heq]
        exact hnodup
      have hd := List.disjoint_of_nodup_append h2
      intro h
      exact hd h (by simp)
    have hr1 : revChain T1 (α ++ [kv.2] ++ β) = α ++ [kv.2] ++ β := by
      apply rev_id
      intro x hx h
      rcases List.mem_append.mp h with h2 | h2
      · rcases List.mem_append.mp h2 with h3 | h3
        · exact hsv x (by rw [heq]; simp [hx]) (hmemα x.2 h3)
        · simp at h3
          exact hvdisj (h3 ▸ List.mem_map_of_mem Prod.snd hx)
      · exact hsv x (by rw [heq]; simp [hx]) (hmemβ x.2 h2)
    have hvα : kv.2 ∉ α := fun h => hsv kv (by rw [heq]; simp) (hmemα kv.2 h)
    have hvβ : kv.2 ∉ β := fun h => hsv kv (by rw [heq]; simp) (hmemβ kv.2 h)
    have hr2 : replaceStr [kv.2] kv.1 (α ++ [kv.2] ++ β) = s := by
      have := replaceStr_single kv.2 [] kv.1 α β hvα
        (fun h => hvβ (mem_of_infix_mem h (by simp)))
      rw [this, hk, hαβ]
    have hr3 : revChain T2 s = s := by
      apply rev_id
      intro x hx
      exact hsv x (by rw [heq]; simp [hx])
    rw [hfwd, heq]
    unfold revChain
    rw [List.foldl_append]
    show revChain T2 (replaceStr [kv.2] kv.1 (revChain T1 (α ++ [kv.2] ++ β))) = s
    rw [hr1, hr2, hr3]

end Crypto

namespace Crypto

theorem utf8_ascii (s : List Nat) (h : ∀ c ∈ s, c < 128) : utf8Encode s = s := by
  induction s with
  | nil => rfl
  | cons c t ih =>
      have hc : utf8Bytes c = [c] := by
        rw [utf8Bytes, if_pos (h c (List.mem_cons_self c t))]
      show (List.map utf8Bytes (c :: t)).flatten = c :: t
      rw [List.map_cons, List.flatten_cons, hc]
      simp only [List.singleton_append, List.cons.injEq, true_and]
      exact ih (fun x hx => h x (List.mem_cons_of_mem c hx))

theorem xor_roundtrip (key : Nat) (s : List Nat) :
    (s.map (fun c => c.xor key)).map (fun a => a.xor key) = s := by
  rw [List.map_map]
  have : ∀ x ∈ s, ((fun a => a.xor key) ∘ fun c => c.xor key) x = id x := by
    intro x hx
    show (x ^^^ key) ^^^ key = x
    exact Nat.xor_cancel_right key x
  rw [List.map_congr_left this, List.map_id]

theorem fwdChain_mem :
    ∀ (T : List (List Nat × Nat)) (s : List Nat) (c : Nat),
      c ∈ fwdChain T s → c ∈ s ∨ ∃ kv ∈ T, c = kv.2 := by
  intro T
  induction T with
  | nil => intro s c hc; exact Or.inl hc
  | cons kv T2 ih =>
      intro s c hc
      rcases ih (replaceStr kv.1 [kv.2] s) c hc with h | ⟨kv2, hkv2, hc2⟩
      · rcases replaceStr_mem kv.1 [kv.2] s c h with h2 | h2
        · exact Or.inl h2
        · simp at h2
          exact Or.inr ⟨kv, List.mem_cons_self kv T2, h2⟩
      · exact Or.inr ⟨kv2, List.mem_cons_of_mem kv hkv2, hc2⟩

theorem takeWhile_all_append (p : Nat → Bool) :
    ∀ (l : List Nat) (x : Nat) (r : List Nat), (∀ c ∈ l, p c = true) →
      p x = false → (l ++ x :: r).takeWhile p = l := by
  intro l
  induction l with
  | nil =>
      intro x r h hx
      rw [List.nil_append, List.takeWhile_cons, if_neg (by simp [hx])]
  | cons c t ih =>
      intro x r h hx
      rw [List.cons_append, List.takeWhile_cons,
        if_pos (h c (List.mem_cons_self c t)),
        ih x r (fun d hd => h d (List.mem_cons_of_mem c hd)) hx]

theorem nodot_splits : ∀ (l : List Nat), (∀ c ∈ l, c ≠ 46) →
    dotSplitsRev l = [] := by
  intro l
  induction l with
  | nil => intro h; rfl
  | cons c t ih =>
      intro h
      rw [dotSplitsRev, ih (fun d hd => h d (List.mem_cons_of_mem c hd)),
        if_neg (h c (List.mem_cons_self c t))]
      rfl

theorem dotSplitsRev_head :
    ∀ (sub tld : List Nat), (∀ c ∈ tld, c ≠ 46) →
      ∃ r0, dotSplitsRev (sub ++ 46 :: tld) = (sub, tld) :: r0 := by
  intro sub
  induction sub with
  | nil =>
      intro tld h
      refine ⟨[], ?_⟩
      rw [List.nil_append, dotSplitsRev, nodot_splits tld h, if_pos rfl]
      rfl
  | cons c sub2 ih =>
      intro tld h
      obtain ⟨r0, hr0⟩ := ih tld h
      refine ⟨(dotSplitsRev (sub2 ++ 46 :: tld)).tail.map
        (fun pr => (c :: pr.1, pr.2)) ++ (if c = 46 then [([], sub2 ++ 46 :: tld)] else []), ?_⟩
      rw [List.cons_append, dotSplitsRev, hr0]
      simp [hr0]

theorem alpha_isDomain (c : Nat) (h : isAlphaCp c = true) : isDomainCp c = true := by
  rw [isDomainCp, h]
  rfl

theorem alpha_ne_46 (c : Nat) (h : isAlphaCp c = true) : c ≠ 46 := by
  intro he
  subst he
  simp [isAlphaCp] at h

theorem search_plain (s : List Nat) (h : isPlainEmail s) :
    searchEmail s = some s := by
  obtain ⟨loc, sub, tld, hse, hl, hsne, ht2, hlc, hw, hsc, hta⟩ := h
  cases loc with
  | nil => exact absurd rfl hl
  | cons c0 loc2 =>
  subst hse
  have hTW : ((c0 :: loc2) ++ 64 :: (sub ++ 46 :: tld)).takeWhile isLocalCp =
      c0 :: loc2 :=
    takeWhile_all_append isLocalCp (c0 :: loc2) 64 (sub ++ 46 :: tld) hlc (by decide)
  have hDR : ((c0 :: loc2) ++ 64 :: (sub ++ 46 :: tld)).drop (c0 :: loc2).length =
      64 :: (sub ++ 46 :: tld) := List.drop_left (c0 :: loc2) _
  have hdall : ∀ c ∈ sub ++ 46 :: tld, isDomainCp c = true := by
    intro c hc
    rcases List.mem_append.mp hc with h2 | h2
    · exact hsc c h2
    · rcases List.mem_cons.mp h2 with h3 | h3
      · subst h3; decide
      · exact alpha_isDomain c (hta c h3)
  have hTW2 : (sub ++ 46 :: tld).takeWhile isDomainCp = sub ++ 46 :: tld :=
    List.takeWhile_eq_self_iff.mpr hdall
  have hTld : tld.takeWhile isAlphaCp = tld := List.takeWhile_eq_self_iff.mpr hta
  obtain ⟨r0, hr0⟩ := dotSplitsRev_head sub tld (fun c hc => alpha_ne_46 c (hta c hc))
  have hTS : trySplit none (sub, tld) = some (sub ++ 46 :: tld) := by
    rw [trySplit]
    simp only [hTld]
    rw [if_neg (lt_irrefl tld.length)]
    rw [if_pos ⟨ht2, rfl⟩]
  have hmatch : matchAt none ((c0 :: loc2) ++ 64 :: (sub ++ 46 :: tld)) =
      some ((c0 :: loc2) ++ 64 :: (sub ++ 46 :: tld)) := by
    rw [matchAt]
    simp only [hTW, hDR]
    rw [if_neg (by simp)]
    rw [if_neg (by simp at hw ⊢; simp [hw])]
    simp only [hTW2, List.drop_length, List.head?_nil, hr0,
      List.findSome?_cons, hTS]
  rw [List.cons_append, searchEmail, searchGo, ← List.cons_append, hmatch]
end Crypto

namespace Crypto

theorem enc_head (a : Nat) (t : List Nat) :
    (b64EncodeGo (a :: t)).headD 0 = b64Char (a / 4) := by
  cases t with
  | nil => rfl
  | cons b t2 =>
      cases t2 with
      | nil => rfl
      | cons c t3 => rfl

theorem isAlphaCp_lt (c : Nat) (h : isAlphaCp c = true) : c < 128 := by
  rw [isAlphaCp] at h
  simp only [Bool.or_eq_true, Bool.and_eq_true, decide_eq_true_eq] at h
  rcases h with ⟨h1, h2⟩ | ⟨h1, h2⟩ <;> omega

theorem isDigitCp_lt (c : Nat) (h : isDigitCp c = true) : c < 128 := by
  rw [isDigitCp] at h
  simp only [Bool.and_eq_true, decide_eq_true_eq] at h
  omega

theorem isLocalCp_lt (c : Nat) (h : isLocalCp c = true) : c < 128 := by
  rw [isLocalCp] at h
  simp only [Bool.or_eq_true, decide_eq_true_eq] at h
  rcases h with ((((((h | h) | h) | h) | h) | h) | h)
  · exact isAlphaCp_lt c h
  · exact isDigitCp_lt c h
  all_goals omega

theorem isDomainCp_lt (c : Nat) (h : isDomainCp c = true) : c < 128 := by
  rw [isDomainCp] at h
  simp only [Bool.or_eq_true, decide_eq_true_eq] at h
  rcases h with ((h | h) | h) | h
  · exact isAlphaCp_lt c h
  · exact isDigitCp_lt c h
  all_goals omega

end Crypto

/-- C10: for every plain email address matching the adapter pattern and
every key byte the encoder may pick, unencrypt(encrypt(s)) = s. -/
theorem c10_encrypt_roundtrip (s : List Nat) (key : Nat)
    (hs : Crypto.isPlainEmail s) (hk1 : 1 ≤ key) (hk2 : key ≤ 253) :
    Crypto.unencrypt (Crypto.encrypt key s) = some s := by
  have hs2 := hs
  obtain ⟨loc, sub, tld, hse, hl, hsne, ht2, hlc, hw, hsc, hta⟩ := hs2
  have hascii : ∀ c ∈ s, c < 128 := by
    intro c hc
    rw [hse] at hc
    rcases List.mem_append.mp hc with h2 | h2
    · exact Crypto.isLocalCp_lt c (hlc c h2)
    · rcases List.mem_cons.mp h2 with h3 | h3
      · omega
      · rcases List.mem_append.mp h3 with h4 | h4
        · exact Crypto.isDomainCp_lt c (hsc c h4)
        · rcases List.mem_cons.mp h4 with h5 | h5
          · omega
          · exact Crypto.isAlphaCp_lt c (hta c h5)
  have h64loc : (64 : Nat) ∉ loc := by
    intro h
    have h2 := hlc 64 h
    rw [show Crypto.isLocalCp 64 = false from by decide] at h2
    exact Bool.noConfusion h2
  have h64sub : (64 : Nat) ∉ sub := by
    intro h
    have h2 := hsc 64 h
    rw [show Crypto.isDomainCp 64 = false from by decide] at h2
    exact Bool.noConfusion h2
  have h64tld : (64 : Nat) ∉ tld := by
    intro h
    have h2 := hta 64 h
    rw [show Crypto.isAlphaCp 64 = false from by decide] at h2
    exact Bool.noConfusion h2
  have hs64 : s.count 64 ≤ 1 := by
    have h1 : s.count 64 = 1 := by
      rw [hse]
      simp [List.count_append, List.count_cons, List.count_eq_zero.mpr h64loc,
        List.count_eq_zero.mpr h64sub, List.count_eq_zero.mpr h64tld]
    omega
  have hFv : ∀ kv ∈ Crypto.replacements, Crypto.isLocalCp kv.2 = false ∧
      Crypto.isDomainCp kv.2 = false ∧ Crypto.isAlphaCp kv.2 = false ∧
      kv.2 ≠ 64 ∧ kv.2 ≠ 46 := by decide
  have hsv : ∀ kv ∈ Crypto.replacements, kv.2 ∉ s := by
    intro kv hkv hmem
    obtain ⟨hv1, hv2, hv3, hv4, hv5⟩ := hFv kv hkv
    rw [hse] at hmem
    rcases List.mem_append.mp hmem with h2 | h2
    · rw [hlc kv.2 h2] at hv1
      exact Bool.noConfusion hv1
    · rcases List.mem_cons.mp h2 with h3 | h3
      · exact hv4 h3
      · rcases List.mem_append.mp h3 with h4 | h4
        · rw [hsc kv.2 h4] at hv2
          exact Bool.noConfusion hv2
        · rcases List.mem_cons.mp h4 with h5 | h5
          · exact hv5 h5
          · rw [hta kv.2 h5] at hv3
            exact Bool.noConfusion hv3
  have hs1 : ∀ c ∈ Crypto.fwdChain Crypto.replacements s, c < 128 := by
    intro c hc
    rcases Crypto.fwdChain_mem _ s c hc with h | ⟨kv, hkv, rfl⟩
    · exact hascii c h
    · exact (Crypto.replacements_facts.1 kv hkv).2.2.2.2
  have hutf : Crypto.utf8Encode (Crypto.fwdChain Crypto.replacements s) =
      Crypto.fwdChain Crypto.replacements s := Crypto.utf8_ascii _ hs1
  have henc : Crypto.encrypt key s =
      Crypto.stripEq (Crypto.b64EncodeGo (key ::
        (Crypto.fwdChain Crypto.replacements s).map (fun c => c.xor key))) := by
    rw [Crypto.encrypt, hutf]
  have hrb : ∀ b ∈ key ::
      (Crypto.fwdChain Crypto.replacements s).map (fun c => c.xor key), b < 256 := by
    intro b hb
    rcases List.mem_cons.mp hb with rfl | hb2
    · omega
    · obtain ⟨c, hc, rfl⟩ := List.mem_map.mp hb2
      have h1 : c < 128 := hs1 c hc
      have h2 : c ^^^ key < 2 ^ 8 := Nat.xor_lt_two_pow (by omega) (by omega)
      have h8 : (2 : Nat) ^ 8 = 256 := by norm_num
      rw [h8] at h2
      exact h2
  have hfin : ∀ t : List Nat, (∀ b ∈ key :: t, b < 256) →
      t.map (fun a => a.xor key) = Crypto.fwdChain Crypto.replacements s →
      Crypto.unencrypt (Crypto.stripEq (Crypto.b64EncodeGo (key :: t))) = some s := by
    intro t hbt hback
    have hhead : (Crypto.b64EncodeGo (key :: t)).headD 0 ≠ 61 := by
      rw [Crypto.enc_head]
      exact Crypto.b64Char_ne_61 (key / 4) (by omega)
    have hstrip : Crypto.stripEq (Crypto.b64EncodeGo (key :: t)) =
        Crypto.rstrip (Crypto.b64EncodeGo (key :: t)) :=
      Crypto.stripEq_eq_rstrip _ (Or.inl hhead)
    have hpad := Crypto.pad_encode (key :: t).length (key :: t) le_rfl hbt
    have hdec := Crypto.b64_decode_encode (key :: t).length (key :: t) le_rfl hbt
    rw [hstrip, Crypto.unencrypt, hpad, hdec]
    show Crypto.searchEmail (Crypto.revChain Crypto.replacements
      (t.map (fun a => a.xor key))) = some s
    rw [hback, Crypto.chain_roundtrip s hs64 hsv]
    exact Crypto.search_plain s hs
  rw [henc]
  apply hfin
  · exact hrb
  · exact Crypto.xor_roundtrip key (Crypto.fwdChain Crypto.replacements s)

theorem c10_encrypt_roundtrip_witness :
    Crypto.isPlainEmail [97, 64, 98, 46, 99, 111] ∧ 1 ≤ 7 ∧ 7 ≤ 253 ∧
    Crypto.unencrypt (Crypto.encrypt 7 [97, 64, 98, 46, 99, 111]) =
      some [97, 64, 98, 46, 99, 111] :=
  ⟨⟨[97], [98], [99, 111], rfl, by decide, by decide, by decide, by decide,
      by decide, by decide, by decide⟩, by decide, by decide,
    c10_encrypt_roundtrip [97, 64, 98, 46, 99, 111] 7
      ⟨[97], [98], [99, 111], rfl, by decide, by decide, by decide, by decide,
        by decide, by decide, by decide⟩ (by decide) (by decide)⟩
